import Mathlib

/-!
# memsim: paged virtual memory with page replacement

A shallow embedding of `src/memsim.c` and theorems about it.

Conventions of the embedding.

* C arrays are total functions on `Nat` (`a[i] = v` is `upd a i v`); the bounds of the
  indices used are the subject of separate statements.
* The one-bit fields `r`, `m`, `v` of a page-table entry are `Bool`; the 13-bit field `frame`
  is a `Nat` and every store into it is reduced modulo `2^13`.
* The swap file is a function from byte position to byte; a frame or page is a function from
  byte index to byte.
* `for` loops are written with `forLoop` (ascending) or by recursion on the loop variable
  (descending); loops with `break` and the `while` loop are recursive functions on the number
  of iterations left.
* A result `none` stands for the places where the C program has no defined behaviour
  (an array indexed with `-1`) or leaves the simulation (`exit(1)`).
* The two page-table levels run the same text over different tables: `pt.entries` indexed by
  `vpn` for level 1 (lines 190-530), `pt_array[pte1].entries` indexed by `pte2` for level 2
  (lines 532-760).  The embedding has that text once, in `translateRef`, parameterised by the table
  and the index; the only difference, the empty ECLOCK branch of level 2 (lines 686-689), is
  the flag `eclockImpl`.
* The diagnostic `printf` calls are not modelled, except that the victim page they print is
  kept in the record of a reference.
* `tick` is positive in every run that the C program completes: `i % tick` is evaluated from
  the second reference on and has no defined behaviour for `tick = 0`.  For `tick = 0` the
  embedding takes the test of the aging step as false.
-/

namespace Memsim

/-! ## Data -/

/-- Replacement algorithm: the four values of `algo` that `read_args` lets through. -/
inductive Algo where
  | FIFO
  | LRU
  | CLOCK
  | ECLOCK
deriving DecidableEq, Repr

/-- Command line parameters used by the simulation loop. -/
structure Config where
  level : Nat
  fcount : Nat
  algo : Algo
  tick : Nat
deriving DecidableEq, Repr

/-- Page table entry `PTE`. -/
structure PTE where
  frame : Nat
  r : Bool
  m : Bool
  v : Bool
deriving DecidableEq, Repr

/-- Memory reference `Ref`. -/
structure Ref where
  type : Char
  addr : Nat
  value : Nat
deriving DecidableEq, Repr

/-- The globals and locals of `main` other than the page tables. -/
structure Mem where
  pm : Nat → Nat → Nat
  swap : Nat → Nat
  next_empty_frame : Nat
  lru_order : Nat → Nat
  fifo_order : Nat → Nat
  clock_hand_order : Nat → Nat
  eclock_hand_order : Nat → Nat
  clock_hand : Nat
  eclock_hand : Nat
  pfault_count : Nat

/-- Simulation state: `pt` is the flat table, `pt_array` the 32 lazily allocated tables. -/
structure State extends Mem where
  pt : Nat → PTE
  pt_array : Nat → Option (Nat → PTE)

/-- What is known about one reference once it is handled: the fields of the output line, and
the branch taken and victim page (printed by the diagnostics). -/
structure Record where
  addr : Nat
  pte1 : Nat
  pte2 : Nat
  offset : Nat
  pfn : Int
  pa : Int
  pageFault : Bool
  replaced : Bool
  victim : Option Nat
deriving DecidableEq, Repr

/-! ## Array primitives and loops -/

/-- Array store `a[i] = v`. -/
def upd {α : Type} (a : Nat → α) (i : Nat) (v : α) : Nat → α :=
  fun j => if j = i then v else a j

/-- Loop `for (i = lo; i < lo + n; i++) body`. -/
def forLoop {σ : Type} (body : Nat → σ → σ) : Nat → Nat → σ → σ
  | _, 0, s => s
  | i, n + 1, s => forLoop body (i + 1) n (body i s)

/-- `PAGE_SIZE`. -/
def PAGE_SIZE : Nat := 64

/-- `fseek(swap_file, p * PAGE_SIZE, SEEK_SET); fread(&page, sizeof(Page), 1, swap_file)`. -/
def readPage (swap : Nat → Nat) (p : Nat) : Nat → Nat :=
  fun i => swap (p * PAGE_SIZE + i)

/-- `fseek(swap_file, p * PAGE_SIZE, SEEK_SET); fwrite(&frame, sizeof(Frame), 1, swap_file)`. -/
def writePage (swap : Nat → Nat) (p : Nat) (frame : Nat → Nat) : Nat → Nat :=
  fun j => if p * PAGE_SIZE ≤ j ∧ j < p * PAGE_SIZE + PAGE_SIZE then frame (j - p * PAGE_SIZE)
    else swap j

/-- `for (i = lo; i < PAGE_SIZE; i++) dst[i] = src[i]`. -/
def copyFrom (lo : Nat) (src dst : Nat → Nat) : Nat → Nat :=
  forLoop (fun i d => upd d i (src i)) lo (PAGE_SIZE - lo) dst

/-- `for (i = 0; i < size - 1; i++) a[i] = a[i + 1]; a[size - 1] = x`
(lines 239-243, 331-335, 448-452, 489-493). -/
def shiftIn (size : Nat) (a : Nat → Nat) (x : Nat) : Nat → Nat :=
  upd (forLoop (fun i b => upd b i (b (i + 1))) 0 (size - 1) a) (size - 1) x

/-- Search loop of `update_lru_order` (lines 958-964): the first `i` in `[lo, lo + n)` with
`lru_order[i] == vpn`, or `none` for `index == -1`. -/
def lruFind (a : Nat → Nat) (vpn : Nat) : Nat → Nat → Option Nat
  | _, 0 => none
  | i, n + 1 => if a i = vpn then some i else lruFind a vpn (i + 1) n

/-- Loop `for (i = k; i > 0; i--) a[i] = a[i - 1]` (lines 966-968, 972-974). -/
def shiftUp (a : Nat → Nat) : Nat → Nat → Nat
  | 0 => a
  | i + 1 => shiftUp (upd a (i + 1) (a i)) i

/-- C function `update_lru_order(vpn, pm_size, levels)` on the global `lru_order`. -/
def update_lru_order (lru_order : Nat → Nat) (vpn pm_size : Nat) : Nat → Nat :=
  match lruFind lru_order vpn 0 pm_size with
  | some index => upd (shiftUp lru_order index) 0 vpn
  | none => upd (shiftUp lru_order (pm_size - 1)) 0 vpn

/-! ## Address translation (lines 168-173) -/

/-- `vpn = ref.addr >> 6`. -/
def vpnOf (addr : Nat) : Nat := addr >>> 6

/-- `offset = ref.addr & 0x3f`. -/
def offsetOf (addr : Nat) : Nat := addr &&& 0x3f

/-- `pte1 = (level == 1) ? vpn : (vpn >> 5)`. -/
def pte1Of (level addr : Nat) : Nat :=
  if level = 1 then vpnOf addr else vpnOf addr >>> 5

/-- `pte2 = (level == 1) ? 0 : (vpn & 0x1f)`. -/
def pte2Of (level addr : Nat) : Nat :=
  if level = 1 then 0 else vpnOf addr &&& 0x1f

/-! ## Victim selection -/

/-- CLOCK victim loop `while (!found)` (lines 292-300, 639-647), with the number of iterations
left as first argument.  Result: the table, the hand and the victim page; `none` when the
iterations run out. -/
def clockSelect (size : Nat) (order : Nat → Nat) :
    Nat → (Nat → PTE) → Nat → Option ((Nat → PTE) × Nat × Nat)
  | 0, _, _ => none
  | fuel + 1, tbl, hand =>
    if (tbl (order hand)).r = false then some (tbl, hand, order hand)
    else clockSelect size order fuel
      (upd tbl (order hand) { tbl (order hand) with r := false }) ((hand + 1) % size)

/-- One ECLOCK pass (lines 350-362, 368-380, 388-398, 406-416): at most `n` slots are looked
at; a slot with `r == 0 && m == wantM` is the victim; pass 2 (`clear`) resets an `r` bit that
is set.  The hand moves one slot for every slot looked at, the victim's included.  Result:
the table, the hand, and the victim or `none` for `victim_page == -1`. -/
def eclockPass (size : Nat) (order : Nat → Nat) (wantM clear : Bool) :
    Nat → (Nat → PTE) → Nat → (Nat → PTE) × Nat × Option Nat
  | 0, tbl, hand => (tbl, hand, none)
  | n + 1, tbl, hand =>
    if (tbl (order hand)).r = false ∧ (tbl (order hand)).m = wantM then
      (tbl, (hand + 1) % size, some (order hand))
    else
      eclockPass size order wantM clear n
        (if clear = true ∧ (tbl (order hand)).r = true then
          upd tbl (order hand) { tbl (order hand) with r := false } else tbl)
        ((hand + 1) % size)

/-- ECLOCK victim selection, steps 1 to 4 (lines 343-417). -/
def eclockSelect (size : Nat) (order : Nat → Nat) (tbl : Nat → PTE) (hand : Nat) :
    (Nat → PTE) × Nat × Option Nat :=
  let r1 := eclockPass size order false false size tbl hand
  if r1.2.2 ≠ none then r1 else
  let r2 := eclockPass size order true true size r1.1 r1.2.1
  if r2.2.2 ≠ none then r2 else
  let r3 := eclockPass size order false false (size - 1) r2.1 r2.2.1
  if r3.2.2 ≠ none then r3 else
  eclockPass size order true false (size - 1) r3.1 r3.2.1

/-! ## Handling one reference -/

/-- Table, memory and frame number after the hit/fault part of a reference, with the page
fault flag, whether the replacement branch was taken, and the victim. -/
structure Outcome where
  tbl : Nat → PTE
  mem : Mem
  pfn : Int
  pageFault : Bool
  replaced : Bool
  victim : Option Nat

/-- The text common to every replacement branch once the victim is known (lines 212-236 and
its copies): the victim's frame, write-back of a modified victim, the page read at the
victim's position of the swap file, the entry of the faulting page, and the copy into the
frame from byte 1 on.  Result: table, physical memory, swap file and `victim_frame`. -/
def swapIn (tbl : Nat → PTE) (m : Mem) (idx victim_page : Nat) :
    (Nat → PTE) × (Nat → Nat → Nat) × (Nat → Nat) × Nat :=
  let victim_frame := (tbl victim_page).frame
  let swap1 := if (tbl victim_page).m = true then
      writePage m.swap victim_page (m.pm victim_frame) else m.swap
  let page := readPage swap1 victim_page
  let tbl1 := upd tbl idx { frame := victim_frame % 8192, r := true, m := false, v := true }
  let pm1 := upd m.pm victim_frame (copyFrom 1 page (m.pm victim_frame))
  (tbl1, pm1, swap1, victim_frame)

/-- Branch `next_empty_frame >= pm.size` (lines 201-460, 549-693) after the fault has been
counted. -/
def replacePage (c : Config) (eclockImpl : Bool) (tbl : Nat → PTE) (m : Mem) (idx : Nat) :
    Option Outcome :=
  match c.algo with
  | Algo.FIFO =>
    let victim_page := m.fifo_order 0
    let r := swapIn tbl m idx victim_page
    some { tbl := r.1,
           mem := { m with pm := r.2.1, swap := r.2.2.1,
                           fifo_order := shiftIn c.fcount m.fifo_order idx },
           pfn := r.2.2.2, pageFault := true, replaced := true, victim := some victim_page }
  | Algo.LRU =>
    let victim_page := m.lru_order (c.fcount - 1)
    let r := swapIn tbl m idx victim_page
    some { tbl := r.1,
           mem := { m with pm := r.2.1, swap := r.2.2.1,
                           lru_order := update_lru_order m.lru_order idx c.fcount },
           pfn := r.2.2.2, pageFault := true, replaced := true, victim := some victim_page }
  | Algo.CLOCK =>
    match clockSelect c.fcount m.clock_hand_order (c.fcount + 1) tbl m.clock_hand with
    | none => none
    | some (tbl0, hand, victim_page) =>
      let r := swapIn tbl0 m idx victim_page
      some { tbl := r.1,
             mem := { m with pm := r.2.1, swap := r.2.2.1, clock_hand := hand,
                             clock_hand_order := shiftIn c.fcount m.clock_hand_order idx },
             pfn := r.2.2.2, pageFault := true, replaced := true, victim := some victim_page }
  | Algo.ECLOCK =>
    if eclockImpl = true then
      match eclockSelect c.fcount m.eclock_hand_order tbl m.eclock_hand with
      | (_, _, none) => none
      | (tbl0, hand, some victim_page) =>
        let r := swapIn tbl0 m idx victim_page
        some { tbl := r.1,
               mem := { m with pm := r.2.1, swap := r.2.2.1, eclock_hand := hand,
                               eclock_hand_order := shiftIn c.fcount m.eclock_hand_order idx },
               pfn := r.2.2.2, pageFault := true, replaced := true,
               victim := some victim_page }
    else
      some { tbl := tbl, mem := m, pfn := -1, pageFault := true, replaced := true,
             victim := none }

/-- Branch "Empty frame found" (lines 461-497, 695-731) after the fault has been counted. -/
def loadFree (c : Config) (tbl : Nat → PTE) (m : Mem) (idx : Nat) : Outcome :=
  let page := readPage m.swap idx
  let empty_frame := m.next_empty_frame
  let frame := copyFrom 0 page (fun _ => 0)
  { tbl := upd tbl idx { frame := empty_frame % 8192, r := true, m := false, v := true },
    mem := { m with next_empty_frame := m.next_empty_frame + 1,
                    pm := upd m.pm empty_frame frame,
                    fifo_order := shiftIn c.fcount m.fifo_order idx,
                    lru_order := update_lru_order m.lru_order idx c.fcount },
    pfn := empty_frame, pageFault := true, replaced := false, victim := none }

/-- Branch "Page hit" (lines 499-518, 733-747). -/
def pageHit (c : Config) (tbl : Nat → PTE) (m : Mem) (idx : Nat) : Outcome :=
  { tbl := upd tbl idx { tbl idx with r := true },
    mem := { m with clock_hand := (m.clock_hand + 1) % c.fcount,
                    lru_order := update_lru_order m.lru_order idx c.fcount },
    pfn := (tbl idx).frame, pageFault := false, replaced := false, victim := none }

/-- The hit/fault part of a reference (lines 192-518, 540-747). -/
def lookup (c : Config) (eclockImpl : Bool) (tbl : Nat → PTE) (m : Mem) (idx : Nat) :
    Option Outcome :=
  if (tbl idx).v = false then
    if m.next_empty_frame ≥ c.fcount then
      replacePage c eclockImpl tbl { m with pfault_count := m.pfault_count + 1 } idx
    else
      some (loadFree c tbl { m with pfault_count := m.pfault_count + 1 } idx)
  else
    some (pageHit c tbl m idx)

/-- The write of a `w` reference (lines 523-530, 752-759); a read leaves everything as it
is.  The frame number `-1` left by the empty branch has no frame. -/
def storeByte (o : Outcome) (idx offset : Nat) (ref : Ref) :
    Option ((Nat → PTE) × Mem) :=
  if ref.type = 'w' then
    if o.pfn < 0 then none
    else
      let frame := upd (o.mem.pm o.pfn.toNat) offset (ref.value % 256)
      some (upd o.tbl idx { o.tbl idx with m := true },
            { o.mem with pm := upd o.mem.pm o.pfn.toNat frame })
  else some (o.tbl, o.mem)

/-- One reference over the table `tbl` indexed by `idx`: `vpn` over `pt.entries` for level 1
(lines 190-530), `pte2` over `pt_array[pte1].entries` for level 2 (lines 540-759). -/
def translateRef (c : Config) (eclockImpl : Bool) (tbl : Nat → PTE) (m : Mem) (idx : Nat)
    (ref : Ref) : Option ((Nat → PTE) × Mem × Record) :=
  match lookup c eclockImpl tbl m idx with
  | none => none
  | some o =>
    match storeByte o idx (offsetOf ref.addr) ref with
    | none => none
    | some (tbl1, m1) =>
      some (tbl1, m1,
        { addr := ref.addr, pte1 := pte1Of c.level ref.addr, pte2 := pte2Of c.level ref.addr,
          offset := offsetOf ref.addr, pfn := o.pfn,
          pa := o.pfn * (PAGE_SIZE : Int) + (offsetOf ref.addr : Int),
          pageFault := o.pageFault, replaced := o.replaced, victim := o.victim })

/-- `init_pt`: every entry zero. -/
def init_pt : Nat → PTE :=
  fun _ => { frame := 0, r := false, m := false, v := false }

/-- Body of the simulation loop after the aging step (lines 162-775). -/
def handle (c : Config) (s : State) (ref : Ref) : Option (State × Record) :=
  if c.level = 1 then
    match translateRef c true s.pt s.toMem (vpnOf ref.addr) ref with
    | none => none
    | some (tbl, m, rec) => some ({ s with toMem := m, pt := tbl }, rec)
  else if c.level = 2 then
    let pte1 := pte1Of c.level ref.addr
    let inner := match s.pt_array pte1 with
      | none => init_pt
      | some t => t
    match translateRef c false inner s.toMem (pte2Of c.level ref.addr) ref with
    | none => none
    | some (tbl, m, rec) =>
      some ({ s with toMem := m, pt_array := upd s.pt_array pte1 (some tbl) }, rec)
  else none

/-- The size given to a table by `init_pt`: `1 << (10 - 2 * (levels - 1))`. -/
def ptSize (level : Nat) : Nat := 1 <<< (10 - 2 * (level - 1))

/-- Aging step before reference `i` (lines 156-160): the `r` bits of the flat table. -/
def age (c : Config) (i : Nat) (s : State) : State :=
  if i ≠ 0 ∧ i % c.tick = 0 then
    { s with pt := forLoop (fun j t => upd t j { t j with r := false }) 0 (ptSize c.level) s.pt }
  else s

/-- The simulation loop from reference number `i` on (lines 153-776): the final state and
the records in trace order. -/
def run (c : Config) : Nat → State → List Ref → Option (State × List Record)
  | _, s, [] => some (s, [])
  | i, s, ref :: rest =>
    match handle c (age c i s) ref with
    | none => none
    | some (s1, rec) =>
      match run c (i + 1) s1 rest with
      | none => none
      | some (s2, recs) => some (s2, rec :: recs)

/-- State at the start of the simulation loop (lines 101-150, `init_pt`, `init_pm`), for
the content `swap` of the swap file. -/
def init (c : Config) (swap : Nat → Nat) : State :=
  { pm := fun _ _ => 0,
    swap := swap,
    next_empty_frame := 0,
    lru_order := fun _ => 0,
    fifo_order := fun _ => 0,
    clock_hand_order := fun i => if i < c.fcount then i else 0,
    eclock_hand_order := fun i => if i < c.fcount then i else 0,
    clock_hand := 0,
    eclock_hand := 0,
    pfault_count := 0,
    pt := init_pt,
    pt_array := fun _ => none }

/-- A read reference `r addr`. -/
def rd (addr : Nat) : Ref := { type := 'r', addr := addr, value := 0 }

/-- A write reference `w addr value`. -/
def wr (addr value : Nat) : Ref := { type := 'w', addr := addr, value := value }

/-! ## Predicates used in the statements -/

/-- Two tables agree on every field other than the `r` bit. -/
def SameButR (t t1 : Nat → PTE) : Prop :=
  ∀ p, (t1 p).frame = (t p).frame ∧ (t1 p).m = (t p).m ∧ (t1 p).v = (t p).v

/-- Number of positions of the first `size` slots of `order` whose page has its `r` bit set. -/
def rcount (size : Nat) (order : Nat → Nat) (tbl : Nat → PTE) : Nat :=
  ((Finset.range size).filter (fun p => (tbl (order p)).r = true)).card

/-- Bounds on the frame numbers of a table: every `frame` field is below `fcount`, and the
frame of a valid entry is below the free-frame cursor. -/
def TblOK (c : Config) (nef : Nat) (t : Nat → PTE) : Prop :=
  (∀ p, (t p).frame < c.fcount) ∧ (∀ p, (t p).v = true → (t p).frame < nef)

/-- Well-formed state: the hands and the cursor are in range and every table is `TblOK`. -/
def WF (c : Config) (s : State) : Prop :=
  s.clock_hand < c.fcount ∧ s.eclock_hand < c.fcount ∧ s.next_empty_frame ≤ c.fcount ∧
  TblOK c s.next_empty_frame s.pt ∧
  ∀ o t, s.pt_array o = some t → TblOK c s.next_empty_frame t

/-- Parameters accepted by `read_args`, with a positive tick. -/
def ValidConfig (c : Config) : Prop :=
  (c.level = 1 ∨ c.level = 2) ∧ 4 ≤ c.fcount ∧ c.fcount ≤ 128 ∧ 0 < c.tick

/-- The step made at position `t` of a trace run from the initial state: the state before
the reference (after the aging step), the record, and the state after the reference. -/
def stepAt (c : Config) (swap0 : Nat → Nat) (refs : List Ref) (t : Nat) :
    Option (State × Record × State) :=
  match run c 0 (init c swap0) (refs.take t), refs[t]? with
  | some (s, _), some ref =>
    match handle c (age c t s) ref with
    | some (s1, rec) => some (age c t s, rec, s1)
    | none => none
  | _, _ => none

/-- The page-table entry that a reference to `addr` looks up: `pt.entries[vpn]` for level 1
and `pt_array[pte1].entries[pte2]` for level 2, where a table that is not allocated yet is
the zero table that `init_pt` makes for it at that moment (lines 535-538). -/
def entryOf (c : Config) (s : State) (addr : Nat) : PTE :=
  if c.level = 1 then s.pt (vpnOf addr)
  else
    match s.pt_array (pte1Of c.level addr) with
    | none => init_pt (pte2Of c.level addr)
    | some t => t (pte2Of c.level addr)

/-- The records of the references that faulted, in trace order. -/
def faultsOf (log : List Record) : List Record := log.filter (fun e => e.pageFault)

/-- The records of the faults that took the replacement branch, in trace order. -/
def evictionsOf (log : List Record) : List Record := log.filter (fun e => e.replaced)

/-- Configuration of the examples: four frames. -/
def exConfig (level : Nat) (algo : Algo) : Config :=
  { level := level, fcount := 4, algo := algo, tick := 2 }

/-- Swap file of the examples: all zero, as `init_bs` creates it. -/
def zeroSwap : Nat → Nat := fun _ => 0

/-- State at the end of a run from the initial state (the initial state if the run is not
defined). -/
def stateAfter (c : Config) (swap0 : Nat → Nat) (refs : List Ref) : State :=
  match run c 0 (init c swap0) refs with
  | some (s, _) => s
  | none => init c swap0

/-- State and records of a run as far as the fault counter and the cursor go: the counter
is the number of faults, the cursor is the smaller of the counter and `fcount`, the first
`fcount` faults take the next free frame and the later ones the replacement branch. -/
def CountInv (c : Config) (h : List Record) (s : State) : Prop :=
  s.pfault_count = (faultsOf h).length ∧
  s.next_empty_frame = min s.pfault_count c.fcount ∧
  ∀ k e, (faultsOf h)[k]? = some e →
    (k < c.fcount → e.replaced = false ∧ e.victim = none ∧ e.pfn = (k : Int)) ∧
    (c.fcount ≤ k → e.replaced = true)

/-- The page-table entries of a state: key `none` and `p` is `pt.entries[p]`, key `some o`
and `p` is `pt_array[o].entries[p]` when that table is allocated. -/
def entryAt (s : State) : Option Nat → Nat → Option PTE
  | none, p => some (s.pt p)
  | some o, p => (s.pt_array o).map (fun t => t p)

/-- Frame exclusivity: no two page-table entries with `v = 1` hold the same frame number. -/
def FrameExclusive (s : State) : Prop :=
  ∀ k1 p1 k2 p2 e1 e2, entryAt s k1 p1 = some e1 → entryAt s k2 p2 = some e2 →
    e1.v = true → e2.v = true → e1.frame = e2.frame → k1 = k2 ∧ p1 = p2

/-- State and records of a FIFO run in level 1: with `n` faults so far, `fifo_order[i]` is
the page of fault `n + i - fcount` once that number is not negative; the page of fault `k`
is valid and holds frame `k mod fcount`, which is the frame reported for that fault; and a
fault `k` with `fcount ≤ k` has as victim the page of fault `k - fcount`. -/
def FifoInv (c : Config) (h : List Record) (s : State) : Prop :=
  CountInv c h s ∧
  (∀ i, i < c.fcount → c.fcount ≤ (faultsOf h).length + i →
    ∃ f, (faultsOf h)[(faultsOf h).length + i - c.fcount]? = some f ∧
      s.fifo_order i = vpnOf f.addr) ∧
  (∀ k f, (faultsOf h)[k]? = some f →
    (s.pt (vpnOf f.addr)).v = true ∧ (s.pt (vpnOf f.addr)).frame = k % c.fcount ∧
    f.pfn = ((k % c.fcount : Nat) : Int) ∧
    (c.fcount ≤ k → ∃ g, (faultsOf h)[k - c.fcount]? = some g ∧
      f.victim = some (vpnOf g.addr)))

/-- The first `n` entries of an array, as a list. -/
def arrList (a : Nat → Nat) (n : Nat) : List Nat := (List.range n).map a

/-- Move-to-front: `p` in front of the list without its first occurrence of `p`. -/
def touch (L : List Nat) (p : Nat) : List Nat := p :: L.erase p

/-- The pages of a sequence of references ordered by their most recent reference, the most
recent first. -/
def recency (pages : List Nat) : List Nat := pages.foldl touch []

/-- `lastUse` on the reversed sequence. -/
def lastUseRev : List Nat → Nat → Nat
  | [], _ => 0
  | q :: rest, p => if q = p then rest.length + 1 else lastUseRev rest p

/-- Time of the most recent reference to page `p` in a sequence of referenced pages: the
position of the last occurrence of `p`, counted from 1; 0 when `p` does not occur. -/
def lastUse (pages : List Nat) (p : Nat) : Nat := lastUseRev pages.reverse p

/-- The pages referenced by a trace, in trace order. -/
def pagesOf (refs : List Ref) : List Nat := refs.map (fun r => vpnOf r.addr)

/-- The pages referenced by the records of a run, in trace order. -/
def logPages (h : List Record) : List Nat := h.map (fun e => vpnOf e.addr)

/-- State and records of an LRU run in level 1: the first `fcount` entries of `lru_order`
are the first `fcount` entries of the move-to-front list of the pages referenced so far,
started from `fcount` zeros; the valid entries are those of the pages referenced so far; and
there are at least as many referenced pages as faults. -/
def LruInv (c : Config) (h : List Record) (s : State) : Prop :=
  CountInv c h s ∧
  arrList s.lru_order c.fcount
    = (List.foldl touch (List.replicate c.fcount 0) (logPages h)).take c.fcount ∧
  (∀ p, (s.pt p).v = true ↔ p ∈ logPages h) ∧
  (faultsOf h).length ≤ (recency (logPages h)).length

/-- Page `P` is valid and modified and maps frame `f`, whose byte `k` is `b`. -/
def Holds (P f k b : Nat) (s : State) : Prop :=
  (s.pt P).v = true ∧ (s.pt P).m = true ∧ (s.pt P).frame = f ∧ s.pm f k = b

/-- Swap file of the examples in which every byte of page `p` is `p mod 256`. -/
def pageSwap : Nat → Nat := fun j => j / 64 % 256

/-- Step 1 of ECLOCK (lines 350-362): a pass over `size` slots for `r == 0 && m == 0`. -/
def eclockStep1 (size : Nat) (order : Nat → Nat) (tbl : Nat → PTE) (hand : Nat) :
    (Nat → PTE) × Nat × Option Nat :=
  eclockPass size order false false size tbl hand

/-- Step 2 of ECLOCK (lines 368-380), from the table and hand left by step 1: a pass over
`size` slots for `r == 0 && m == 1` that clears the `r` bits it finds set. -/
def eclockStep2 (size : Nat) (order : Nat → Nat) (tbl : Nat → PTE) (hand : Nat) :
    (Nat → PTE) × Nat × Option Nat :=
  eclockPass size order true true size
    (eclockStep1 size order tbl hand).1 (eclockStep1 size order tbl hand).2.1

/-- Step 3 of ECLOCK (lines 388-398), from the table and hand left by step 2: a pass over
`size - 1` slots for `r == 0 && m == 0`. -/
def eclockStep3 (size : Nat) (order : Nat → Nat) (tbl : Nat → PTE) (hand : Nat) :
    (Nat → PTE) × Nat × Option Nat :=
  eclockPass size order false false (size - 1)
    (eclockStep2 size order tbl hand).1 (eclockStep2 size order tbl hand).2.1

/-- Step 4 of ECLOCK (lines 406-416), from the table and hand left by step 3: a pass over
`size - 1` slots for `r == 0 && m == 1`. -/
def eclockStep4 (size : Nat) (order : Nat → Nat) (tbl : Nat → PTE) (hand : Nat) :
    (Nat → PTE) × Nat × Option Nat :=
  eclockPass size order true false (size - 1)
    (eclockStep3 size order tbl hand).1 (eclockStep3 size order tbl hand).2.1

/-- The pages in the first `fcount` slots of `fifo_order` and of `lru_order` are valid, or are
page 0, which is also the content of a slot that has not been written. -/
def OrderInv (c : Config) (s : State) : Prop :=
  (∀ i, i < c.fcount → s.fifo_order i = 0 ∨ (s.pt (s.fifo_order i)).v = true) ∧
  (∀ i, i < c.fcount → s.lru_order i = 0 ∨ (s.pt (s.lru_order i)).v = true)

/-- State and records of a level-1 run as far as valid bits go: the valid entries are those
of the pages referenced so far, and the fault counter is the number of distinct pages
referenced so far. -/
def FaultInv (h : List Record) (s : State) : Prop :=
  (∀ p, (s.pt p).v = true ↔ p ∈ logPages h) ∧
  s.pfault_count = (logPages h).toFinset.card

/-- The globals set by `read_args` (lines 11-19). -/
structure Args where
  level : Int
  addrfile : String
  swapfile : String
  fcount : Int
  algo : String
  tick : Int
  outfile : String
deriving DecidableEq, Repr

/-- The globals before `read_args`: zero-initialised. -/
def argsZero : Args :=
  { level := 0, addrfile := "", swapfile := "", fcount := 0, algo := "", tick := 0,
    outfile := "" }

/-- The value of a run of decimal digits in front of a list of characters, after `acc`. -/
def atoiDigits : List Char → Int → Int
  | [], acc => acc
  | ch :: rest, acc =>
    if 48 ≤ ch.toNat ∧ ch.toNat ≤ 57 then atoiDigits rest (acc * 10 + ((ch.toNat - 48 : Nat) : Int))
    else acc

/-- C library `atoi`, for values that fit an `int`: blanks, an optional sign, then decimal
digits up to the first character that is not one. -/
def atoi (s : String) : Int :=
  match s.data.dropWhile (fun ch => ch.toNat = 32 ∨ (9 ≤ ch.toNat ∧ ch.toNat ≤ 13)) with
  | [] => 0
  | ch :: rest =>
    if ch.toNat = 45 then - atoiDigits rest 0
    else if ch.toNat = 43 then atoiDigits rest 0
    else atoiDigits (ch :: rest) 0

/-- Body of the loop of `read_args` for one option and its value (lines 809-826); `none` is
`exit(1)` after "Wrong argument".  `strcmp(..) == 0` is equality of strings and `strcpy` is
assignment, which is what it does for a value that fits the 64 bytes of its destination. -/
def setArg (a : Args) (opt val : String) : Option Args :=
  if opt = "-p" then some { a with level := atoi val }
  else if opt = "-r" then some { a with addrfile := val }
  else if opt = "-s" then some { a with swapfile := val }
  else if opt = "-f" then some { a with fcount := atoi val }
  else if opt = "-a" then some { a with algo := val }
  else if opt = "-t" then some { a with tick := atoi val }
  else if opt = "-o" then some { a with outfile := val }
  else none

/-- Loop `for (i = 1; i < argc; i += 2)` of `read_args` over `argv[i], argv[i + 1], ...`; with
`argc = 15` these are seven pairs. -/
def argLoop : List String → Args → Option Args
  | opt :: val :: rest, a =>
    match setArg a opt val with
    | none => none
    | some a1 => argLoop rest a1
  | _, a => some a

/-- C function `read_args(argc, argv)` with `argc = argv.length`: the globals it leaves, or
the status of `exit`. -/
def read_args (argv : List String) : Except Nat Args :=
  if argv.length ≠ 15 then Except.error 1
  else
    match argLoop argv.tail argsZero with
    | none => Except.error 1
    | some a =>
      if a.level < 1 ∨ a.level > 2 then Except.error 1
      else if a.fcount < 4 ∨ a.fcount > 128 then Except.error 1
      else if a.algo ≠ "FIFO" ∧ a.algo ≠ "LRU" ∧ a.algo ≠ "CLOCK" ∧ a.algo ≠ "ECLOCK" then
        Except.error 1
      else Except.ok a

/-- The option names that the loop of `read_args` knows. -/
def knownOptions : List String := ["-p", "-r", "-s", "-f", "-a", "-t", "-o"]

/-- Arguments on which `read_args` has defined behaviour: every string fits a 64-byte buffer
and its `atoi` value fits an `int`. -/
def ArgvOK (argv : List String) : Prop :=
  ∀ v ∈ argv, v.length < 64 ∧ -2147483648 ≤ atoi v ∧ atoi v ≤ 2147483647

/-- The value given for the option `opt` in a list of option/value pairs: the value of the
last pair whose option is `opt`, and `none` when no pair has it. -/
def optValue (opt : String) : List String → Option String
  | o :: v :: rest =>
    match optValue opt rest with
    | some w => some w
    | none => if o = opt then some v else none
  | _ => none

/-- Configuration of the examples without aging: level 1, four frames, CLOCK, `tick = 100`. -/
def clockConfig : Config := { level := 1, fcount := 4, algo := Algo.CLOCK, tick := 100 }

/-- The swap file as `write_pm_to_swap` sees it: its bytes by position and its length. -/
structure SwapFile where
  bytes : Nat → Nat
  size : Nat

/-- `fwrite(&pm->frames[i], sizeof(Frame), 1, swap_file)` at file position `pos`: the 64
bytes of the frame are stored from `pos` on, and the file grows when they go past its
end. -/
def fwriteFrame (frame : Nat → Nat) (pos : Nat) (f : SwapFile) : SwapFile :=
  { bytes := fun j => if pos ≤ j ∧ j < pos + 64 then frame (j - pos) else f.bytes j,
    size := max f.size (pos + 64) }

/-- C function `write_pm_to_swap(pm)` (lines 941-953) with `pm->size = size`.  The file is
opened with `"rb+"`: `none` is a file that cannot be opened, for which the function leaves
with `exit(1)`; otherwise the content is kept, the file position starts at 0, and each
`fwrite` of the loop moves it by 64.  Result: the file after `fclose`. -/
def write_pm_to_swap (pm : Nat → Nat → Nat) (size : Nat) (file : Option SwapFile) :
    Except Nat SwapFile :=
  match file with
  | none => Except.error 1
  | some f =>
    Except.ok
      (forLoop (fun i (st : SwapFile × Nat) => (fwriteFrame (pm i) st.2 st.1, st.2 + 64))
        0 size (f, 0)).1

/-- The first `fcount` entries of the four order arrays are page numbers of the flat
table. -/
def OrdBound (c : Config) (s : State) : Prop :=
  ∀ i, i < c.fcount →
    s.fifo_order i < 1024 ∧ s.lru_order i < 1024 ∧
    s.clock_hand_order i < 1024 ∧ s.eclock_hand_order i < 1024

/-- The bounds on the indices that the handling of a reference uses in level 1: the hands
index the order arrays, the cursor is at most `fcount`, the frame of every entry indexes
`pm.frames`, and the tracked entries of the order arrays index `pt.entries`. -/
def InBounds (c : Config) (s : State) : Prop :=
  s.clock_hand < c.fcount ∧ s.eclock_hand < c.fcount ∧ s.next_empty_frame ≤ c.fcount ∧
  (∀ p, (s.pt p).frame < c.fcount) ∧ OrdBound c s

end Memsim

/-! # Lemmas -/

namespace Memsim

/-! ## Arrays and loops -/

@[simp] theorem upd_same {α : Type} (a : Nat → α) (i : Nat) (v : α) : upd a i v i = v := by
  simp [upd]

@[simp] theorem upd_ne {α : Type} (a : Nat → α) {i j : Nat} (v : α) (h : j ≠ i) :
    upd a i v j = a j := by
  simp [upd, h]

theorem upd_apply {α : Type} (a : Nat → α) (i j : Nat) (v : α) :
    upd a i v j = if j = i then v else a j := rfl

theorem copyLoop_apply (src : Nat → Nat) (n : Nat) :
    ∀ (lo : Nat) (dst : Nat → Nat) (j : Nat),
      forLoop (fun i d => upd d i (src i)) lo n dst j
        = if lo ≤ j ∧ j < lo + n then src j else dst j := by
  induction n with
  | zero =>
    intro lo dst j
    rw [forLoop, if_neg (by omega)]
  | succ n ih =>
    intro lo dst j
    rw [forLoop, ih]
    by_cases h1 : j = lo
    · subst h1; simp
    · by_cases h2 : lo + 1 ≤ j ∧ j < lo + 1 + n
      · have h3 : lo ≤ j ∧ j < lo + (n + 1) := by omega
        simp [h2, h3]
      · have h3 : ¬ (lo ≤ j ∧ j < lo + (n + 1)) := by omega
        simp [h2, h3, h1]

theorem copyFrom_apply (lo : Nat) (src dst : Nat → Nat) (j : Nat) :
    copyFrom lo src dst j = if lo ≤ j ∧ j < PAGE_SIZE then src j else dst j := by
  unfold copyFrom
  rw [copyLoop_apply]
  by_cases h : lo ≤ j ∧ j < PAGE_SIZE
  · have h2 : lo ≤ j ∧ j < lo + (PAGE_SIZE - lo) := by omega
    simp [h, h2]
  · have h2 : ¬ (lo ≤ j ∧ j < lo + (PAGE_SIZE - lo)) := by omega
    simp [h, h2]

theorem shiftLoop_apply (n : Nat) :
    ∀ (lo : Nat) (a : Nat → Nat) (j : Nat),
      forLoop (fun i b => upd b i (b (i + 1))) lo n a j
        = if lo ≤ j ∧ j < lo + n then a (j + 1) else a j := by
  induction n with
  | zero =>
    intro lo a j
    rw [forLoop, if_neg (by omega)]
  | succ n ih =>
    intro lo a j
    rw [forLoop, ih]
    by_cases h1 : j = lo
    · subst h1; simp
    · by_cases h2 : lo + 1 ≤ j ∧ j < lo + 1 + n
      · have h3 : lo ≤ j ∧ j < lo + (n + 1) := by omega
        have h4 : j + 1 ≠ lo := by omega
        simp [h2, h3, h4]
      · have h3 : ¬ (lo ≤ j ∧ j < lo + (n + 1)) := by omega
        simp [h2, h3, h1]

/-- Closed form of the shift loop followed by the store of the new page. -/
theorem shiftIn_apply (size : Nat) (a : Nat → Nat) (x j : Nat) :
    shiftIn size a x j
      = if j = size - 1 then x else if j < size - 1 then a (j + 1) else a j := by
  unfold shiftIn
  by_cases h : j = size - 1
  · simp [h]
  · rw [upd_ne _ _ h, shiftLoop_apply]
    simp [h]

theorem shiftUp_apply (k : Nat) :
    ∀ (a : Nat → Nat) (j : Nat),
      shiftUp a k j = if 1 ≤ j ∧ j ≤ k then a (j - 1) else a j := by
  induction k with
  | zero =>
    intro a j
    rw [shiftUp, if_neg (by omega)]
  | succ k ih =>
    intro a j
    rw [shiftUp, ih]
    by_cases h1 : j = k + 1
    · subst h1; simp
    · by_cases h2 : 1 ≤ j ∧ j ≤ k
      · have h3 : 1 ≤ j ∧ j ≤ k + 1 := by omega
        have h4 : j - 1 ≠ k + 1 := by omega
        simp [h2, h3, h4]
      · have h3 : ¬ (1 ≤ j ∧ j ≤ k + 1) := by omega
        simp [h2, h3, h1]

theorem ageLoop_apply (n : Nat) :
    ∀ (lo : Nat) (t : Nat → PTE) (j : Nat),
      forLoop (fun j t => upd t j { t j with r := false }) lo n t j
        = if lo ≤ j ∧ j < lo + n then { t j with r := false } else t j := by
  induction n with
  | zero =>
    intro lo t j
    rw [forLoop, if_neg (by omega)]
  | succ n ih =>
    intro lo t j
    rw [forLoop, ih]
    by_cases h1 : j = lo
    · subst h1; simp
    · by_cases h2 : lo + 1 ≤ j ∧ j < lo + 1 + n
      · have h3 : lo ≤ j ∧ j < lo + (n + 1) := by omega
        simp [h2, h3, h1]
      · have h3 : ¬ (lo ≤ j ∧ j < lo + (n + 1)) := by omega
        simp [h2, h3, h1]

/-! ## Address translation -/

theorem offsetOf_eq_mod (a : Nat) : offsetOf a = a % 64 := by
  unfold offsetOf
  exact Nat.and_pow_two_sub_one_eq_mod a 6

theorem vpnOf_eq_div (a : Nat) : vpnOf a = a / 64 := by
  unfold vpnOf
  rw [Nat.shiftRight_eq_div_pow]

theorem offsetOf_lt (a : Nat) : offsetOf a < 64 := by
  rw [offsetOf_eq_mod]; omega

/-! ## Victim selection -/

theorem SameButR.refl (t : Nat → PTE) : SameButR t t := fun _ => ⟨rfl, rfl, rfl⟩

theorem SameButR.trans {a b d : Nat → PTE} (h1 : SameButR a b) (h2 : SameButR b d) :
    SameButR a d := fun p =>
  ⟨(h2 p).1.trans (h1 p).1, (h2 p).2.1.trans (h1 p).2.1, (h2 p).2.2.trans (h1 p).2.2⟩

theorem SameButR.clear (t : Nat → PTE) (q : Nat) :
    SameButR t (upd t q { t q with r := false }) := by
  intro p
  by_cases h : p = q
  · subst h; simp
  · simp [h]

theorem clear_r_mono (t : Nat → PTE) (q p : Nat) (h : (t p).r = false) :
    (upd t q { t q with r := false } p).r = false := by
  by_cases hp : p = q
  · subst hp; simp
  · simp [hp, h]

/-- What the CLOCK loop returns: the table differs in `r` bits only, no `r` bit is set, the
hand stays below `size`, the victim is the page under the hand and its `r` bit is 0. -/
theorem clockSelect_spec (size : Nat) (order : Nat → Nat) :
    ∀ (fuel : Nat) (tbl : Nat → PTE) (hand : Nat) (tbl1 : Nat → PTE) (hand1 v : Nat),
      clockSelect size order fuel tbl hand = some (tbl1, hand1, v) →
      SameButR tbl tbl1 ∧ (∀ p, (tbl p).r = false → (tbl1 p).r = false) ∧
      (hand < size → hand1 < size) ∧ v = order hand1 ∧ (tbl1 v).r = false := by
  intro fuel
  induction fuel with
  | zero => intro tbl hand tbl1 hand1 v h; simp [clockSelect] at h
  | succ fuel ih =>
    intro tbl hand tbl1 hand1 v h
    rw [clockSelect] at h
    by_cases hr : (tbl (order hand)).r = false
    · rw [if_pos hr] at h
      simp only [Option.some.injEq, Prod.mk.injEq] at h
      obtain ⟨h1, h2, h3⟩ := h
      subst h1 h2 h3
      exact ⟨SameButR.refl _, fun _ hp => hp, fun hh => hh, rfl, hr⟩
    · rw [if_neg hr] at h
      obtain ⟨a1, a2, a3, a4, a5⟩ := ih _ _ _ _ _ h
      refine ⟨(SameButR.clear tbl (order hand)).trans a1, ?_, ?_, a4, a5⟩
      · intro p hp
        exact a2 p (clear_r_mono tbl _ p hp)
      · intro hh
        exact a3 (Nat.mod_lt _ (by omega))

theorem rcount_clear_lt (size : Nat) (order : Nat → Nat) (tbl : Nat → PTE) (hand : Nat)
    (hh : hand < size) (hr : (tbl (order hand)).r = true) :
    rcount size order (upd tbl (order hand) { tbl (order hand) with r := false })
      < rcount size order tbl := by
  unfold rcount
  apply Finset.card_lt_card
  rw [Finset.ssubset_iff_of_subset]
  · refine ⟨hand, ?_, ?_⟩
    · simp [hh, hr]
    · simp
  · intro p hp
    simp only [Finset.mem_filter, Finset.mem_range] at hp ⊢
    refine ⟨hp.1, ?_⟩
    by_contra hc
    have hf : (tbl (order p)).r = false := by simpa using hc
    have := clear_r_mono tbl (order hand) (order p) hf
    rw [this] at hp
    exact absurd hp.2 (by simp)

theorem rcount_le (size : Nat) (order : Nat → Nat) (tbl : Nat → PTE) :
    rcount size order tbl ≤ size := by
  unfold rcount
  calc _ ≤ (Finset.range size).card := Finset.card_filter_le _ _
    _ = size := Finset.card_range size

/-- The CLOCK loop ends: more iterations than set `r` bits are enough. -/
theorem clockSelect_isSome (size : Nat) (order : Nat → Nat) :
    ∀ (fuel : Nat) (tbl : Nat → PTE) (hand : Nat), hand < size →
      rcount size order tbl < fuel → (clockSelect size order fuel tbl hand).isSome = true := by
  intro fuel
  induction fuel with
  | zero => intro tbl hand _ h; omega
  | succ fuel ih =>
    intro tbl hand hh hc
    rw [clockSelect]
    by_cases hr : (tbl (order hand)).r = false
    · simp [hr]
    · rw [if_neg hr]
      have hr1 : (tbl (order hand)).r = true := by simpa using hr
      apply ih
      · exact Nat.mod_lt _ (by omega)
      · have := rcount_clear_lt size order tbl hand hh hr1
        omega

/-- What an ECLOCK pass returns: the table differs in `r` bits only, no `r` bit is set, a
pass that does not clear leaves the table as it is, and the hand stays below `size`. -/
theorem eclockPass_spec (size : Nat) (order : Nat → Nat) (wantM clear : Bool) :
    ∀ (n : Nat) (tbl : Nat → PTE) (hand : Nat),
      SameButR tbl (eclockPass size order wantM clear n tbl hand).1 ∧
      (∀ p, (tbl p).r = false → ((eclockPass size order wantM clear n tbl hand).1 p).r = false) ∧
      (clear = false → (eclockPass size order wantM clear n tbl hand).1 = tbl) ∧
      (hand < size → (eclockPass size order wantM clear n tbl hand).2.1 < size) := by
  intro n
  induction n with
  | zero =>
    intro tbl hand
    rw [eclockPass]
    exact ⟨SameButR.refl _, fun _ hp => hp, fun _ => rfl, fun hh => hh⟩
  | succ n ih =>
    intro tbl hand
    rw [eclockPass]
    by_cases hc : (tbl (order hand)).r = false ∧ (tbl (order hand)).m = wantM
    · rw [if_pos hc]
      exact ⟨SameButR.refl _, fun _ hp => hp, fun _ => rfl,
        fun hh => Nat.mod_lt _ (by omega)⟩
    · rw [if_neg hc]
      by_cases hk : clear = true ∧ (tbl (order hand)).r = true
      · rw [if_pos hk]
        obtain ⟨a1, a2, a3, a4⟩ :=
          ih (upd tbl (order hand) { tbl (order hand) with r := false }) ((hand + 1) % size)
        refine ⟨(SameButR.clear tbl (order hand)).trans a1, ?_, ?_, ?_⟩
        · intro p hp
          exact a2 p (clear_r_mono tbl _ p hp)
        · intro hcl
          rw [hcl] at hk
          exact absurd hk.1 (by simp)
        · intro hh
          exact a4 (Nat.mod_lt _ (by omega))
      · rw [if_neg hk]
        obtain ⟨a1, a2, a3, a4⟩ := ih tbl ((hand + 1) % size)
        exact ⟨a1, a2, a3, fun hh => a4 (Nat.mod_lt _ (by omega))⟩

/-- A pass without victim has moved the hand by `n` slots. -/
theorem eclockPass_none_hand (size : Nat) (order : Nat → Nat) (wantM clear : Bool) :
    ∀ (n : Nat) (tbl : Nat → PTE) (hand : Nat), hand < size →
      (eclockPass size order wantM clear n tbl hand).2.2 = none →
      (eclockPass size order wantM clear n tbl hand).2.1 = (hand + n) % size := by
  intro n
  induction n with
  | zero =>
    intro tbl hand hh _
    simp only [eclockPass, Nat.add_zero]
    exact (Nat.mod_eq_of_lt hh).symm
  | succ n ih =>
    intro tbl hand hh hn
    rw [eclockPass] at hn ⊢
    by_cases hc : (tbl (order hand)).r = false ∧ (tbl (order hand)).m = wantM
    · rw [if_pos hc] at hn
      simp at hn
    · rw [if_neg hc] at hn ⊢
      rw [ih _ _ (Nat.mod_lt _ (by omega)) hn, Nat.mod_add_mod]
      congr 1
      omega

/-- A pass without victim did not find its condition at the slot it started from, and left
the `r` bit of that slot's page at 0 if it is a clearing pass. -/
theorem eclockPass_none_first (size : Nat) (order : Nat → Nat) (wantM clear : Bool)
    (n : Nat) (tbl : Nat → PTE) (hand : Nat)
    (hn : (eclockPass size order wantM clear (n + 1) tbl hand).2.2 = none) :
    ¬ ((tbl (order hand)).r = false ∧ (tbl (order hand)).m = wantM) ∧
    (clear = true →
      ((eclockPass size order wantM clear (n + 1) tbl hand).1 (order hand)).r = false) := by
  rw [eclockPass] at hn ⊢
  by_cases hc : (tbl (order hand)).r = false ∧ (tbl (order hand)).m = wantM
  · rw [if_pos hc] at hn
    simp at hn
  · rw [if_neg hc]
    refine ⟨hc, fun hcl => ?_⟩
    apply (eclockPass_spec size order wantM clear n _ _).2.1
    by_cases hr : (tbl (order hand)).r = true
    · rw [if_pos ⟨hcl, hr⟩]; simp
    · rw [if_neg (fun h => hr h.2)]
      simpa using hr

/-- A pass that does not clear finds a victim when its condition holds at the first or at the
second slot it looks at. -/
theorem eclockPass_found (size : Nat) (order : Nat → Nat) (wantM : Bool)
    (n : Nat) (tbl : Nat → PTE) (hand : Nat)
    (h : (tbl (order ((hand + 1) % size))).r = false ∧
      (tbl (order ((hand + 1) % size))).m = wantM) :
    (eclockPass size order wantM false (n + 2) tbl hand).2.2 ≠ none := by
  rw [eclockPass]
  by_cases hc : (tbl (order hand)).r = false ∧ (tbl (order hand)).m = wantM
  · rw [if_pos hc]; simp
  · rw [if_neg hc, eclockPass]
    simp [h]

/-- ECLOCK always selects a victim when there are at least three frames. -/
theorem eclockSelect_isSome (size : Nat) (order : Nat → Nat) (tbl : Nat → PTE) (hand : Nat)
    (hs : 3 ≤ size) (hh : hand < size) :
    (eclockSelect size order tbl hand).2.2 ≠ none := by
  unfold eclockSelect
  simp only
  by_cases h1 : (eclockPass size order false false size tbl hand).2.2 ≠ none
  · rw [if_pos h1]; exact h1
  rw [if_neg h1]
  have h1n : (eclockPass size order false false size tbl hand).2.2 = none := by
    simpa using h1
  have e1 := (eclockPass_spec size order false false size tbl hand).2.2.1 rfl
  have g1 := eclockPass_none_hand size order false false size tbl hand hh h1n
  rw [Nat.add_mod_right, Nat.mod_eq_of_lt hh] at g1
  rw [e1, g1]
  by_cases h2 : (eclockPass size order true true size tbl hand).2.2 ≠ none
  · rw [if_pos h2]; exact h2
  rw [if_neg h2]
  have h2n : (eclockPass size order true true size tbl hand).2.2 = none := by
    simpa using h2
  have g2 := eclockPass_none_hand size order true true size tbl hand hh h2n
  rw [Nat.add_mod_right, Nat.mod_eq_of_lt hh] at g2
  rw [g2]
  obtain ⟨k, hk⟩ : ∃ k, size = k + 3 := ⟨size - 3, by omega⟩
  have r2 : ((eclockPass size order true true size tbl hand).1 (order hand)).r = false := by
    have := (eclockPass_none_first size order true true (k + 2) tbl hand
      (by rw [← hk]; exact h2n)).2 rfl
    rw [← hk] at this
    exact this
  generalize (eclockPass size order true true size tbl hand).1 = tbl2 at r2 ⊢
  by_cases h3 : (eclockPass size order false false (size - 1) tbl2 hand).2.2 ≠ none
  · rw [if_pos h3]; exact h3
  rw [if_neg h3]
  have h3n : (eclockPass size order false false (size - 1) tbl2 hand).2.2 = none := by
    simpa using h3
  have e3 := (eclockPass_spec size order false false (size - 1) tbl2 hand).2.2.1 rfl
  have g3 := eclockPass_none_hand size order false false (size - 1) tbl2 hand hh h3n
  rw [e3, g3]
  have hsz : size - 1 = k + 2 := by omega
  have m2 : (tbl2 (order hand)).m = true := by
    have := (eclockPass_none_first size order false false (k + 1) tbl2 hand
      (by rw [show k + 1 + 1 = size - 1 by omega]; exact h3n)).1
    by_contra hm
    exact this ⟨r2, by simpa using hm⟩
  rw [hsz]
  apply eclockPass_found
  have hb : ((hand + (k + 2)) % size + 1) % size = hand := by
    rw [Nat.mod_add_mod, show hand + (k + 2) + 1 = hand + size by omega, Nat.add_mod_right,
      Nat.mod_eq_of_lt hh]
  rw [hb]
  exact ⟨r2, m2⟩

/-- What the four ECLOCK passes return together. -/
theorem eclockSelect_spec (size : Nat) (order : Nat → Nat) (tbl : Nat → PTE) (hand : Nat) :
    SameButR tbl (eclockSelect size order tbl hand).1 ∧
    (∀ p, (tbl p).r = false → ((eclockSelect size order tbl hand).1 p).r = false) ∧
    (hand < size → (eclockSelect size order tbl hand).2.1 < size) := by
  have p1 := eclockPass_spec size order false false size tbl hand
  have p2 := eclockPass_spec size order true true size
    (eclockPass size order false false size tbl hand).1
    (eclockPass size order false false size tbl hand).2.1
  have p3 := eclockPass_spec size order false false (size - 1)
    (eclockPass size order true true size
      (eclockPass size order false false size tbl hand).1
      (eclockPass size order false false size tbl hand).2.1).1
    (eclockPass size order true true size
      (eclockPass size order false false size tbl hand).1
      (eclockPass size order false false size tbl hand).2.1).2.1
  have p4 := eclockPass_spec size order true false (size - 1)
    (eclockPass size order false false (size - 1)
      (eclockPass size order true true size
        (eclockPass size order false false size tbl hand).1
        (eclockPass size order false false size tbl hand).2.1).1
      (eclockPass size order true true size
        (eclockPass size order false false size tbl hand).1
        (eclockPass size order false false size tbl hand).2.1).2.1).1
    (eclockPass size order false false (size - 1)
      (eclockPass size order true true size
        (eclockPass size order false false size tbl hand).1
        (eclockPass size order false false size tbl hand).2.1).1
      (eclockPass size order true true size
        (eclockPass size order false false size tbl hand).1
        (eclockPass size order false false size tbl hand).2.1).2.1).2.1
  unfold eclockSelect
  simp only
  split
  · exact ⟨p1.1, p1.2.1, p1.2.2.2⟩
  split
  · exact ⟨p1.1.trans p2.1, fun p hp => p2.2.1 p (p1.2.1 p hp),
      fun hh => p2.2.2.2 (p1.2.2.2 hh)⟩
  split
  · exact ⟨(p1.1.trans p2.1).trans p3.1, fun p hp => p3.2.1 p (p2.2.1 p (p1.2.1 p hp)),
      fun hh => p3.2.2.2 (p2.2.2.2 (p1.2.2.2 hh))⟩
  · exact ⟨((p1.1.trans p2.1).trans p3.1).trans p4.1,
      fun p hp => p4.2.1 p (p3.2.1 p (p2.2.1 p (p1.2.1 p hp))),
      fun hh => p4.2.2.2 (p3.2.2.2 (p2.2.2.2 (p1.2.2.2 hh)))⟩

/-! ## One reference -/

/-- The three branches of the hit/fault part. -/
theorem lookup_cases (c : Config) (e : Bool) (tbl : Nat → PTE) (m : Mem) (idx : Nat)
    (o : Outcome) (h : lookup c e tbl m idx = some o) :
    ((tbl idx).v = true ∧ o = pageHit c tbl m idx) ∨
    ((tbl idx).v = false ∧ m.next_empty_frame < c.fcount ∧
      o = loadFree c tbl { m with pfault_count := m.pfault_count + 1 } idx) ∨
    ((tbl idx).v = false ∧ c.fcount ≤ m.next_empty_frame ∧
      replacePage c e tbl { m with pfault_count := m.pfault_count + 1 } idx = some o) := by
  unfold lookup at h
  by_cases hv : (tbl idx).v = false
  · rw [if_pos hv] at h
    by_cases hf : m.next_empty_frame ≥ c.fcount
    · rw [if_pos hf] at h
      exact Or.inr (Or.inr ⟨hv, hf, h⟩)
    · rw [if_neg hf] at h
      exact Or.inr (Or.inl ⟨hv, by omega, (Option.some.inj h).symm⟩)
  · rw [if_neg hv] at h
    exact Or.inl ⟨by simpa using hv, (Option.some.inj h).symm⟩

/-- The replacement branch: either the empty ECLOCK branch of level 2, which changes nothing,
or a victim `v` chosen on a table `tbl0` that differs from `tbl` in cleared `r` bits only,
followed by `swapIn`. -/
theorem replacePage_spec (c : Config) (e : Bool) (tbl : Nat → PTE) (m : Mem) (idx : Nat)
    (o : Outcome) (h : replacePage c e tbl m idx = some o) :
    o.pageFault = true ∧ o.replaced = true ∧
    o.mem.next_empty_frame = m.next_empty_frame ∧ o.mem.pfault_count = m.pfault_count ∧
    (m.clock_hand < c.fcount → o.mem.clock_hand < c.fcount) ∧
    (m.eclock_hand < c.fcount → o.mem.eclock_hand < c.fcount) ∧
    ((e = false ∧ c.algo = Algo.ECLOCK ∧ o.victim = none ∧ o.tbl = tbl ∧ o.mem = m ∧
        o.pfn = -1) ∨
     (∃ tbl0 v, SameButR tbl tbl0 ∧ (∀ p, (tbl p).r = false → (tbl0 p).r = false) ∧
        o.victim = some v ∧ o.tbl = (swapIn tbl0 m idx v).1 ∧
        o.mem.pm = (swapIn tbl0 m idx v).2.1 ∧ o.mem.swap = (swapIn tbl0 m idx v).2.2.1 ∧
        o.pfn = ((swapIn tbl0 m idx v).2.2.2 : Nat))) := by
  unfold replacePage at h
  split at h
  · simp only [Option.some.injEq] at h
    subst h
    refine ⟨rfl, rfl, rfl, rfl, fun hh => hh, fun hh => hh, Or.inr ⟨tbl, m.fifo_order 0,
      SameButR.refl _, fun _ hp => hp, rfl, rfl, rfl, rfl, rfl⟩⟩
  · simp only [Option.some.injEq] at h
    subst h
    refine ⟨rfl, rfl, rfl, rfl, fun hh => hh, fun hh => hh,
      Or.inr ⟨tbl, m.lru_order (c.fcount - 1),
      SameButR.refl _, fun _ hp => hp, rfl, rfl, rfl, rfl, rfl⟩⟩
  · split at h
    · simp at h
    · rename_i tbl0 hand v hsel
      simp only [Option.some.injEq] at h
      subst h
      obtain ⟨a1, a2, a3, a4, a5⟩ := clockSelect_spec _ _ _ _ _ _ _ _ hsel
      exact ⟨rfl, rfl, rfl, rfl, fun hh => a3 hh, fun hh => hh,
        Or.inr ⟨tbl0, v, a1, a2, rfl, rfl, rfl, rfl, rfl⟩⟩
  · rename_i hA
    by_cases he : e = true
    · rw [if_pos he] at h
      split at h
      · simp at h
      · rename_i tbl0 hand v hsel
        simp only [Option.some.injEq] at h
        subst h
        obtain ⟨a1, a2, a3, a4⟩ :=
          eclockPass_spec c.fcount m.eclock_hand_order false false 0 tbl m.eclock_hand
        have hs := eclockSelect_spec c.fcount m.eclock_hand_order tbl m.eclock_hand
        rw [hsel] at hs
        exact ⟨rfl, rfl, rfl, rfl, fun hh => hh, fun hh => hs.2.2 hh,
          Or.inr ⟨tbl0, v, hs.1, hs.2.1, rfl, rfl, rfl, rfl, rfl⟩⟩
    · rw [if_neg he] at h
      simp only [Option.some.injEq] at h
      subst h
      exact ⟨rfl, rfl, rfl, rfl, fun hh => hh, fun hh => hh,
        Or.inl ⟨by simpa using he, hA, rfl, rfl, rfl, rfl⟩⟩

/-- The write part: frame, `v` and `r` fields are kept, `m` is set by a write, and of the
memory only the written byte changes. -/
theorem storeByte_spec (o : Outcome) (idx off : Nat) (ref : Ref) (tbl1 : Nat → PTE) (m1 : Mem)
    (h : storeByte o idx off ref = some (tbl1, m1)) :
    (∀ p, (tbl1 p).frame = (o.tbl p).frame ∧ (tbl1 p).v = (o.tbl p).v ∧
      (tbl1 p).r = (o.tbl p).r) ∧
    (∀ p, p ≠ idx → tbl1 p = o.tbl p) ∧
    m1 = { o.mem with pm := m1.pm } ∧
    (ref.type ≠ 'w' → tbl1 = o.tbl ∧ m1 = o.mem) ∧
    (ref.type = 'w' → 0 ≤ o.pfn ∧ (tbl1 idx).m = true ∧
      m1.pm = upd o.mem.pm o.pfn.toNat (upd (o.mem.pm o.pfn.toNat) off (ref.value % 256))) := by
  unfold storeByte at h
  by_cases hw : ref.type = 'w'
  · rw [if_pos hw] at h
    by_cases hp : o.pfn < 0
    · rw [if_pos hp] at h; simp at h
    · rw [if_neg hp] at h
      simp only [Option.some.injEq, Prod.mk.injEq] at h
      obtain ⟨h1, h2⟩ := h
      subst h1 h2
      refine ⟨?_, ?_, rfl, fun hn => absurd hw hn, fun _ => ⟨by omega, by simp, rfl⟩⟩
      · intro p
        by_cases hpi : p = idx
        · subst hpi; simp
        · simp [hpi]
      · intro p hpi
        simp [hpi]
  · rw [if_neg hw] at h
    simp only [Option.some.injEq, Prod.mk.injEq] at h
    obtain ⟨h1, h2⟩ := h
    subst h1 h2
    exact ⟨fun _ => ⟨rfl, rfl, rfl⟩, fun _ _ => rfl, rfl, fun _ => ⟨rfl, rfl⟩,
      fun hn => absurd hn hw⟩

/-- A reference is its hit/fault part followed by its write part. -/
theorem translateRef_some (c : Config) (e : Bool) (tbl : Nat → PTE) (m : Mem) (idx : Nat)
    (ref : Ref) (tbl1 : Nat → PTE) (m1 : Mem) (rec : Record)
    (h : translateRef c e tbl m idx ref = some (tbl1, m1, rec)) :
    ∃ o, lookup c e tbl m idx = some o ∧
      storeByte o idx (offsetOf ref.addr) ref = some (tbl1, m1) ∧
      rec.addr = ref.addr ∧ rec.pte1 = pte1Of c.level ref.addr ∧
      rec.pte2 = pte2Of c.level ref.addr ∧ rec.offset = offsetOf ref.addr ∧
      rec.pfn = o.pfn ∧ rec.pa = o.pfn * 64 + (offsetOf ref.addr : Int) ∧
      rec.pageFault = o.pageFault ∧ rec.replaced = o.replaced ∧ rec.victim = o.victim := by
  unfold translateRef at h
  split at h
  · simp at h
  · rename_i o ho
    split at h
    · simp at h
    · rename_i tbl2 m2 hs
      simp only [Option.some.injEq, Prod.mk.injEq] at h
      obtain ⟨h1, h2, h3⟩ := h
      subst h1 h2 h3
      exact ⟨o, ho, hs, rfl, rfl, rfl, rfl, rfl, rfl, rfl, rfl, rfl⟩

theorem swapIn_frame (tbl : Nat → PTE) (m : Mem) (idx v : Nat) :
    (swapIn tbl m idx v).2.2.2 = (tbl v).frame := rfl

theorem swapIn_tbl (tbl : Nat → PTE) (m : Mem) (idx v : Nat) :
    (swapIn tbl m idx v).1
      = upd tbl idx { frame := (tbl v).frame % 8192, r := true, m := false, v := true } := rfl

/-- Frame bounds and hands are kept by a reference; the cursor does not decrease. -/
theorem translateRef_TblOK (c : Config) (e : Bool) (tbl : Nat → PTE) (m : Mem) (idx : Nat)
    (ref : Ref) (tbl1 : Nat → PTE) (m1 : Mem) (rec : Record)
    (hf : c.fcount ≤ 8192)
    (hc : m.clock_hand < c.fcount) (he : m.eclock_hand < c.fcount)
    (hn : m.next_empty_frame ≤ c.fcount) (ht : TblOK c m.next_empty_frame tbl)
    (h : translateRef c e tbl m idx ref = some (tbl1, m1, rec)) :
    m1.clock_hand < c.fcount ∧ m1.eclock_hand < c.fcount ∧
    m.next_empty_frame ≤ m1.next_empty_frame ∧ m1.next_empty_frame ≤ c.fcount ∧
    TblOK c m1.next_empty_frame tbl1 := by
  obtain ⟨o, ho, hs, -⟩ := translateRef_some _ _ _ _ _ _ _ _ _ h
  obtain ⟨s1, s2, s3, -, -⟩ := storeByte_spec _ _ _ _ _ _ hs
  have key : o.mem.clock_hand < c.fcount ∧ o.mem.eclock_hand < c.fcount ∧
      m.next_empty_frame ≤ o.mem.next_empty_frame ∧ o.mem.next_empty_frame ≤ c.fcount ∧
      TblOK c o.mem.next_empty_frame o.tbl := by
    rcases lookup_cases _ _ _ _ _ _ ho with ⟨hv, rfl⟩ | ⟨hv, hlt, rfl⟩ | ⟨hv, hge, hr⟩
    · refine ⟨Nat.mod_lt _ (by omega), he, Nat.le_refl _, hn, ?_, ?_⟩
      · intro p
        by_cases hp : p = idx
        · subst hp; simpa [pageHit] using ht.1 p
        · simpa [pageHit, hp] using ht.1 p
      · intro p
        by_cases hp : p = idx
        · subst hp; simpa [pageHit] using ht.2 p
        · simpa [pageHit, hp] using ht.2 p
    · have hm : m.next_empty_frame % 8192 = m.next_empty_frame :=
        Nat.mod_eq_of_lt (by omega)
      refine ⟨hc, he, by simp [loadFree], by simp [loadFree]; omega, ?_, ?_⟩
      · intro p
        by_cases hp : p = idx
        · subst hp; simp [loadFree, hm]; omega
        · simpa [loadFree, hp] using ht.1 p
      · intro p
        by_cases hp : p = idx
        · subst hp; simp [loadFree, hm]
        · simp only [loadFree, upd_ne _ _ hp]
          intro hvp
          have := ht.2 p hvp
          omega
    · obtain ⟨-, -, r3, -, r5, r6, r7⟩ := replacePage_spec _ _ _ _ _ _ hr
      simp only at r3 r5 r6
      have hnf : m.next_empty_frame = c.fcount := by omega
      rcases r7 with ⟨-, -, -, rt, rm, -⟩ | ⟨tbl0, v, sb, -, -, rt, -, -, -⟩
      · rw [rt, rm]
        exact ⟨hc, he, Nat.le_refl _, hn, ht⟩
      · rw [r3, rt, swapIn_tbl]
        have hv0 : (tbl0 v).frame < c.fcount := by rw [(sb v).1]; exact ht.1 v
        have hm : (tbl0 v).frame % 8192 = (tbl0 v).frame := Nat.mod_eq_of_lt (by omega)
        refine ⟨r5 hc, r6 he, Nat.le_refl _, hn, ?_, ?_⟩
        · intro p
          by_cases hp : p = idx
          · subst hp; simp [hm, hv0]
          · rw [upd_ne _ _ hp, (sb p).1]; exact ht.1 p
        · intro p
          by_cases hp : p = idx
          · subst hp; simp [hm, hnf, hv0]
          · rw [upd_ne _ _ hp, (sb p).1, (sb p).2.2]; exact ht.2 p
  have e1 : m1.clock_hand = o.mem.clock_hand := by rw [s3]
  have e2 : m1.eclock_hand = o.mem.eclock_hand := by rw [s3]
  have e3 : m1.next_empty_frame = o.mem.next_empty_frame := by rw [s3]
  rw [e1, e2, e3]
  refine ⟨key.1, key.2.1, key.2.2.1, key.2.2.2.1, ?_, ?_⟩
  · intro p; rw [(s1 p).1]; exact key.2.2.2.2.1 p
  · intro p; rw [(s1 p).1, (s1 p).2.1]; exact key.2.2.2.2.2 p

/-! ## States -/

theorem TblOK.mono {c : Config} {n n1 : Nat} {t : Nat → PTE} (h : TblOK c n t) (hn : n ≤ n1) :
    TblOK c n1 t :=
  ⟨h.1, fun p hv => Nat.lt_of_lt_of_le (h.2 p hv) hn⟩

theorem TblOK_init_pt (c : Config) (n : Nat) (hf : 0 < c.fcount) : TblOK c n init_pt :=
  ⟨fun _ => hf, fun _ hv => by simp [init_pt] at hv⟩

theorem init_WF (c : Config) (swap0 : Nat → Nat) (hf : 0 < c.fcount) : WF c (init c swap0) :=
  ⟨hf, hf, Nat.zero_le _, TblOK_init_pt c 0 hf, fun _ _ h => by simp [init] at h⟩

theorem age_pt (c : Config) (i : Nat) (s : State) (p : Nat) :
    ((age c i s).pt p).frame = (s.pt p).frame ∧ ((age c i s).pt p).m = (s.pt p).m ∧
    ((age c i s).pt p).v = (s.pt p).v ∧ ((s.pt p).r = false → ((age c i s).pt p).r = false) := by
  unfold age
  split
  · simp only [ageLoop_apply]
    split <;> simp
  · simp

theorem age_toMem (c : Config) (i : Nat) (s : State) : (age c i s).toMem = s.toMem := by
  unfold age
  split <;> rfl

theorem age_pt_array (c : Config) (i : Nat) (s : State) : (age c i s).pt_array = s.pt_array := by
  unfold age
  split <;> rfl

theorem age_WF (c : Config) (i : Nat) (s : State) (h : WF c s) : WF c (age c i s) := by
  obtain ⟨h1, h2, h3, h4, h5⟩ := h
  have hm := age_toMem c i s
  have e1 : (age c i s).clock_hand = s.clock_hand := congrArg Mem.clock_hand hm
  have e2 : (age c i s).eclock_hand = s.eclock_hand := congrArg Mem.eclock_hand hm
  have e3 : (age c i s).next_empty_frame = s.next_empty_frame :=
    congrArg Mem.next_empty_frame hm
  refine ⟨by rw [e1]; exact h1, by rw [e2]; exact h2, by rw [e3]; exact h3, ?_, ?_⟩
  · rw [e3]
    constructor
    · intro p; rw [(age_pt c i s p).1]; exact h4.1 p
    · intro p; rw [(age_pt c i s p).1, (age_pt c i s p).2.2.1]; exact h4.2 p
  · rw [e3, age_pt_array]; exact h5

/-- The two shapes of `handle`. -/
theorem handle_cases (c : Config) (s s1 : State) (ref : Ref) (rec : Record)
    (h : handle c s ref = some (s1, rec)) :
    (c.level = 1 ∧ ∃ tbl m, translateRef c true s.pt s.toMem (vpnOf ref.addr) ref
        = some (tbl, m, rec) ∧ s1 = { s with toMem := m, pt := tbl }) ∨
    (c.level = 2 ∧ ∃ tbl m, translateRef c false
        (match s.pt_array (pte1Of c.level ref.addr) with
          | none => init_pt
          | some t => t) s.toMem (pte2Of c.level ref.addr) ref = some (tbl, m, rec) ∧
        s1 = { s with toMem := m,
                      pt_array := upd s.pt_array (pte1Of c.level ref.addr) (some tbl) }) := by
  unfold handle at h
  by_cases h1 : c.level = 1
  · rw [if_pos h1] at h
    split at h
    · simp at h
    · rename_i tbl m rec1 ht
      simp only [Option.some.injEq, Prod.mk.injEq] at h
      obtain ⟨e1, e2⟩ := h
      subst e1 e2
      exact Or.inl ⟨h1, tbl, m, ht, rfl⟩
  · rw [if_neg h1] at h
    by_cases h2 : c.level = 2
    · rw [if_pos h2] at h
      simp only at h
      split at h
      · simp at h
      · rename_i tbl m rec1 ht
        simp only [Option.some.injEq, Prod.mk.injEq] at h
        obtain ⟨e1, e2⟩ := h
        subst e1 e2
        exact Or.inr ⟨h2, tbl, m, ht, rfl⟩
    · rw [if_neg h2] at h
      simp at h

/-- Well-formedness is kept by a reference, and the cursor does not decrease. -/
theorem handle_WF (c : Config) (s s1 : State) (ref : Ref) (rec : Record)
    (hf0 : 0 < c.fcount) (hf : c.fcount ≤ 8192) (hw : WF c s)
    (h : handle c s ref = some (s1, rec)) :
    WF c s1 ∧ s.next_empty_frame ≤ s1.next_empty_frame := by
  obtain ⟨w1, w2, w3, w4, w5⟩ := hw
  rcases handle_cases _ _ _ _ _ h with ⟨-, tbl, m, ht, rfl⟩ | ⟨-, tbl, m, ht, rfl⟩
  · obtain ⟨a1, a2, a3, a4, a5⟩ := translateRef_TblOK _ _ _ _ _ _ _ _ _ hf w1 w2 w3 w4 ht
    exact ⟨⟨a1, a2, a4, a5, fun o t hot => (w5 o t hot).mono a3⟩, a3⟩
  · have hin : TblOK c s.next_empty_frame
        (match s.pt_array (pte1Of c.level ref.addr) with
          | none => init_pt
          | some t => t) := by
      split
      · exact TblOK_init_pt c _ hf0
      · rename_i t ht1
        exact w5 _ t ht1
    obtain ⟨a1, a2, a3, a4, a5⟩ := translateRef_TblOK _ _ _ _ _ _ _ _ _ hf w1 w2 w3 hin ht
    refine ⟨⟨a1, a2, a4, w4.mono a3, ?_⟩, a3⟩
    intro o t hot
    simp only [upd_apply] at hot
    split at hot
    · simp only [Option.some.injEq] at hot
      subst hot
      exact a5
    · exact (w5 o t hot).mono a3

/-- The hit/fault part is defined when the hands are in range. -/
theorem lookup_isSome (c : Config) (e : Bool) (tbl : Nat → PTE) (m : Mem) (idx : Nat)
    (hf : c.algo = Algo.ECLOCK → 3 ≤ c.fcount) (hc : m.clock_hand < c.fcount)
    (he : m.eclock_hand < c.fcount) :
    ∃ o, lookup c e tbl m idx = some o ∧ ((e = true ∨ c.algo ≠ Algo.ECLOCK) → 0 ≤ o.pfn) := by
  unfold lookup
  by_cases hv : (tbl idx).v = false
  · rw [if_pos hv]
    by_cases hn : m.next_empty_frame ≥ c.fcount
    · rw [if_pos hn]
      unfold replacePage
      split
      · exact ⟨_, rfl, fun _ => Int.natCast_nonneg _⟩
      · exact ⟨_, rfl, fun _ => Int.natCast_nonneg _⟩
      · have hs := clockSelect_isSome c.fcount m.clock_hand_order (c.fcount + 1) tbl
          m.clock_hand hc (by have := rcount_le c.fcount m.clock_hand_order tbl; omega)
        obtain ⟨⟨tbl0, hand, v⟩, hx⟩ := Option.isSome_iff_exists.mp hs
        simp only at hx ⊢
        rw [hx]
        exact ⟨_, rfl, fun _ => Int.natCast_nonneg _⟩
      · rename_i hA
        by_cases he1 : e = true
        · rw [if_pos he1]
          have hs := eclockSelect_isSome c.fcount m.eclock_hand_order tbl m.eclock_hand
            (hf hA) he
          simp only at hs ⊢
          split
          · rename_i hx
            rw [hx] at hs
            exact absurd rfl hs
          · exact ⟨_, rfl, fun _ => Int.natCast_nonneg _⟩
        · rw [if_neg he1]
          refine ⟨_, rfl, fun hh => ?_⟩
          rcases hh with hh | hh
          · exact absurd hh he1
          · exact absurd hA hh
    · rw [if_neg hn]
      exact ⟨_, rfl, fun _ => Int.natCast_nonneg _⟩
  · rw [if_neg hv]
    exact ⟨_, rfl, fun _ => Int.natCast_nonneg _⟩

/-- A reference is defined when the hands are in range, except for a write through the
empty ECLOCK branch of level 2. -/
theorem translateRef_isSome (c : Config) (e : Bool) (tbl : Nat → PTE) (m : Mem) (idx : Nat)
    (ref : Ref) (hf : c.algo = Algo.ECLOCK → 3 ≤ c.fcount) (hc : m.clock_hand < c.fcount)
    (he : m.eclock_hand < c.fcount) (hok : e = true ∨ c.algo ≠ Algo.ECLOCK) :
    ∃ r, translateRef c e tbl m idx ref = some r := by
  obtain ⟨o, ho, hp⟩ := lookup_isSome c e tbl m idx hf hc he
  have hp1 := hp hok
  unfold translateRef
  rw [ho]
  simp only
  unfold storeByte
  by_cases hw : ref.type = 'w'
  · rw [if_pos hw, if_neg (by omega)]
    exact ⟨_, rfl⟩
  · rw [if_neg hw]
    exact ⟨_, rfl⟩

/-- Handling a reference is defined in a well-formed state, for level 1 and for level 2
under FIFO, LRU and CLOCK. -/
theorem handle_isSome (c : Config) (s : State) (ref : Ref)
    (hf : c.algo = Algo.ECLOCK → 3 ≤ c.fcount) (hw : WF c s)
    (hok : c.level = 1 ∨ (c.level = 2 ∧ c.algo ≠ Algo.ECLOCK)) :
    ∃ s1 rec, handle c s ref = some (s1, rec) := by
  unfold handle
  rcases hok with h1 | ⟨h2, hA⟩
  · rw [if_pos h1]
    obtain ⟨⟨tbl, m, rec⟩, hr⟩ := translateRef_isSome c true s.pt s.toMem (vpnOf ref.addr) ref
      hf hw.1 hw.2.1 (Or.inl rfl)
    rw [hr]
    exact ⟨_, _, rfl⟩
  · rw [if_neg (by omega), if_pos h2]
    simp only
    obtain ⟨⟨tbl, m, rec⟩, hr⟩ := translateRef_isSome c false
      (match s.pt_array (pte1Of c.level ref.addr) with
        | none => init_pt
        | some t => t) s.toMem (pte2Of c.level ref.addr) ref
      hf hw.1 hw.2.1 (Or.inr hA)
    rw [hr]
    exact ⟨_, _, rfl⟩

/-! ## Runs -/

theorem run_cons (c : Config) (i : Nat) (s : State) (ref : Ref) (rest : List Ref)
    (s2 : State) (log : List Record) (h : run c i s (ref :: rest) = some (s2, log)) :
    ∃ s1 rec recs, handle c (age c i s) ref = some (s1, rec) ∧
      run c (i + 1) s1 rest = some (s2, recs) ∧ log = rec :: recs := by
  rw [run] at h
  split at h
  · simp at h
  · rename_i s1 rec hh
    split at h
    · simp at h
    · rename_i s3 recs hr
      simp only [Option.some.injEq, Prod.mk.injEq] at h
      obtain ⟨e1, e2⟩ := h
      subst e1 e2
      exact ⟨s1, rec, recs, hh, hr, rfl⟩

theorem run_cons_eq (c : Config) (i : Nat) (s s1 s2 : State) (ref : Ref) (rest : List Ref)
    (rec : Record) (recs : List Record) (h1 : handle c (age c i s) ref = some (s1, rec))
    (h2 : run c (i + 1) s1 rest = some (s2, recs)) :
    run c i s (ref :: rest) = some (s2, rec :: recs) := by
  rw [run, h1]
  simp only
  rw [h2]

/-- A run is defined from a well-formed state, and ends in one. -/
theorem run_total (c : Config) (hf : c.algo = Algo.ECLOCK → 3 ≤ c.fcount)
    (hf1 : c.fcount ≤ 8192)
    (hok : c.level = 1 ∨ (c.level = 2 ∧ c.algo ≠ Algo.ECLOCK)) :
    ∀ (trace : List Ref) (i : Nat) (s : State), WF c s →
      ∃ s1 log, run c i s trace = some (s1, log) := by
  intro trace
  induction trace with
  | nil => intro i s _; exact ⟨s, [], rfl⟩
  | cons ref rest ih =>
    intro i s hw
    obtain ⟨s1, rec, h1⟩ := handle_isSome c (age c i s) ref hf (age_WF c i s hw) hok
    have hw1 := (handle_WF c _ _ _ _ (Nat.lt_of_le_of_lt (Nat.zero_le _) hw.1) hf1
      (age_WF c i s hw) h1).1
    obtain ⟨s2, recs, h2⟩ := ih (i + 1) s1 hw1
    exact ⟨s2, rec :: recs, run_cons_eq c i s s1 s2 ref rest rec recs h1 h2⟩

/-- Invariants of a run: a property of the records so far and the state that is kept by the
aging step and by every reference holds at the end of the run. -/
theorem run_induct (c : Config) (Inv : List Record → State → Prop) (R : Ref → Prop)
    (hage : ∀ h s i, Inv h s → Inv h (age c i s))
    (hstep : ∀ h s ref s1 rec, R ref → Inv h s → handle c s ref = some (s1, rec) →
      Inv (h ++ [rec]) s1) :
    ∀ (trace : List Ref) (h : List Record) (i : Nat) (s s1 : State) (log : List Record),
      (∀ r ∈ trace, R r) → Inv h s → run c i s trace = some (s1, log) → Inv (h ++ log) s1 := by
  intro trace
  induction trace with
  | nil =>
    intro h i s s1 log _ hi hr
    simp only [run, Option.some.injEq, Prod.mk.injEq] at hr
    obtain ⟨e1, e2⟩ := hr
    subst e1 e2
    simpa using hi
  | cons ref rest ih =>
    intro h i s s2 log hR hi hr
    obtain ⟨s1, rec, recs, h1, h2, rfl⟩ := run_cons c i s ref rest s2 log hr
    have := ih (h ++ [rec]) (i + 1) s1 s2 recs (fun r hr => hR r (List.mem_cons_of_mem _ hr))
      (hstep h _ ref s1 rec (hR ref (List.mem_cons_self _ _)) (hage h s i hi) h1) h2
    simpa using this

theorem run_length (c : Config) :
    ∀ (trace : List Ref) (i : Nat) (s s1 : State) (log : List Record),
      run c i s trace = some (s1, log) → log.length = trace.length := by
  intro trace
  induction trace with
  | nil =>
    intro i s s1 log hr
    simp only [run, Option.some.injEq, Prod.mk.injEq] at hr
    rw [← hr.2]
    rfl
  | cons ref rest ih =>
    intro i s s2 log hr
    obtain ⟨s1, rec, recs, h1, h2, rfl⟩ := run_cons c i s ref rest s2 log hr
    simp [ih _ _ _ _ h2]

/-- A run over `a ++ b` is the run over `a` followed by the run over `b`. -/
theorem run_append (c : Config) :
    ∀ (a b : List Ref) (i : Nat) (s s2 : State) (log : List Record),
      run c i s (a ++ b) = some (s2, log) →
      ∃ s1 l1 l2, run c i s a = some (s1, l1) ∧ run c (i + a.length) s1 b = some (s2, l2) ∧
        log = l1 ++ l2 := by
  intro a
  induction a with
  | nil =>
    intro b i s s2 log hr
    exact ⟨s, [], log, rfl, by simpa using hr, rfl⟩
  | cons ref rest ih =>
    intro b i s s2 log hr
    rw [List.cons_append] at hr
    obtain ⟨s1, rec, recs, h1, h2, rfl⟩ := run_cons c i s ref _ s2 log hr
    obtain ⟨s3, l1, l2, g1, g2, rfl⟩ := ih b (i + 1) s1 s2 recs h2
    refine ⟨s3, rec :: l1, l2, run_cons_eq c i s s1 s3 ref rest rec l1 h1 g1, ?_, rfl⟩
    rw [List.length_cons, show i + (rest.length + 1) = i + 1 + rest.length by omega]
    exact g2

/-- The states reached by a run from the initial state are well-formed. -/
theorem run_WF (c : Config) (hf0 : 0 < c.fcount) (hf : c.fcount ≤ 8192) :
    ∀ (trace : List Ref) (i : Nat) (s s1 : State) (log : List Record),
      WF c s → run c i s trace = some (s1, log) →
      WF c s1 ∧ s.next_empty_frame ≤ s1.next_empty_frame := by
  intro trace
  induction trace with
  | nil =>
    intro i s s1 log hw hr
    simp only [run, Option.some.injEq, Prod.mk.injEq] at hr
    rw [← hr.1]
    exact ⟨hw, Nat.le_refl _⟩
  | cons ref rest ih =>
    intro i s s2 log hw hr
    obtain ⟨s1, rec, recs, h1, h2, rfl⟩ := run_cons c i s ref rest s2 log hr
    obtain ⟨w1, n1⟩ := handle_WF c _ _ _ _ hf0 hf (age_WF c i s hw) h1
    obtain ⟨w2, n2⟩ := ih _ _ _ _ w1 h2
    have e3 : (age c i s).next_empty_frame = s.next_empty_frame :=
      congrArg Mem.next_empty_frame (age_toMem c i s)
    exact ⟨w2, by omega⟩

/-! ## Hits -/

theorem rd_type (b : Nat) : (rd b).type ≠ 'w' := by
  simp [rd]

/-- A read of a valid entry takes the hit branch. -/
theorem translateRef_hit_read (c : Config) (e : Bool) (tbl : Nat → PTE) (m : Mem) (idx : Nat)
    (ref : Ref) (hv : (tbl idx).v = true) (hw : ref.type ≠ 'w') :
    ∃ rec, translateRef c e tbl m idx ref
        = some (upd tbl idx { tbl idx with r := true }, (pageHit c tbl m idx).mem, rec) ∧
      rec.pageFault = false ∧ rec.replaced = false ∧ rec.pfn = (tbl idx).frame := by
  simp [translateRef, lookup, hv, storeByte, hw, pageHit]

theorem entryOf_congr (c : Config) (s : State) (a b : Nat) (h : vpnOf b = vpnOf a) :
    entryOf c s b = entryOf c s a := by
  simp [entryOf, pte1Of, pte2Of, h]

theorem entryOf_age (c : Config) (i : Nat) (s : State) (a : Nat) :
    (entryOf c (age c i s) a).v = (entryOf c s a).v := by
  unfold entryOf
  rw [age_pt_array]
  split
  · exact (age_pt c i s _).2.2.1
  · rfl

/-- One read of a resident page, in either mode. -/
theorem handle_hit_read (c : Config) (s : State) (a : Nat) (ref : Ref)
    (hl : c.level = 1 ∨ c.level = 2) (hv : (entryOf c s a).v = true)
    (ha : vpnOf ref.addr = vpnOf a) (hw : ref.type ≠ 'w') :
    ∃ s1 rec, handle c s ref = some (s1, rec) ∧ s1.pfault_count = s.pfault_count ∧
      rec.pageFault = false ∧ (entryOf c s1 a).v = true := by
  rw [← entryOf_congr c s a ref.addr ha] at hv
  unfold entryOf at hv
  unfold handle
  rcases hl with h1 | h2
  · rw [if_pos h1] at hv ⊢
    obtain ⟨rec, hr, hp, -⟩ := translateRef_hit_read c true s.pt s.toMem (vpnOf ref.addr) ref hv hw
    rw [hr]
    refine ⟨_, rec, rfl, rfl, hp, ?_⟩
    simp [entryOf, h1, ← ha, hv]
  · have h1 : ¬ c.level = 1 := by omega
    rw [if_neg h1] at hv ⊢
    rw [if_pos h2]
    simp only
    obtain ⟨rec, hr, hp, -⟩ := translateRef_hit_read c false
      (match s.pt_array (pte1Of c.level ref.addr) with
        | none => init_pt
        | some t => t) s.toMem (pte2Of c.level ref.addr) ref
      (by
        split at hv
        · rename_i hx; rw [hx]; exact hv
        · rename_i t hx; rw [hx]; exact hv) hw
    rw [hr]
    refine ⟨_, rec, rfl, rfl, hp, ?_⟩
    have e1 : pte1Of c.level a = pte1Of c.level ref.addr := by simp [pte1Of, ha]
    have e2 : pte2Of c.level a = pte2Of c.level ref.addr := by simp [pte2Of, ha]
    simp only [entryOf, if_neg h1, e1, e2, upd_same]
    split at hv
    · rename_i hx; simp [hx] at hv ⊢; exact hv
    · rename_i t hx; simp [hx] at hv ⊢; exact hv

/-! ## Fault counter and free-frame cursor -/

/-- The branch taken by a reference and its effect on the fault counter and the cursor. -/
theorem translateRef_counts (c : Config) (e : Bool) (tbl : Nat → PTE) (m : Mem) (idx : Nat)
    (ref : Ref) (tbl1 : Nat → PTE) (m1 : Mem) (rec : Record)
    (h : translateRef c e tbl m idx ref = some (tbl1, m1, rec)) :
    (rec.pageFault = false ∧ rec.replaced = false ∧ rec.victim = none ∧ (tbl idx).v = true ∧
      m1.pfault_count = m.pfault_count ∧ m1.next_empty_frame = m.next_empty_frame) ∨
    (rec.pageFault = true ∧ rec.replaced = false ∧ rec.victim = none ∧ (tbl idx).v = false ∧
      m.next_empty_frame < c.fcount ∧ rec.pfn = m.next_empty_frame ∧
      m1.pfault_count = m.pfault_count + 1 ∧
      m1.next_empty_frame = m.next_empty_frame + 1) ∨
    (rec.pageFault = true ∧ rec.replaced = true ∧ (tbl idx).v = false ∧
      c.fcount ≤ m.next_empty_frame ∧ m1.pfault_count = m.pfault_count + 1 ∧
      m1.next_empty_frame = m.next_empty_frame) := by
  obtain ⟨o, ho, hs, -, -, -, -, r1, -, r2, r3, r4⟩ := translateRef_some _ _ _ _ _ _ _ _ _ h
  obtain ⟨-, -, s3, -, -⟩ := storeByte_spec _ _ _ _ _ _ hs
  have e1 : m1.pfault_count = o.mem.pfault_count := by rw [s3]
  have e2 : m1.next_empty_frame = o.mem.next_empty_frame := by rw [s3]
  rw [r1, r2, r3, r4, e1, e2]
  rcases lookup_cases _ _ _ _ _ _ ho with ⟨hv, rfl⟩ | ⟨hv, hlt, rfl⟩ | ⟨hv, hge, hr⟩
  · exact Or.inl ⟨rfl, rfl, rfl, hv, rfl, rfl⟩
  · exact Or.inr (Or.inl ⟨rfl, rfl, rfl, hv, hlt, rfl, rfl, rfl⟩)
  · obtain ⟨q1, q2, q3, q4, -⟩ := replacePage_spec _ _ _ _ _ _ hr
    exact Or.inr (Or.inr ⟨q1, q2, hv, hge, q4, q3⟩)

/-- The branch taken by `handle` and its effect on the fault counter and the cursor. -/
theorem handle_counts (c : Config) (s s1 : State) (ref : Ref) (rec : Record)
    (h : handle c s ref = some (s1, rec)) :
    (rec.pageFault = false ∧ rec.replaced = false ∧ rec.victim = none ∧
      s1.pfault_count = s.pfault_count ∧ s1.next_empty_frame = s.next_empty_frame) ∨
    (rec.pageFault = true ∧ rec.replaced = false ∧ rec.victim = none ∧
      s.next_empty_frame < c.fcount ∧ rec.pfn = s.next_empty_frame ∧
      s1.pfault_count = s.pfault_count + 1 ∧
      s1.next_empty_frame = s.next_empty_frame + 1) ∨
    (rec.pageFault = true ∧ rec.replaced = true ∧
      c.fcount ≤ s.next_empty_frame ∧ s1.pfault_count = s.pfault_count + 1 ∧
      s1.next_empty_frame = s.next_empty_frame) := by
  rcases handle_cases _ _ _ _ _ h with ⟨-, tbl, m, ht, rfl⟩ | ⟨-, tbl, m, ht, rfl⟩
  · rcases translateRef_counts _ _ _ _ _ _ _ _ _ ht with
      ⟨a1, a2, a3, -, a5, a6⟩ | ⟨a1, a2, a3, -, a5, a6, a7, a8⟩ | ⟨a1, a2, -, a4, a5, a6⟩
    · exact Or.inl ⟨a1, a2, a3, a5, a6⟩
    · exact Or.inr (Or.inl ⟨a1, a2, a3, a5, a6, a7, a8⟩)
    · exact Or.inr (Or.inr ⟨a1, a2, a4, a5, a6⟩)
  · rcases translateRef_counts _ _ _ _ _ _ _ _ _ ht with
      ⟨a1, a2, a3, -, a5, a6⟩ | ⟨a1, a2, a3, -, a5, a6, a7, a8⟩ | ⟨a1, a2, -, a4, a5, a6⟩
    · exact Or.inl ⟨a1, a2, a3, a5, a6⟩
    · exact Or.inr (Or.inl ⟨a1, a2, a3, a5, a6, a7, a8⟩)
    · exact Or.inr (Or.inr ⟨a1, a2, a4, a5, a6⟩)

theorem faultsOf_snoc (h : List Record) (rec : Record) :
    faultsOf (h ++ [rec]) = faultsOf h ++ (if rec.pageFault = true then [rec] else []) := by
  unfold faultsOf
  rw [List.filter_append]
  by_cases hp : rec.pageFault = true <;> simp [List.filter, hp]

theorem evictionsOf_snoc (h : List Record) (rec : Record) :
    evictionsOf (h ++ [rec]) = evictionsOf h ++ (if rec.replaced = true then [rec] else []) := by
  unfold evictionsOf
  rw [List.filter_append]
  by_cases hp : rec.replaced = true <;> simp [List.filter, hp]

/-- An element of `l ++ [x]` is an element of `l` or is `x` at position `l.length`. -/
theorem getElem?_snoc {α : Type} (l : List α) (x e : α) (k : Nat)
    (h : (l ++ [x])[k]? = some e) : l[k]? = some e ∨ (k = l.length ∧ e = x) := by
  by_cases hk : k < l.length
  · rw [List.getElem?_append_left hk] at h
    exact Or.inl h
  · rw [List.getElem?_append_right (by omega)] at h
    by_cases h0 : k - l.length = 0
    · rw [h0] at h
      simp only [List.getElem?_cons_zero, Option.some.injEq] at h
      exact Or.inr ⟨by omega, h.symm⟩
    · obtain ⟨j, hj⟩ : ∃ j, k - l.length = j + 1 := ⟨k - l.length - 1, by omega⟩
      rw [hj] at h
      simp at h

theorem CountInv_init (c : Config) (swap0 : Nat → Nat) : CountInv c [] (init c swap0) := by
  refine ⟨rfl, ?_, ?_⟩
  · simp [init]
  · intro k e h
    simp [faultsOf] at h

theorem CountInv_age (c : Config) (h : List Record) (s : State) (i : Nat)
    (hi : CountInv c h s) : CountInv c h (age c i s) := by
  unfold CountInv
  have hm := age_toMem c i s
  have e1 : (age c i s).pfault_count = s.pfault_count := congrArg Mem.pfault_count hm
  have e3 : (age c i s).next_empty_frame = s.next_empty_frame :=
    congrArg Mem.next_empty_frame hm
  rw [e1, e3]
  exact hi

theorem CountInv_step (c : Config) (h : List Record) (s : State) (ref : Ref) (s1 : State)
    (rec : Record) (hi : CountInv c h s) (hh : handle c s ref = some (s1, rec)) :
    CountInv c (h ++ [rec]) s1 := by
  obtain ⟨i1, i2, i3⟩ := hi
  unfold CountInv
  rw [faultsOf_snoc]
  rcases handle_counts _ _ _ _ _ hh with
    ⟨a1, a2, a3, a5, a6⟩ | ⟨a1, a2, a3, a5, a6, a7, a8⟩ | ⟨a1, a2, a4, a5, a6⟩
  · simp only [a1, Bool.false_eq_true, if_false, List.append_nil]
    rw [a5, a6]
    exact ⟨i1, i2, i3⟩
  · simp only [a1, if_true, List.length_append, List.length_singleton]
    refine ⟨by omega, by omega, ?_⟩
    intro k e hk
    rcases getElem?_snoc _ _ _ _ hk with hk1 | ⟨hk1, rfl⟩
    · exact i3 k e hk1
    · refine ⟨fun _ => ⟨a2, a3, ?_⟩, fun hge => by omega⟩
      rw [a6]
      congr 1
      omega
  · simp only [a1, if_true, List.length_append, List.length_singleton]
    refine ⟨by omega, by omega, ?_⟩
    intro k e hk
    rcases getElem?_snoc _ _ _ _ hk with hk1 | ⟨hk1, rfl⟩
    · exact i3 k e hk1
    · exact ⟨fun hlt => by omega, fun _ => a2⟩

/-! ## The entry of the referenced page -/

/-- Effect of a reference on the table.  Without replacement only the entry of the page
changes: it is valid afterwards, with the frame it had (hit) or the frame under the cursor
(fault).  With replacement the other entries keep frame, `m` and `v`, and the entry of the
page is valid with the frame of the victim; the empty ECLOCK branch of level 2 changes
nothing. -/
theorem translateRef_entry (c : Config) (e : Bool) (tbl : Nat → PTE) (m : Mem) (idx : Nat)
    (ref : Ref) (tbl1 : Nat → PTE) (m1 : Mem) (rec : Record)
    (hf : c.fcount ≤ 8192) (ht : TblOK c m.next_empty_frame tbl)
    (h : translateRef c e tbl m idx ref = some (tbl1, m1, rec)) :
    (rec.replaced = false →
      (∀ p, p ≠ idx → tbl1 p = tbl p) ∧ (tbl1 idx).v = true ∧
      rec.pfn = ((tbl1 idx).frame : Int) ∧
      (((tbl idx).v = true ∧ (tbl1 idx).frame = (tbl idx).frame) ∨
       ((tbl idx).v = false ∧ (tbl1 idx).frame = m.next_empty_frame))) ∧
    (rec.replaced = true →
      (e = false ∧ c.algo = Algo.ECLOCK ∧ rec.victim = none ∧ rec.pfn = -1 ∧ tbl1 = tbl) ∨
      (∃ v, rec.victim = some v ∧
        (∀ p, p ≠ idx → (tbl1 p).v = (tbl p).v ∧ (tbl1 p).frame = (tbl p).frame ∧
          (tbl1 p).m = (tbl p).m) ∧
        (tbl1 idx).v = true ∧ (tbl1 idx).frame = (tbl v).frame ∧
        rec.pfn = ((tbl v).frame : Int))) := by
  obtain ⟨o, ho, hs, -, -, -, -, r1, -, -, r3, r4⟩ := translateRef_some _ _ _ _ _ _ _ _ _ h
  obtain ⟨s1, s2, -, s4, s5⟩ := storeByte_spec _ _ _ _ _ _ hs
  rw [r1, r3, r4]
  rcases lookup_cases _ _ _ _ _ _ ho with ⟨hv, rfl⟩ | ⟨hv, hlt, rfl⟩ | ⟨hv, hge, hr⟩
  · refine ⟨fun _ => ⟨?_, ?_, ?_, Or.inl ⟨hv, ?_⟩⟩, fun hx => by simp [pageHit] at hx⟩
    · intro p hp
      rw [s2 p hp]
      simp [pageHit, hp]
    · rw [(s1 idx).2.1]; simp [pageHit, hv]
    · rw [(s1 idx).1]; simp [pageHit]
    · rw [(s1 idx).1]; simp [pageHit]
  · have hm : m.next_empty_frame % 8192 = m.next_empty_frame :=
      Nat.mod_eq_of_lt (by omega)
    refine ⟨fun _ => ⟨?_, ?_, ?_, Or.inr ⟨hv, ?_⟩⟩, fun hx => by simp [loadFree] at hx⟩
    · intro p hp
      rw [s2 p hp]
      simp [loadFree, hp]
    · rw [(s1 idx).2.1]; simp [loadFree]
    · rw [(s1 idx).1]; simp [loadFree, hm]
    · rw [(s1 idx).1]; simp [loadFree, hm]
  · obtain ⟨-, q2, -, -, -, -, q7⟩ := replacePage_spec _ _ _ _ _ _ hr
    refine ⟨fun hx => by rw [q2] at hx; simp at hx, fun _ => ?_⟩
    rcases q7 with ⟨a1, a2, a3, a4, a5, a6⟩ | ⟨tbl0, v, sb, -, a3, a4, -, -, a7⟩
    · refine Or.inl ⟨a1, a2, a3, a6, ?_⟩
      by_cases hw : ref.type = 'w'
      · have := (s5 hw).1
        rw [a6] at this
        omega
      · rw [(s4 hw).1, a4]
    · refine Or.inr ⟨v, a3, ?_, ?_, ?_, ?_⟩
      · intro p hp
        rw [s2 p hp, a4, swapIn_tbl, upd_ne _ _ hp]
        exact ⟨(sb p).2.2, (sb p).1, (sb p).2.1⟩
      · rw [(s1 idx).2.1, a4, swapIn_tbl]; simp
      · have hv0 : (tbl0 v).frame < c.fcount := by rw [(sb v).1]; exact ht.1 v
        have hm : (tbl0 v).frame % 8192 = (tbl0 v).frame := Nat.mod_eq_of_lt (by omega)
        rw [(s1 idx).1, a4, swapIn_tbl, upd_same]
        simp only
        rw [hm, (sb v).1]
      · rw [a7, swapIn_frame, (sb v).1]

/-- The frame reported for a reference is the frame of the entry of its page afterwards, and
the physical address is `frame * 64 + offset`. -/
theorem handle_reported (c : Config) (s s1 : State) (ref : Ref) (rec : Record)
    (hl : c.level = 1) (hf0 : 0 < c.fcount) (hf : c.fcount ≤ 8192) (hw : WF c s)
    (h : handle c s ref = some (s1, rec)) :
    rec.addr = ref.addr ∧ rec.offset = offsetOf ref.addr ∧
    rec.pfn = ((s1.pt (vpnOf ref.addr)).frame : Int) ∧ (s1.pt (vpnOf ref.addr)).v = true ∧
    0 ≤ rec.pfn ∧ rec.pfn < (c.fcount : Int) ∧
    rec.pa = rec.pfn * 64 + (rec.offset : Int) ∧
    0 ≤ rec.pa ∧ rec.pa < (c.fcount : Int) * 64 := by
  obtain ⟨w1, -⟩ := handle_WF c s s1 ref rec hf0 hf hw h
  rcases handle_cases _ _ _ _ _ h with ⟨-, tbl, m, ht, rfl⟩ | ⟨h2, -⟩
  · obtain ⟨o, -, -, r1, -, -, r4, r5, r6, -⟩ := translateRef_some _ _ _ _ _ _ _ _ _ ht
    obtain ⟨e1, e2⟩ := translateRef_entry _ _ _ _ _ _ _ _ _ hf hw.2.2.2.1 ht
    have hfr : (tbl (vpnOf ref.addr)).frame < c.fcount := w1.2.2.2.1.1 _
    have key : rec.pfn = ((tbl (vpnOf ref.addr)).frame : Int) ∧
        (tbl (vpnOf ref.addr)).v = true := by
      by_cases hr : rec.replaced = true
      · rcases e2 hr with ⟨a1, -⟩ | ⟨v, -, -, a3, a4, a5⟩
        · simp at a1
        · exact ⟨by rw [a5, a4], a3⟩
      · have hr0 : rec.replaced = false := by simpa using hr
        obtain ⟨-, a2, a3, -⟩ := e1 hr0
        exact ⟨a3, a2⟩
    have ho := offsetOf_lt ref.addr
    simp only
    rw [r6, ← r5, r4]
    refine ⟨r1, rfl, key.1, key.2, ?_, ?_, rfl, ?_, ?_⟩ <;> rw [key.1] <;> omega
  · omega

/-! ## Steps of a run -/

/-- Runs compose. -/
theorem run_append_eq (c : Config) :
    ∀ (a b : List Ref) (i : Nat) (s s1 s2 : State) (l1 l2 : List Record),
      run c i s a = some (s1, l1) → run c (i + a.length) s1 b = some (s2, l2) →
      run c i s (a ++ b) = some (s2, l1 ++ l2) := by
  intro a
  induction a with
  | nil =>
    intro b i s s1 s2 l1 l2 h1 h2
    simp only [run, Option.some.injEq, Prod.mk.injEq] at h1
    obtain ⟨e1, e2⟩ := h1
    subst e1 e2
    simpa using h2
  | cons ref rest ih =>
    intro b i s s1 s2 l1 l2 h1 h2
    obtain ⟨s3, rec, recs, g1, g2, rfl⟩ := run_cons c i s ref rest s1 l1 h1
    rw [List.length_cons, show i + (rest.length + 1) = i + 1 + rest.length by omega] at h2
    have := ih b (i + 1) s3 s1 s2 recs l2 g2 h2
    rw [List.cons_append, List.cons_append]
    exact run_cons_eq c i s s3 s2 ref _ rec _ g1 this

/-- The step at position `t` of a run: the run over the first `t` references, the reference
handled after the aging step, and the run over the first `t + 1` references. -/
theorem stepAt_of_run (c : Config) (swap0 : Nat → Nat) (refs : List Ref) (sf : State)
    (log : List Record) (hr : run c 0 (init c swap0) refs = some (sf, log))
    (t : Nat) (ht : t < refs.length) :
    ∃ s0 ref e s1, refs[t]? = some ref ∧
      run c 0 (init c swap0) (refs.take t) = some (s0, log.take t) ∧
      handle c (age c t s0) ref = some (s1, e) ∧
      stepAt c swap0 refs t = some (age c t s0, e, s1) ∧ log[t]? = some e ∧
      run c 0 (init c swap0) (refs.take (t + 1)) = some (s1, log.take (t + 1)) := by
  have hsplit : refs = refs.take t ++ (refs[t] :: refs.drop (t + 1)) := by
    rw [List.getElem_cons_drop _ _ ht, List.take_append_drop]
  rw [hsplit] at hr
  obtain ⟨s0, l1, l2, g1, g2, rfl⟩ := run_append c _ _ 0 _ sf log hr
  have hl1 : l1.length = t := by
    rw [run_length c _ _ _ _ _ g1, List.length_take]
    omega
  rw [List.length_take, Nat.min_eq_left (by omega), Nat.zero_add] at g2
  obtain ⟨s1, e, recs, k1, k2, rfl⟩ := run_cons c t s0 _ _ sf l2 g2
  have ht1 : (l1 ++ e :: recs).take t = l1 := by
    rw [List.take_append_eq_append_take, hl1, Nat.sub_self, List.take_zero, List.append_nil,
      ← hl1, List.take_length]
  have ht2 : (l1 ++ e :: recs).take (t + 1) = l1 ++ [e] := by
    rw [List.take_append_eq_append_take, hl1, show t + 1 - t = 1 by omega,
      List.take_of_length_le (by omega)]
    rfl
  have hg : refs[t]? = some refs[t] := List.getElem?_eq_getElem ht
  refine ⟨s0, refs[t], e, s1, hg, by rw [ht1]; exact g1, k1, ?_, ?_, ?_⟩
  · unfold stepAt
    rw [g1, hg]
    simp only
    rw [k1]
  · rw [List.getElem?_append_right (by omega), hl1, Nat.sub_self]
    simp
  · rw [ht2, List.take_succ, hg]
    have := run_append_eq c (refs.take t) [refs[t]] 0 (init c swap0) s0 s1 l1 [e] g1
      (by
        rw [List.length_take, Nat.min_eq_left (by omega), Nat.zero_add]
        exact run_cons_eq c t s0 s1 s1 _ [] e [] k1 rfl)
    exact this

/-- What `stepAt` returns was computed by `handle` from the aged state after the run over the
references before it. -/
theorem stepAt_some (c : Config) (swap0 : Nat → Nat) (refs : List Ref) (t : Nat)
    (s : State) (e : Record) (s1 : State) (h : stepAt c swap0 refs t = some (s, e, s1)) :
    ∃ s0 l0 ref, run c 0 (init c swap0) (refs.take t) = some (s0, l0) ∧ refs[t]? = some ref ∧
      s = age c t s0 ∧ handle c s ref = some (s1, e) := by
  unfold stepAt at h
  split at h
  · rename_i s0 l0 ref h1 h2
    split at h
    · rename_i s2 rec h3
      simp only [Option.some.injEq, Prod.mk.injEq] at h
      obtain ⟨e1, e2, e3⟩ := h
      subst e1 e2 e3
      exact ⟨s0, l0, ref, h1, h2, rfl, h3⟩
    · simp at h
  · simp at h

/-- The state before any step of a run from the initial state is well-formed. -/
theorem stepAt_WF (c : Config) (swap0 : Nat → Nat) (refs : List Ref) (t : Nat)
    (hf0 : 0 < c.fcount) (hf : c.fcount ≤ 8192)
    (s : State) (e : Record) (s1 : State) (h : stepAt c swap0 refs t = some (s, e, s1)) :
    WF c s := by
  obtain ⟨s0, l0, ref, h1, -, rfl, -⟩ := stepAt_some c swap0 refs t s e s1 h
  exact age_WF c t s0 (run_WF c hf0 hf _ 0 _ s0 l0 (init_WF c swap0 hf0) h1).1

/-! ## Frame exclusivity while no page has been replaced -/

theorem WF_entryAt_lt (c : Config) (s : State) (hw : WF c s) (k : Option Nat) (p : Nat)
    (e : PTE) (h : entryAt s k p = some e) (hv : e.v = true) :
    e.frame < s.next_empty_frame := by
  cases k with
  | none =>
    simp only [entryAt, Option.some.injEq] at h
    subst h
    exact hw.2.2.2.1.2 p hv
  | some o =>
    simp only [entryAt, Option.map_eq_some'] at h
    obtain ⟨t, ht, rfl⟩ := h
    exact (hw.2.2.2.2 o t ht).2 p hv

/-- Exclusivity is kept when the valid entries other than the one at `K` are old entries and
the entry at `K` either repeats an old valid entry or holds the frame under the cursor. -/
theorem excl_step (s s1 : State) (K : Option Nat × Nat) (n : Nat)
    (hold : ∀ k p e, (k, p) ≠ K → entryAt s1 k p = some e → e.v = true →
      entryAt s k p = some e)
    (hK : ∀ e, entryAt s1 K.1 K.2 = some e → e.v = true →
      (∃ e0, entryAt s K.1 K.2 = some e0 ∧ e0.v = true ∧ e0.frame = e.frame) ∨ e.frame = n)
    (hlt : ∀ k p e, entryAt s k p = some e → e.v = true → e.frame < n)
    (hex : FrameExclusive s) : FrameExclusive s1 := by
  intro k1 p1 k2 p2 e1 e2 h1 h2 v1 v2 hfr
  by_cases c1 : (k1, p1) = K
  · by_cases c2 : (k2, p2) = K
    · rw [← c2] at c1
      exact ⟨(Prod.mk.inj c1).1, (Prod.mk.inj c1).2⟩
    · have o2 := hold k2 p2 e2 c2 h2 v2
      have l2 := hlt k2 p2 e2 o2 v2
      subst c1
      rcases hK e1 h1 v1 with ⟨e0, g1, g2, g3⟩ | g
      · exact hex k1 p1 k2 p2 e0 e2 g1 o2 g2 v2 (g3.trans hfr)
      · omega
  · have o1 := hold k1 p1 e1 c1 h1 v1
    have l1 := hlt k1 p1 e1 o1 v1
    by_cases c2 : (k2, p2) = K
    · subst c2
      rcases hK e2 h2 v2 with ⟨e0, g1, g2, g3⟩ | g
      · exact hex k1 p1 k2 p2 e1 e0 o1 g1 v1 g2 (hfr.trans g3.symm)
      · omega
    · exact hex k1 p1 k2 p2 e1 e2 o1 (hold k2 p2 e2 c2 h2 v2) v1 v2 hfr

/-- A reference that does not take the replacement branch keeps frame exclusivity. -/
theorem handle_noreplace_excl (c : Config) (s s1 : State) (ref : Ref) (rec : Record)
    (hf : c.fcount ≤ 8192) (hw : WF c s) (hex : FrameExclusive s)
    (h : handle c s ref = some (s1, rec)) (hrep : rec.replaced = false) :
    FrameExclusive s1 := by
  rcases handle_cases _ _ _ _ _ h with ⟨-, tbl, m, ht, rfl⟩ | ⟨-, tbl, m, ht, rfl⟩
  · obtain ⟨a1, a2, -, a4⟩ :=
      (translateRef_entry _ _ _ _ _ _ _ _ _ hf hw.2.2.2.1 ht).1 hrep
    apply excl_step s _ (none, vpnOf ref.addr) s.next_empty_frame _ _
      (WF_entryAt_lt c s hw) hex
    · intro k p e hne he hv
      cases k with
      | none =>
        have hp : p ≠ vpnOf ref.addr := fun hp => hne (by rw [hp])
        simp only [entryAt, Option.some.injEq] at he ⊢
        rw [← he]
        exact (a1 p hp).symm
      | some o => exact he
    · intro e he hv
      simp only [entryAt, Option.some.injEq] at he
      subst he
      rcases a4 with ⟨b1, b2⟩ | ⟨b1, b2⟩
      · exact Or.inl ⟨_, rfl, b1, b2.symm⟩
      · exact Or.inr b2
  · have hin : TblOK c s.next_empty_frame
        (match s.pt_array (pte1Of c.level ref.addr) with
          | none => init_pt
          | some t => t) := by
      split
      · exact ⟨fun _ => Nat.lt_of_le_of_lt (Nat.zero_le _) hw.1,
          fun _ hv => by simp [init_pt] at hv⟩
      · rename_i t ht1
        exact hw.2.2.2.2 _ t ht1
    obtain ⟨a1, a2, -, a4⟩ := (translateRef_entry _ _ _ _ _ _ _ _ _ hf hin ht).1 hrep
    apply excl_step s _ (some (pte1Of c.level ref.addr), pte2Of c.level ref.addr)
      s.next_empty_frame _ _ (WF_entryAt_lt c s hw) hex
    · intro k p e hne he hv
      cases k with
      | none => exact he
      | some o =>
        simp only [entryAt, Option.map_eq_some'] at he ⊢
        obtain ⟨t, ht1, rfl⟩ := he
        by_cases ho : o = pte1Of c.level ref.addr
        · subst ho
          have hp : p ≠ pte2Of c.level ref.addr := fun hp => hne (by rw [hp])
          simp only [upd_same, Option.some.injEq] at ht1
          subst ht1
          rw [a1 p hp] at hv ⊢
          cases hx : s.pt_array (pte1Of c.level ref.addr) with
          | none => rw [hx] at hv; simp [init_pt] at hv
          | some t0 => exact ⟨t0, rfl, rfl⟩
        · rw [upd_ne _ _ ho] at ht1
          exact ⟨t, ht1, rfl⟩
    · intro e he hv
      simp only [entryAt, upd_same, Option.map_some', Option.some.injEq] at he
      subst he
      rcases a4 with ⟨b1, b2⟩ | ⟨b1, b2⟩
      · left
        cases hx : s.pt_array (pte1Of c.level ref.addr) with
        | none => rw [hx] at b1; simp [init_pt] at b1
        | some t0 =>
          rw [hx] at b1 b2
          exact ⟨t0 (pte2Of c.level ref.addr), by simp [entryAt, hx], b1, b2.symm⟩
      · exact Or.inr b2

theorem FrameExclusive_init (c : Config) (swap0 : Nat → Nat) :
    FrameExclusive (init c swap0) := by
  intro k1 p1 k2 p2 e1 e2 h1 h2 v1 v2 hfr
  cases k1 with
  | none =>
    simp only [entryAt, init, Option.some.injEq] at h1
    subst h1
    simp [init_pt] at v1
  | some o => simp [entryAt, init] at h1

theorem FrameExclusive_age (c : Config) (i : Nat) (s : State) (h : FrameExclusive s) :
    FrameExclusive (age c i s) := by
  have key : ∀ k p e, entryAt (age c i s) k p = some e → e.v = true →
      ∃ e0, entryAt s k p = some e0 ∧ e0.v = true ∧ e0.frame = e.frame := by
    intro k p e he hv
    cases k with
    | none =>
      simp only [entryAt, Option.some.injEq] at he
      subst he
      refine ⟨s.pt p, rfl, ?_, ((age_pt c i s p).1).symm⟩
      rw [← (age_pt c i s p).2.2.1]; exact hv
    | some o =>
      simp only [entryAt, age_pt_array] at he
      exact ⟨e, he, hv, rfl⟩
  intro k1 p1 k2 p2 e1 e2 h1 h2 v1 v2 hfr
  obtain ⟨x1, a1, a2, a3⟩ := key k1 p1 e1 h1 v1
  obtain ⟨x2, b1, b2, b3⟩ := key k2 p2 e2 h2 v2
  exact h k1 p1 k2 p2 x1 x2 a1 b1 a2 b2 (by rw [a3, b3, hfr])

/-! ## FIFO -/

/-- The FIFO queue: unchanged by a hit, shifted by one with the page appended by a fault
(under FIFO also when it replaces); under FIFO the victim is the head of the queue. -/
theorem translateRef_fifo (c : Config) (e : Bool) (tbl : Nat → PTE) (m : Mem) (idx : Nat)
    (ref : Ref) (tbl1 : Nat → PTE) (m1 : Mem) (rec : Record)
    (h : translateRef c e tbl m idx ref = some (tbl1, m1, rec)) :
    (rec.pageFault = false → m1.fifo_order = m.fifo_order) ∧
    (rec.pageFault = true → (rec.replaced = false ∨ c.algo = Algo.FIFO) →
      m1.fifo_order = shiftIn c.fcount m.fifo_order idx) ∧
    (rec.replaced = true → c.algo = Algo.FIFO → rec.victim = some (m.fifo_order 0)) := by
  obtain ⟨o, ho, hs, -, -, -, -, -, -, r2, r3, r4⟩ := translateRef_some _ _ _ _ _ _ _ _ _ h
  obtain ⟨-, -, s3, -, -⟩ := storeByte_spec _ _ _ _ _ _ hs
  have e1 : m1.fifo_order = o.mem.fifo_order := by rw [s3]
  rw [r2, r3, r4, e1]
  rcases lookup_cases _ _ _ _ _ _ ho with ⟨hv, rfl⟩ | ⟨hv, hlt, rfl⟩ | ⟨hv, hge, hr⟩
  · exact ⟨fun _ => rfl, fun hx => by simp [pageHit] at hx, fun hx => by simp [pageHit] at hx⟩
  · exact ⟨fun hx => by simp [loadFree] at hx, fun _ _ => rfl,
      fun hx => by simp [loadFree] at hx⟩
  · obtain ⟨q1, q2, -⟩ := replacePage_spec _ _ _ _ _ _ hr
    refine ⟨fun hx => by rw [q1] at hx; simp at hx, fun _ hA => ?_, fun _ hA => ?_⟩
    · rcases hA with hA | hA
      · rw [q2] at hA; simp at hA
      · unfold replacePage at hr
        simp only [hA, Option.some.injEq] at hr
        rw [← hr]
    · unfold replacePage at hr
      simp only [hA, Option.some.injEq] at hr
      rw [← hr]

theorem getElem?_append_of_some {α : Type} (l l2 : List α) (k : Nat) (e : α)
    (h : l[k]? = some e) : (l ++ l2)[k]? = some e := by
  obtain ⟨hk, -⟩ := List.getElem?_eq_some.mp h
  rw [List.getElem?_append_left hk]
  exact h

theorem getElem?_snoc_length {α : Type} (l : List α) (x : α) :
    (l ++ [x])[l.length]? = some x := by
  rw [List.getElem?_append_right (Nat.le_refl _), Nat.sub_self]
  rfl

theorem FifoInv_init (c : Config) (swap0 : Nat → Nat) :
    FifoInv c [] (init c swap0) := by
  refine ⟨CountInv_init c swap0, ?_, ?_⟩
  · intro i hi hge
    simp [faultsOf] at hge
    omega
  · intro k f hk
    simp [faultsOf] at hk

theorem FifoInv_age (c : Config) (h : List Record) (s : State) (i : Nat)
    (hi : FifoInv c h s) : FifoInv c h (age c i s) := by
  obtain ⟨i1, i2, i3⟩ := hi
  have hm : (age c i s).fifo_order = s.fifo_order := congrArg Mem.fifo_order (age_toMem c i s)
  refine ⟨CountInv_age c h s i i1, ?_, ?_⟩
  · rw [hm]; exact i2
  · intro k f hk
    obtain ⟨a1, a2, a3⟩ := i3 k f hk
    exact ⟨by rw [(age_pt c i s _).2.2.1]; exact a1, by rw [(age_pt c i s _).1]; exact a2, a3⟩

theorem FifoInv_step (c : Config) (h : List Record) (s : State) (ref : Ref) (s1 : State)
    (rec : Record) (hl : c.level = 1) (hA : c.algo = Algo.FIFO) (hf0 : 0 < c.fcount)
    (hf : c.fcount ≤ 8192) (hw : WF c s) (hi : FifoInv c h s)
    (hh : handle c s ref = some (s1, rec)) : FifoInv c (h ++ [rec]) s1 := by
  obtain ⟨i1, i2, i3⟩ := hi
  have hc := CountInv_step c h s ref s1 rec i1 hh
  obtain ⟨n1, n2, -⟩ := i1
  refine ⟨hc, ?_⟩
  rcases handle_cases _ _ _ _ _ hh with ⟨-, tbl, m, ht, rfl⟩ | ⟨h2, -⟩
  swap
  · omega
  obtain ⟨-, -, -, r1, -, -, -, -, -, -, -⟩ := translateRef_some _ _ _ _ _ _ _ _ _ ht
  obtain ⟨e1, e2⟩ := translateRef_entry _ _ _ _ _ _ _ _ _ hf hw.2.2.2.1 ht
  obtain ⟨q1, q2, q3⟩ := translateRef_fifo _ _ _ _ _ _ _ _ _ ht
  have hshift : rec.pageFault = true →
      ∀ i, i < c.fcount → c.fcount ≤ (faultsOf h ++ [rec]).length + i →
      ∃ f, (faultsOf h ++ [rec])[(faultsOf h ++ [rec]).length + i - c.fcount]? = some f ∧
        shiftIn c.fcount s.fifo_order (vpnOf ref.addr) i = vpnOf f.addr := by
    intro _ i hi hge
    rw [List.length_append, List.length_singleton] at hge ⊢
    rw [shiftIn_apply]
    by_cases hlast : i = c.fcount - 1
    · rw [if_pos hlast]
      refine ⟨rec, ?_, by rw [r1]⟩
      rw [show (faultsOf h).length + 1 + i - c.fcount = (faultsOf h).length by omega]
      exact getElem?_snoc_length _ _
    · rw [if_neg hlast, if_pos (by omega)]
      obtain ⟨f, g1, g2⟩ := i2 (i + 1) (by omega) (by omega)
      refine ⟨f, ?_, g2⟩
      rw [show (faultsOf h).length + 1 + i - c.fcount
        = (faultsOf h).length + (i + 1) - c.fcount by omega]
      exact getElem?_append_of_some _ _ _ _ g1
  rw [faultsOf_snoc]
  rcases translateRef_counts _ _ _ _ _ _ _ _ _ ht with
    ⟨a1, a2, a3, a4, a5, a6⟩ | ⟨a1, a2, a3, a4, a5, a6, a7, a8⟩ | ⟨a1, a2, a4, a5, a6, a7⟩
  · -- hit
    simp only [a1, Bool.false_eq_true, if_false, List.append_nil]
    obtain ⟨b1, b2, -, b4⟩ := e1 a2
    have b4' : (tbl (vpnOf ref.addr)).frame = (s.pt (vpnOf ref.addr)).frame := by
      rcases b4 with b4 | b4
      · exact b4.2
      · rw [b4.1] at a4; simp at a4
    refine ⟨?_, ?_⟩
    · rw [q1 a1]
      exact i2
    · intro k f hk
      obtain ⟨c1, c2, c3⟩ := i3 k f hk
      by_cases hp : vpnOf f.addr = vpnOf ref.addr
      · rw [hp] at c1 c2 ⊢
        exact ⟨b2, by rw [b4', c2], c3⟩
      · rw [b1 _ hp]
        exact ⟨c1, c2, c3⟩
  · -- fault served from a free frame
    simp only [a1, if_true]
    obtain ⟨b1, b2, b3, b4⟩ := e1 a2
    have hn : s.next_empty_frame = (faultsOf h).length := by
      rw [n2, n1]; rw [n2, n1] at a5; omega
    have b4' : (tbl (vpnOf ref.addr)).frame = (faultsOf h).length := by
      rcases b4 with b4 | b4
      · rw [b4.1] at a4; simp at a4
      · rw [b4.2, hn]
    refine ⟨?_, ?_⟩
    · rw [q2 a1 (Or.inl a2)]
      exact hshift a1
    · intro k f hk
      rcases getElem?_snoc _ _ _ _ hk with hk1 | ⟨hk1, rfl⟩
      · obtain ⟨c1, c2, c3, c4⟩ := i3 k f hk1
        have hp : vpnOf f.addr ≠ vpnOf ref.addr := by
          intro hp; rw [hp, a4] at c1; simp at c1
        rw [b1 _ hp]
        refine ⟨c1, c2, c3, fun hge => ?_⟩
        obtain ⟨g, g1, g2⟩ := c4 hge
        exact ⟨g, getElem?_append_of_some _ _ _ _ g1, g2⟩
      · have hk2 : k % c.fcount = k := Nat.mod_eq_of_lt (by omega)
        rw [r1, hk2, hk1]
        refine ⟨b2, b4', ?_, fun hge => by omega⟩
        rw [b3, b4']
  · -- fault served by replacement
    simp only [a1, if_true]
    have hn : c.fcount ≤ (faultsOf h).length := by
      rw [n2, n1] at a5; omega
    rcases e2 a2 with ⟨x1, -⟩ | ⟨v, b1, b2, b3, b4, b5⟩
    · simp at x1
    have hv := q3 a2 hA
    rw [b1] at hv
    simp only [Option.some.injEq] at hv
    obtain ⟨g, g1, g2⟩ := i2 0 hf0 (by omega)
    rw [Nat.add_zero] at g1
    obtain ⟨d1, d2, -⟩ := i3 _ g g1
    have hvg : v = vpnOf g.addr := by rw [hv, g2]
    have hmod : ((faultsOf h).length - c.fcount) % c.fcount = (faultsOf h).length % c.fcount :=
      (Nat.mod_eq_sub_mod hn).symm
    refine ⟨?_, ?_⟩
    · rw [q2 a1 (Or.inr hA)]
      exact hshift a1
    · intro k f hk
      rcases getElem?_snoc _ _ _ _ hk with hk1 | ⟨hk1, rfl⟩
      · obtain ⟨c1, c2, c3, c4⟩ := i3 k f hk1
        have hp : vpnOf f.addr ≠ vpnOf ref.addr := by
          intro hp; rw [hp, a4] at c1; simp at c1
        rw [(b2 _ hp).1, (b2 _ hp).2.1]
        refine ⟨c1, c2, c3, fun hge => ?_⟩
        obtain ⟨g', g1', g2'⟩ := c4 hge
        exact ⟨g', getElem?_append_of_some _ _ _ _ g1', g2'⟩
      · rw [r1, hk1]
        refine ⟨b3, ?_, ?_, fun _ => ⟨g, getElem?_append_of_some _ _ _ _ g1, ?_⟩⟩
        · rw [b4, hvg, d2, hmod]
        · rw [b5, hvg, d2, hmod]
        · rw [b1, hvg]

/-- A filter that rejects the first `n` elements and accepts the others drops `n`. -/
theorem filter_eq_drop {α : Type} (p : α → Bool) :
    ∀ (l : List α) (n : Nat), (∀ k e, l[k]? = some e → (p e = true ↔ n ≤ k)) →
      l.filter p = l.drop n := by
  intro l
  induction l with
  | nil => intro n _; simp
  | cons a l ih =>
    intro n h
    cases n with
    | zero =>
      have ha : p a = true := (h 0 a List.getElem?_cons_zero).mpr (Nat.le_refl _)
      rw [List.filter_cons_of_pos ha, List.drop_zero,
        ih 0 (fun k e hk => ⟨fun _ => Nat.zero_le _, fun _ =>
          (h (k + 1) e (by rw [List.getElem?_cons_succ]; exact hk)).mpr (by omega)⟩),
        List.drop_zero]
    | succ n =>
      have ha : ¬ p a = true := fun hp => by
        have := (h 0 a List.getElem?_cons_zero).mp hp
        omega
      rw [List.filter_cons_of_neg ha, List.drop_succ_cons]
      apply ih n
      intro k e hk
      have := h (k + 1) e (by rw [List.getElem?_cons_succ]; exact hk)
      exact this.trans Nat.succ_le_succ_iff

/-! ## The LRU order as a list -/

theorem arrList_getElem? (a : Nat → Nat) (n i : Nat) :
    (arrList a n)[i]? = if i < n then some (a i) else none := by
  unfold arrList
  rw [List.getElem?_map]
  by_cases h : i < n
  · rw [List.getElem?_range h, if_pos h]; rfl
  · rw [List.getElem?_eq_none (by simp; omega), if_neg h]; rfl

theorem arrList_length (a : Nat → Nat) (n : Nat) : (arrList a n).length = n := by
  simp [arrList]

theorem mem_arrList (a : Nat → Nat) (n v : Nat) : v ∈ arrList a n ↔ ∃ j, j < n ∧ a j = v := by
  simp [arrList]

theorem lruFind_some (a : Nat → Nat) (v : Nat) :
    ∀ (n lo idx : Nat), lruFind a v lo n = some idx →
      lo ≤ idx ∧ idx < lo + n ∧ a idx = v ∧ ∀ j, lo ≤ j → j < idx → a j ≠ v := by
  intro n
  induction n with
  | zero => intro lo idx h; simp [lruFind] at h
  | succ n ih =>
    intro lo idx h
    rw [lruFind] at h
    by_cases hv : a lo = v
    · rw [if_pos hv] at h
      simp only [Option.some.injEq] at h
      subst h
      exact ⟨Nat.le_refl _, by omega, hv, fun j h1 h2 => by omega⟩
    · rw [if_neg hv] at h
      obtain ⟨h1, h2, h3, h4⟩ := ih _ _ h
      refine ⟨by omega, by omega, h3, fun j g1 g2 => ?_⟩
      by_cases hj : j = lo
      · rw [hj]; exact hv
      · exact h4 j (by omega) g2

theorem lruFind_none (a : Nat → Nat) (v : Nat) :
    ∀ (n lo : Nat), lruFind a v lo n = none → ∀ j, lo ≤ j → j < lo + n → a j ≠ v := by
  intro n
  induction n with
  | zero => intro lo _ j h1 h2; omega
  | succ n ih =>
    intro lo h j h1 h2
    rw [lruFind] at h
    by_cases hv : a lo = v
    · rw [if_pos hv] at h; simp at h
    · rw [if_neg hv] at h
      by_cases hj : j = lo
      · rw [hj]; exact hv
      · exact ih _ h j (by omega) (by omega)

/-- Closed form of `update_lru_order`. -/
theorem update_lru_order_apply (a : Nat → Nat) (v n i : Nat) :
    update_lru_order a v n i =
      if i = 0 then v
      else match lruFind a v 0 n with
        | some idx => if i ≤ idx then a (i - 1) else a i
        | none => if i ≤ n - 1 then a (i - 1) else a i := by
  unfold update_lru_order
  by_cases h0 : i = 0
  · subst h0
    cases lruFind a v 0 n <;> simp
  · rw [if_neg h0]
    cases lruFind a v 0 n with
    | none =>
      simp only
      rw [upd_ne _ _ h0, shiftUp_apply]
      by_cases h : i ≤ n - 1
      · rw [if_pos ⟨by omega, h⟩, if_pos h]
      · rw [if_neg (fun hh => h hh.2), if_neg h]
    | some idx =>
      simp only
      rw [upd_ne _ _ h0, shiftUp_apply]
      by_cases h : i ≤ idx
      · rw [if_pos ⟨by omega, h⟩, if_pos h]
      · rw [if_neg (fun hh => h hh.2), if_neg h]

/-- The first `n` entries split at `idx`. -/
theorem arrList_split (a : Nat → Nat) (n idx : Nat) (h : idx < n) :
    arrList a n = arrList a idx ++ a idx :: arrList (fun j => a (idx + 1 + j)) (n - idx - 1) := by
  apply List.ext_getElem?
  intro i
  rw [arrList_getElem?]
  by_cases h1 : i < idx
  · rw [List.getElem?_append_left (by rw [arrList_length]; exact h1), arrList_getElem?,
      if_pos h1, if_pos (by omega)]
  · rw [List.getElem?_append_right (by rw [arrList_length]; omega), arrList_length]
    by_cases h2 : i = idx
    · subst h2
      rw [Nat.sub_self, if_pos h, List.getElem?_cons_zero]
    · obtain ⟨k, hk⟩ : ∃ k, i - idx = k + 1 := ⟨i - idx - 1, by omega⟩
      rw [hk, List.getElem?_cons_succ, arrList_getElem?]
      by_cases h3 : i < n
      · rw [if_pos h3, if_pos (by omega)]
        congr 2
        omega
      · rw [if_neg h3, if_neg (by omega)]

/-- `update_lru_order(id, n)` on the first `n` entries: `id` is moved to the front, or put in
front with the last entry dropped when it does not occur. -/
theorem arrList_update_lru_order (a : Nat → Nat) (v n : Nat) :
    arrList (update_lru_order a v n) n = (touch (arrList a n) v).take n := by
  apply List.ext_getElem?
  intro i
  rw [arrList_getElem?, update_lru_order_apply]
  unfold touch
  cases hfind : lruFind a v 0 n with
  | none =>
    have hno := lruFind_none a v n 0 hfind
    have hnm : v ∉ arrList a n := by
      rw [mem_arrList]
      rintro ⟨j, hj, hjv⟩
      exact hno j (Nat.zero_le _) (by omega) hjv
    rw [List.erase_of_not_mem hnm, List.getElem?_take]
    by_cases hi : i < n
    · rw [if_pos hi, if_pos hi]
      by_cases h0 : i = 0
      · subst h0; simp
      · obtain ⟨k, rfl⟩ : ∃ k, i = k + 1 := ⟨i - 1, by omega⟩
        rw [if_neg h0, List.getElem?_cons_succ, arrList_getElem?, if_pos (by omega)]
        simp only
        rw [if_pos (by omega)]
        rfl
    · rw [if_neg hi, if_neg hi]
  | some idx =>
    obtain ⟨-, h2, h3, h4⟩ := lruFind_some a v n 0 idx hfind
    have hidx : idx < n := by omega
    have hnm : v ∉ arrList a idx := by
      rw [mem_arrList]
      rintro ⟨j, hj, hjv⟩
      exact h4 j (Nat.zero_le _) hj hjv
    rw [arrList_split a n idx hidx, List.erase_append_right _ hnm, h3, List.erase_cons_head,
      List.take_of_length_le (by
        simp only [List.length_cons, List.length_append, arrList_length]
        omega)]
    by_cases h0 : i = 0
    · subst h0
      rw [if_pos (by omega)]
      simp
    · obtain ⟨k, rfl⟩ : ∃ k, i = k + 1 := ⟨i - 1, by omega⟩
      rw [if_neg h0, List.getElem?_cons_succ]
      simp only
      by_cases hk : k < idx
      · rw [List.getElem?_append_left (by rw [arrList_length]; exact hk), arrList_getElem?,
          if_pos hk, if_pos (by omega), if_pos (by omega)]
        rfl
      · rw [List.getElem?_append_right (by rw [arrList_length]; omega), arrList_length,
          arrList_getElem?]
        by_cases hi : k + 1 < n
        · rw [if_pos hi, if_neg (show ¬ k + 1 ≤ idx by omega),
            if_pos (show k - idx < n - idx - 1 by omega)]
          congr 2
          omega
        · rw [if_neg hi, if_neg (show ¬ k - idx < n - idx - 1 by omega)]

/-- Truncation commutes with move-to-front. -/
theorem take_touch_take (v : Nat) :
    ∀ (Y : List Nat) (n : Nat), (touch (Y.take n) v).take n = (touch Y v).take n := by
  have key : ∀ (Y : List Nat) (k : Nat),
      ((Y.take (k + 1)).erase v).take k = (Y.erase v).take k := by
    intro Y
    induction Y with
    | nil => intro k; simp
    | cons y Y ih =>
      intro k
      rw [List.take_succ_cons]
      by_cases hy : y = v
      · subst hy
        rw [List.erase_cons_head, List.erase_cons_head, List.take_take, Nat.min_self]
      · rw [List.erase_cons_tail (by simpa using hy), List.erase_cons_tail (by simpa using hy)]
        cases k with
        | zero => simp
        | succ k => rw [List.take_succ_cons, List.take_succ_cons, ih k]
  intro Y n
  cases n with
  | zero => simp
  | succ k =>
    unfold touch
    rw [List.take_succ_cons, List.take_succ_cons, key Y k]

/-! ## Recency -/

theorem recency_snoc (l : List Nat) (p : Nat) : recency (l ++ [p]) = touch (recency l) p := by
  simp [recency, List.foldl_append]

theorem lastUse_snoc (l : List Nat) (p q : Nat) :
    lastUse (l ++ [p]) q = if p = q then l.length + 1 else lastUse l q := by
  simp [lastUse, lastUseRev]

theorem lastUseRev_le (q : Nat) : ∀ (l : List Nat), lastUseRev l q ≤ l.length := by
  intro l
  induction l with
  | nil => simp [lastUseRev]
  | cons a l ih =>
    rw [lastUseRev]
    split
    · simp
    · simp only [List.length_cons]; omega

theorem lastUse_le (l : List Nat) (q : Nat) : lastUse l q ≤ l.length := by
  unfold lastUse
  have := lastUseRev_le q l.reverse
  simpa using this

theorem lastUseRev_pos (q : Nat) : ∀ (l : List Nat), 0 < lastUseRev l q ↔ q ∈ l := by
  intro l
  induction l with
  | nil => simp [lastUseRev]
  | cons a l ih =>
    rw [lastUseRev]
    by_cases h : a = q
    · simp [h]
    · rw [if_neg h, ih]
      simp [Ne.symm h]

theorem lastUse_pos (l : List Nat) (q : Nat) : 0 < lastUse l q ↔ q ∈ l := by
  unfold lastUse
  rw [lastUseRev_pos]
  simp

/-- The recency list of a sequence has the pages of the sequence, each once, in the order of
their most recent reference. -/
theorem recency_spec (l : List Nat) :
    (∀ q, q ∈ recency l ↔ q ∈ l) ∧ (recency l).Nodup ∧
    (recency l).Pairwise (fun a b => lastUse l b < lastUse l a) := by
  induction l using List.reverseRecOn with
  | nil => simp [recency]
  | append_singleton l p ih =>
    obtain ⟨i1, i2, i3⟩ := ih
    rw [recency_snoc]
    unfold touch
    refine ⟨?_, ?_, ?_⟩
    · intro q
      by_cases hq : q = p
      · simp [hq]
      · rw [List.mem_cons, List.mem_erase_of_ne hq, i1, List.mem_append, List.mem_singleton]
        constructor
        · rintro (h | h)
          · exact Or.inr h
          · exact Or.inl h
        · rintro (h | h)
          · exact Or.inr h
          · exact Or.inl h
    · rw [List.nodup_cons]
      exact ⟨i2.not_mem_erase, i2.erase p⟩
    · rw [List.pairwise_cons]
      constructor
      · intro q hq
        have hne : q ≠ p := fun h => i2.not_mem_erase (h ▸ hq)
        rw [lastUse_snoc, lastUse_snoc, if_neg (Ne.symm hne), if_pos rfl]
        have := lastUse_le l q
        omega
      · have hsub := List.Pairwise.sublist (List.erase_sublist p (recency l)) i3
        have hne : ∀ q ∈ (recency l).erase p, q ≠ p := fun q hq h => i2.not_mem_erase (h ▸ hq)
        refine List.Pairwise.imp_of_mem ?_ hsub
        intro a b ha hb hab
        rw [lastUse_snoc, lastUse_snoc, if_neg (Ne.symm (hne a ha)),
          if_neg (Ne.symm (hne b hb))]
        exact hab

theorem recency_length_snoc (l : List Nat) (p : Nat) :
    (recency l).length ≤ (recency (l ++ [p])).length ∧
    (p ∉ l → (recency (l ++ [p])).length = (recency l).length + 1) := by
  rw [recency_snoc]
  unfold touch
  rw [List.length_cons, List.length_erase]
  have hm := (recency_spec l).1 p
  by_cases hp : p ∈ recency l
  · rw [if_pos hp]
    have : 0 < (recency l).length := List.length_pos_of_mem hp
    exact ⟨by omega, fun hn => absurd (hm.mp hp) hn⟩
  · rw [if_neg hp]
    exact ⟨by omega, fun _ => rfl⟩

/-- Started from a list padded with zeros, move-to-front gives the recency list followed by
zeros. -/
theorem foldl_touch_pad (pages : List Nat) :
    ∀ (L : List Nat) (k : Nat), ∃ k1,
      List.foldl touch (L ++ List.replicate k 0) pages
        = List.foldl touch L pages ++ List.replicate k1 0 := by
  induction pages with
  | nil => intro L k; exact ⟨k, rfl⟩
  | cons p pages ih =>
    intro L k
    rw [List.foldl_cons, List.foldl_cons]
    have : ∃ k2, touch (L ++ List.replicate k 0) p = touch L p ++ List.replicate k2 0 := by
      unfold touch
      by_cases hp : p ∈ L
      · exact ⟨k, by rw [List.erase_append_left _ hp]; rfl⟩
      · rw [List.erase_append_right _ hp, List.erase_of_not_mem hp]
        by_cases h0 : p = 0
        · subst h0
          cases k with
          | zero => exact ⟨0, by simp⟩
          | succ k =>
            refine ⟨k, ?_⟩
            rw [List.replicate_succ, List.erase_cons_head]
            rfl
        · refine ⟨k, ?_⟩
          rw [List.erase_of_not_mem (by
            intro hm
            exact h0 (List.eq_of_mem_replicate hm))]
          rfl
    obtain ⟨k2, hk2⟩ := this
    rw [hk2]
    exact ih _ k2

theorem padded_take (n : Nat) (pages : List Nat) (h : n ≤ (recency pages).length) :
    (List.foldl touch (List.replicate n 0) pages).take n = (recency pages).take n := by
  obtain ⟨k1, hk⟩ := foldl_touch_pad pages [] n
  rw [List.nil_append] at hk
  rw [hk]
  exact List.take_append_of_le_length h

/-! ## LRU -/

/-- The LRU order: `update_lru_order` is called by a hit, by a fault served from a free frame
and by an LRU replacement; under LRU the victim is the last tracked entry. -/
theorem translateRef_lru (c : Config) (e : Bool) (tbl : Nat → PTE) (m : Mem) (idx : Nat)
    (ref : Ref) (tbl1 : Nat → PTE) (m1 : Mem) (rec : Record)
    (h : translateRef c e tbl m idx ref = some (tbl1, m1, rec)) :
    ((rec.replaced = false ∨ c.algo = Algo.LRU) →
      m1.lru_order = update_lru_order m.lru_order idx c.fcount) ∧
    (rec.replaced = true → c.algo = Algo.LRU →
      rec.victim = some (m.lru_order (c.fcount - 1))) := by
  obtain ⟨o, ho, hs, -, -, -, -, -, -, -, r3, r4⟩ := translateRef_some _ _ _ _ _ _ _ _ _ h
  obtain ⟨-, -, s3, -, -⟩ := storeByte_spec _ _ _ _ _ _ hs
  have e1 : m1.lru_order = o.mem.lru_order := by rw [s3]
  rw [r3, r4, e1]
  rcases lookup_cases _ _ _ _ _ _ ho with ⟨hv, rfl⟩ | ⟨hv, hlt, rfl⟩ | ⟨hv, hge, hr⟩
  · exact ⟨fun _ => rfl, fun hx => by simp [pageHit] at hx⟩
  · exact ⟨fun _ => rfl, fun hx => by simp [loadFree] at hx⟩
  · obtain ⟨-, q2, -⟩ := replacePage_spec _ _ _ _ _ _ hr
    refine ⟨fun hA => ?_, fun _ hA => ?_⟩
    · rcases hA with hA | hA
      · rw [q2] at hA; simp at hA
      · unfold replacePage at hr
        simp only [hA, Option.some.injEq] at hr
        rw [← hr]
    · unfold replacePage at hr
      simp only [hA, Option.some.injEq] at hr
      rw [← hr]

theorem logPages_snoc (h : List Record) (rec : Record) :
    logPages (h ++ [rec]) = logPages h ++ [vpnOf rec.addr] := by
  simp [logPages]

theorem LruInv_init (c : Config) (swap0 : Nat → Nat) : LruInv c [] (init c swap0) := by
  refine ⟨CountInv_init c swap0, ?_, ?_, ?_⟩
  · apply List.ext_getElem?
    intro i
    rw [arrList_getElem?, List.getElem?_take]
    by_cases hi : i < c.fcount
    · rw [if_pos hi, if_pos hi]
      simp [logPages, init, hi]
    · rw [if_neg hi, if_neg hi]
  · intro p
    simp [init, init_pt, logPages]
  · simp [faultsOf]

theorem LruInv_age (c : Config) (h : List Record) (s : State) (i : Nat)
    (hi : LruInv c h s) : LruInv c h (age c i s) := by
  obtain ⟨i1, i2, i3, i4⟩ := hi
  have hm : (age c i s).lru_order = s.lru_order := congrArg Mem.lru_order (age_toMem c i s)
  refine ⟨CountInv_age c h s i i1, by rw [hm]; exact i2, ?_, i4⟩
  intro p
  rw [(age_pt c i s p).2.2.1]
  exact i3 p

theorem LruInv_step (c : Config) (h : List Record) (s : State) (ref : Ref) (s1 : State)
    (rec : Record) (hl : c.level = 1) (hA : c.algo = Algo.LRU)
    (hf : c.fcount ≤ 8192) (hw : WF c s) (hi : LruInv c h s)
    (hh : handle c s ref = some (s1, rec)) : LruInv c (h ++ [rec]) s1 := by
  obtain ⟨i1, i2, i3, i4⟩ := hi
  have hc := CountInv_step c h s ref s1 rec i1 hh
  refine ⟨hc, ?_⟩
  rcases handle_cases _ _ _ _ _ hh with ⟨-, tbl, m, ht, rfl⟩ | ⟨h2, -⟩
  swap
  · omega
  obtain ⟨-, -, -, r1, -, -, -, -, -, -, -⟩ := translateRef_some _ _ _ _ _ _ _ _ _ ht
  obtain ⟨e1, e2⟩ := translateRef_entry _ _ _ _ _ _ _ _ _ hf hw.2.2.2.1 ht
  obtain ⟨q1, -⟩ := translateRef_lru _ _ _ _ _ _ _ _ _ ht
  have hv : ∀ p, (tbl p).v = true ↔ (p = vpnOf ref.addr ∨ (s.pt p).v = true) := by
    intro p
    by_cases hrep : rec.replaced = true
    · rcases e2 hrep with ⟨x1, -⟩ | ⟨v, -, b2, b3, -, -⟩
      · simp at x1
      · by_cases hp : p = vpnOf ref.addr
        · subst hp; simp [b3]
        · rw [(b2 p hp).1]; simp [hp]
    · have hrep0 : rec.replaced = false := by simpa using hrep
      obtain ⟨b1, b2, -, -⟩ := e1 hrep0
      by_cases hp : p = vpnOf ref.addr
      · subst hp; simp [b2]
      · rw [b1 p hp]; simp [hp]
  rw [logPages_snoc, r1]
  refine ⟨?_, ?_, ?_⟩
  · show arrList m.lru_order c.fcount = _
    rw [q1 (Or.inr hA), arrList_update_lru_order, i2, take_touch_take, List.foldl_append]
    rfl
  · intro p
    show (tbl p).v = true ↔ _
    rw [hv p, i3 p, List.mem_append, List.mem_singleton]
    constructor
    · rintro (h | h)
      · exact Or.inr h
      · exact Or.inl h
    · rintro (h | h)
      · exact Or.inr h
      · exact Or.inl h
  · obtain ⟨g1, g2⟩ := recency_length_snoc (logPages h) (vpnOf ref.addr)
    rw [faultsOf_snoc]
    rcases translateRef_counts _ _ _ _ _ _ _ _ _ ht with
      ⟨a1, -⟩ | ⟨a1, -, -, a4, -⟩ | ⟨a1, -, a4, -⟩
    · simp only [a1, Bool.false_eq_true, if_false, List.append_nil]
      omega
    · simp only [a1, if_true, List.length_append, List.length_singleton]
      have hnot : vpnOf ref.addr ∉ logPages h := by
        intro hm
        rw [← i3, a4] at hm
        simp at hm
      rw [g2 hnot]
      omega
    · simp only [a1, if_true, List.length_append, List.length_singleton]
      have hnot : vpnOf ref.addr ∉ logPages h := by
        intro hm
        rw [← i3, a4] at hm
        simp at hm
      rw [g2 hnot]
      omega

/-- The victim of an LRU replacement: it is the last tracked entry, it has been referenced,
every other tracked entry was referenced after it, and a valid page other than the victim is
tracked exactly when it was referenced after the victim. -/
theorem lru_victim_facts (c : Config) (h : List Record) (s : State) (ref : Ref) (s1 : State)
    (rec : Record) (hl : c.level = 1) (hA : c.algo = Algo.LRU) (hf0 : 0 < c.fcount)
    (hi : LruInv c h s) (hh : handle c s ref = some (s1, rec)) (hrep : rec.replaced = true) :
    rec.victim = some (s.lru_order (c.fcount - 1)) ∧
    0 < lastUse (logPages h) (s.lru_order (c.fcount - 1)) ∧
    (∀ i, i < c.fcount - 1 →
      lastUse (logPages h) (s.lru_order (c.fcount - 1)) < lastUse (logPages h) (s.lru_order i)) ∧
    (∀ q, (s.pt q).v = true → q ≠ s.lru_order (c.fcount - 1) →
      ((∃ i, i < c.fcount ∧ s.lru_order i = q) ↔
        lastUse (logPages h) (s.lru_order (c.fcount - 1)) < lastUse (logPages h) q)) := by
  obtain ⟨⟨n1, n2, -⟩, i2, i3, i4⟩ := hi
  have hvict : rec.victim = some (s.lru_order (c.fcount - 1)) := by
    rcases handle_cases _ _ _ _ _ hh with ⟨-, tbl, m, ht, -⟩ | ⟨h2, -⟩
    · exact (translateRef_lru _ _ _ _ _ _ _ _ _ ht).2 hrep hA
    · omega
  have hfull : c.fcount ≤ (recency (logPages h)).length := by
    rcases handle_counts _ _ _ _ _ hh with ⟨-, a2, -⟩ | ⟨-, a2, -⟩ | ⟨-, -, a3, -⟩
    · rw [a2] at hrep; simp at hrep
    · rw [a2] at hrep; simp at hrep
    · rw [n2, n1] at a3
      omega
  rw [padded_take _ _ hfull] at i2
  obtain ⟨m1, m2, m3⟩ := recency_spec (logPages h)
  rw [List.pairwise_iff_getElem] at m3
  have hget : ∀ i, i < c.fcount →
      ∃ hlt : i < (recency (logPages h)).length,
        s.lru_order i = (recency (logPages h))[i] := by
    intro i hi
    have := congrArg (fun l => l[i]?) i2
    simp only [arrList_getElem?, if_pos hi, List.getElem?_take, if_pos hi] at this
    rw [List.getElem?_eq_getElem (by omega)] at this
    exact ⟨by omega, Option.some.inj this⟩
  obtain ⟨hll, hlast⟩ := hget (c.fcount - 1) (by omega)
  refine ⟨hvict, ?_, ?_, ?_⟩
  · rw [lastUse_pos, ← m1, hlast]
    exact List.getElem_mem _
  · intro i hi
    obtain ⟨hli, hgi⟩ := hget i (by omega)
    rw [hlast, hgi]
    exact m3 i (c.fcount - 1) hli hll hi
  · intro q hq hne
    have hqm : q ∈ recency (logPages h) := (m1 q).mpr ((i3 q).mp hq)
    obtain ⟨j, hj, hjq⟩ := List.getElem_of_mem hqm
    constructor
    · rintro ⟨i, hi, hiq⟩
      obtain ⟨hli, hgi⟩ := hget i hi
      rw [hgi] at hiq
      have hi1 : i ≠ c.fcount - 1 := by
        intro hx
        subst hx
        exact hne (by rw [hlast, hiq])
      rw [hlast, ← hiq]
      exact m3 i (c.fcount - 1) hli hll (by omega)
    · intro hlt
      rw [hlast, ← hjq] at hlt
      have hj1 : j < c.fcount - 1 := by
        by_contra hge
        have hj2 : j ≠ c.fcount - 1 := by
          intro hx
          subst hx
          exact Nat.lt_irrefl _ hlt
        have := m3 (c.fcount - 1) j hll hj (by omega)
        omega
      obtain ⟨hlj, hgj⟩ := hget j (by omega)
      exact ⟨j, by omega, by rw [hgj, hjq]⟩

theorem handle_addr (c : Config) (s s1 : State) (ref : Ref) (rec : Record)
    (h : handle c s ref = some (s1, rec)) : rec.addr = ref.addr := by
  rcases handle_cases _ _ _ _ _ h with ⟨-, tbl, m, ht, -⟩ | ⟨-, tbl, m, ht, -⟩
  · obtain ⟨o, -, -, r1, -⟩ := translateRef_some _ _ _ _ _ _ _ _ _ ht
    exact r1
  · obtain ⟨o, -, -, r1, -⟩ := translateRef_some _ _ _ _ _ _ _ _ _ ht
    exact r1

/-- The records of a run carry the addresses of the trace. -/
theorem run_logPages (c : Config) :
    ∀ (refs : List Ref) (i : Nat) (s s1 : State) (log : List Record),
      run c i s refs = some (s1, log) → logPages log = pagesOf refs := by
  intro refs
  induction refs with
  | nil =>
    intro i s s1 log hr
    simp only [run, Option.some.injEq, Prod.mk.injEq] at hr
    rw [← hr.2]
    rfl
  | cons ref rest ih =>
    intro i s s2 log hr
    obtain ⟨s1, rec, recs, h1, h2, rfl⟩ := run_cons c i s ref rest s2 log hr
    have := ih _ _ _ _ h2
    simp only [logPages, pagesOf, List.map_cons] at this ⊢
    rw [this, handle_addr c _ _ _ _ h1]

/-- The LRU invariant holds before every step of an LRU run from the initial state, for the
pages referenced before that step. -/
theorem stepAt_LruInv (c : Config) (swap0 : Nat → Nat) (refs : List Ref) (t : Nat)
    (hl : c.level = 1) (hA : c.algo = Algo.LRU) (hf0 : 0 < c.fcount) (hf : c.fcount ≤ 8192)
    (s : State) (e : Record) (s1 : State) (h : stepAt c swap0 refs t = some (s, e, s1)) :
    ∃ l0, LruInv c l0 s ∧ logPages l0 = (pagesOf refs).take t := by
  obtain ⟨s0, l0, ref, h1, -, rfl, -⟩ := stepAt_some c swap0 refs t s e s1 h
  have hi := run_induct c (fun h s => WF c s ∧ LruInv c h s) (fun _ => True)
    (fun h s i hi => ⟨age_WF c i s hi.1, LruInv_age c h s i hi.2⟩)
    (fun h s ref s1 rec _ hi hh =>
      ⟨(handle_WF c s s1 ref rec hf0 hf hi.1 hh).1,
        LruInv_step c h s ref s1 rec hl hA hf hi.1 hi.2 hh⟩)
    (refs.take t) [] 0 _ s0 l0 (fun _ _ => trivial)
    ⟨init_WF c swap0 hf0, LruInv_init c swap0⟩ h1
  rw [List.nil_append] at hi
  refine ⟨l0, LruInv_age c l0 s0 t hi.2, ?_⟩
  rw [run_logPages c _ _ _ _ _ h1]
  simp [pagesOf, List.map_take]

/-! ## Physical memory and swap file -/

theorem swapIn_swap (tbl : Nat → PTE) (m : Mem) (idx v : Nat) :
    (swapIn tbl m idx v).2.2.1
      = if (tbl v).m = true then writePage m.swap v (m.pm (tbl v).frame) else m.swap := rfl

theorem swapIn_pm (tbl : Nat → PTE) (m : Mem) (idx v : Nat) :
    (swapIn tbl m idx v).2.1
      = upd m.pm (tbl v).frame
          (copyFrom 1 (readPage (swapIn tbl m idx v).2.2.1 v) (m.pm (tbl v).frame)) := rfl

/-- Effect of a read reference on physical memory and swap file: nothing on a hit; a fault
served from a free frame fills the frame under the cursor with the page; a replacement
writes the frame of a modified victim to the victim's place in the swap file, then copies
bytes 1 to 63 of the victim's place in the swap file into that frame. -/
theorem translateRef_read_mem (c : Config) (e : Bool) (tbl : Nat → PTE) (m : Mem) (idx : Nat)
    (ref : Ref) (tbl1 : Nat → PTE) (m1 : Mem) (rec : Record) (hw : ref.type ≠ 'w')
    (h : translateRef c e tbl m idx ref = some (tbl1, m1, rec)) :
    (rec.pageFault = false → m1.pm = m.pm ∧ m1.swap = m.swap) ∧
    (rec.pageFault = true → rec.replaced = false →
      m1.pm = upd m.pm m.next_empty_frame (copyFrom 0 (readPage m.swap idx) (fun _ => 0)) ∧
      m1.swap = m.swap) ∧
    (rec.replaced = true →
      (rec.victim = none ∧ m1.pm = m.pm ∧ m1.swap = m.swap) ∨
      (∃ v, rec.victim = some v ∧
        m1.swap = (if (tbl v).m = true then writePage m.swap v (m.pm (tbl v).frame)
          else m.swap) ∧
        m1.pm = upd m.pm (tbl v).frame
          (copyFrom 1 (readPage m1.swap v) (m.pm (tbl v).frame)))) := by
  obtain ⟨o, ho, hs, -, -, -, -, -, -, r2, r3, r4⟩ := translateRef_some _ _ _ _ _ _ _ _ _ h
  obtain ⟨-, -, -, s4, -⟩ := storeByte_spec _ _ _ _ _ _ hs
  obtain ⟨-, rfl⟩ := s4 hw
  rw [r2, r3, r4]
  rcases lookup_cases _ _ _ _ _ _ ho with ⟨hv, rfl⟩ | ⟨hv, hlt, rfl⟩ | ⟨hv, hge, hr⟩
  · exact ⟨fun _ => ⟨rfl, rfl⟩, fun hx => by simp [pageHit] at hx,
      fun hx => by simp [pageHit] at hx⟩
  · exact ⟨fun hx => by simp [loadFree] at hx, fun _ _ => ⟨rfl, rfl⟩,
      fun hx => by simp [loadFree] at hx⟩
  · obtain ⟨q1, q2, -, -, -, -, q7⟩ := replacePage_spec _ _ _ _ _ _ hr
    refine ⟨fun hx => by rw [q1] at hx; simp at hx, fun _ hx => by rw [q2] at hx; simp at hx,
      fun _ => ?_⟩
    rcases q7 with ⟨-, -, a3, -, a5, -⟩ | ⟨tbl0, v, sb, -, a3, -, a5, a6, -⟩
    · left
      rw [a5]
      exact ⟨a3, rfl, rfl⟩
    · right
      refine ⟨v, a3, ?_, ?_⟩
      · rw [a6, swapIn_swap, (sb v).2.1, (sb v).1]
      · rw [a5, swapIn_pm, ← a6, (sb v).1]

theorem writePage_read (swap : Nat → Nat) (p : Nat) (frame : Nat → Nat) (i : Nat)
    (hi : i < 64) : readPage (writePage swap p frame) p i = frame i := by
  unfold readPage writePage PAGE_SIZE
  rw [if_pos (by omega)]
  congr 1
  omega

theorem writePage_other (swap : Nat → Nat) (p q : Nat) (frame : Nat → Nat) (i : Nat)
    (hi : i < 64) (hpq : p ≠ q) : writePage swap p frame (q * 64 + i) = swap (q * 64 + i) := by
  unfold writePage PAGE_SIZE
  rw [if_neg]
  intro h
  apply hpq
  omega

/-- A read reference keeps `Holds P f k b` when every replacement that reuses frame `f` has
`P` as its victim; a read of `P` is then a hit on frame `f`; and once `P` has been a victim,
byte `k` of its place in the swap file is `b`. -/
theorem handle_read_Holds (c : Config) (s s1 : State) (ref : Ref) (rec : Record)
    (P f k b : Nat) (hl : c.level = 1) (hf : c.fcount ≤ 8192) (hk : k < 64)
    (hw : WF c s) (hJ : Holds P f k b s) (hr : ref.type ≠ 'w')
    (h : handle c s ref = some (s1, rec))
    (hcond : rec.replaced = true → rec.pfn = (f : Int) → rec.victim = some P) :
    Holds P f k b s1 ∧
    (vpnOf ref.addr = P → rec.pageFault = false ∧ rec.pfn = (f : Int)) ∧
    (rec.victim = some P → s1.swap (P * 64 + k) = b) ∧
    (s.swap (P * 64 + k) = b → s1.swap (P * 64 + k) = b) := by
  obtain ⟨j1, j2, j3, j4⟩ := hJ
  rcases handle_cases _ _ _ _ _ h with ⟨-, tbl, m, ht, rfl⟩ | ⟨h2, -⟩
  swap
  · omega
  obtain ⟨e1, e2⟩ := translateRef_entry _ _ _ _ _ _ _ _ _ hf hw.2.2.2.1 ht
  obtain ⟨m1, m2, m3⟩ := translateRef_read_mem _ _ _ _ _ _ _ _ _ hr ht
  obtain ⟨o, ho, hs, -⟩ := translateRef_some _ _ _ _ _ _ _ _ _ ht
  obtain ⟨s1', -, -, s4, -⟩ := storeByte_spec _ _ _ _ _ _ hs
  obtain ⟨hto, -⟩ := s4 hr
  have hflt : f < s.next_empty_frame := by rw [← j3]; exact hw.2.2.2.1.2 P j1
  rcases translateRef_counts _ _ _ _ _ _ _ _ _ ht with
    ⟨a1, a2, a3, a4, -⟩ | ⟨a1, a2, a3, a4, a5, -⟩ | ⟨a1, a2, a4, -⟩
  · -- hit
    obtain ⟨b1, b2, b3, b4⟩ := e1 a2
    obtain ⟨p1, p2⟩ := m1 a1
    have hm : (tbl P).m = true := by
      rw [hto]
      rcases lookup_cases _ _ _ _ _ _ ho with ⟨-, rfl⟩ | ⟨hv, -⟩ | ⟨hv, -⟩
      · by_cases hp : P = vpnOf ref.addr
        · subst hp; simpa [pageHit] using j2
        · simpa [pageHit, hp] using j2
      · rw [hv] at a4; simp at a4
      · rw [hv] at a4; simp at a4
    have hvf : (tbl P).v = true ∧ (tbl P).frame = f := by
      by_cases hp : P = vpnOf ref.addr
      · subst hp
        rcases b4 with b4 | b4
        · exact ⟨b2, by rw [b4.2, j3]⟩
        · rw [b4.1] at a4; simp at a4
      · rw [b1 P hp]; exact ⟨j1, j3⟩
    refine ⟨⟨hvf.1, hm, hvf.2, ?_⟩, ?_, ?_, ?_⟩
    · show m.pm f k = b
      rw [p1]; exact j4
    · intro hp
      subst hp
      exact ⟨a1, by rw [b3, hvf.2]⟩
    · intro hv; rw [a3] at hv; simp at hv
    · intro hs0
      show m.swap _ = b
      rw [p2]; exact hs0
  · -- fault served from a free frame
    obtain ⟨b1, b2, b3, b4⟩ := e1 a2
    obtain ⟨p1, p2⟩ := m2 a1 a2
    have hp : P ≠ vpnOf ref.addr := by
      intro hp; subst hp; rw [a4] at j1; simp at j1
    refine ⟨⟨(by rw [b1 P hp]; exact j1 : (tbl P).v = true),
      (by rw [b1 P hp]; exact j2 : (tbl P).m = true),
      (by rw [b1 P hp]; exact j3 : (tbl P).frame = f), ?_⟩,
      fun hx => absurd hx.symm hp, ?_, ?_⟩
    · show m.pm f k = b
      rw [p1, upd_ne _ _ (by omega)]; exact j4
    · intro hv; rw [a3] at hv; simp at hv
    · intro hs0
      show m.swap _ = b
      rw [p2]; exact hs0
  · -- fault served by replacement
    have hp : P ≠ vpnOf ref.addr := by
      intro hp; subst hp; rw [a4] at j1; simp at j1
    rcases e2 a2 with ⟨x1, -⟩ | ⟨v, b1, b2, b3, b4, b5⟩
    · simp at x1
    rcases m3 a2 with ⟨x1, -⟩ | ⟨v', c1, c2, c3⟩
    · rw [b1] at x1; simp at x1
    rw [b1] at c1
    simp only [Option.some.injEq] at c1
    subst c1
    have hsw : ∀ i, i < 64 → (s.pt v).m = true →
        readPage m.swap v i = s.pm (s.pt v).frame i := by
      intro i hi hm
      rw [c2, if_pos hm]
      exact writePage_read _ _ _ _ hi
    refine ⟨⟨(by rw [(b2 P hp).1]; exact j1 : (tbl P).v = true),
      (by rw [(b2 P hp).2.2]; exact j2 : (tbl P).m = true),
      (by rw [(b2 P hp).2.1]; exact j3 : (tbl P).frame = f), ?_⟩,
      fun hx => absurd hx.symm hp, ?_, ?_⟩
    · show m.pm f k = b
      rw [c3]
      by_cases hfr : f = (s.pt v).frame
      · have hvP : v = P := by
          have := hcond a2 (by rw [b5, hfr])
          rw [b1] at this
          exact Option.some.inj this
        subst hvP
        rw [← hfr, upd_same, copyFrom_apply]
        split
        · rw [← j4, ← j3]
          exact hsw k hk j2
        · exact j4
      · rw [upd_ne _ _ hfr]; exact j4
    · intro hv
      rw [b1] at hv
      have hvP : v = P := Option.some.inj hv
      subst hvP
      show m.swap _ = b
      have := hsw k hk j2
      unfold readPage PAGE_SIZE at this
      rw [this, j3]; exact j4
    · intro hs0
      show m.swap _ = b
      by_cases hvP : v = P
      · subst hvP
        have := hsw k hk j2
        unfold readPage PAGE_SIZE at this
        rw [this, j3]; exact j4
      · rw [c2]
        split
        · rw [writePage_other _ _ _ _ _ hk hvP]; exact hs0
        · exact hs0

/-- After a write of `x` to address `a`, the page of `a` holds the reported frame, is valid
and modified, and the byte at the offset of `a` in that frame is `x mod 256`. -/
theorem handle_write_Holds (c : Config) (s s1 : State) (a x : Nat) (rec : Record)
    (hl : c.level = 1) (hf0 : 0 < c.fcount) (hf : c.fcount ≤ 8192) (hw : WF c s)
    (h : handle c s (wr a x) = some (s1, rec)) :
    0 ≤ rec.pfn ∧ Holds (vpnOf a) rec.pfn.toNat (offsetOf a) (x % 256) s1 := by
  obtain ⟨-, -, a3, a4, a5, -⟩ := handle_reported c s s1 (wr a x) rec hl hf0 hf hw h
  rcases handle_cases _ _ _ _ _ h with ⟨-, tbl, m, ht, rfl⟩ | ⟨h2, -⟩
  swap
  · omega
  obtain ⟨o, -, hs, -, -, -, -, r5, -⟩ := translateRef_some _ _ _ _ _ _ _ _ _ ht
  obtain ⟨-, -, -, -, s5⟩ := storeByte_spec _ _ _ _ _ _ hs
  obtain ⟨-, t2, t3⟩ := s5 rfl
  refine ⟨a5, a4, t2, ?_, ?_⟩
  · show (tbl (vpnOf a)).frame = _
    have : (rec.pfn).toNat = (tbl (vpnOf a)).frame := by
      rw [a3]; rfl
    rw [this]
  · show m.pm _ _ = _
    rw [t3, r5]
    simp [wr]

/-- A write reference does what the read of the same address does, then sets the `m` bit of
the page and stores the byte. -/
theorem handle_write_split (c : Config) (s s1 : State) (ref : Ref) (rec : Record)
    (hl : c.level = 1) (hw : ref.type = 'w') (h : handle c s ref = some (s1, rec)) :
    ∃ s0, handle c s { ref with type := 'r' } = some (s0, rec) ∧ 0 ≤ rec.pfn ∧
      s1.swap = s0.swap ∧
      (∀ p, (s1.pt p).v = (s0.pt p).v ∧ (s1.pt p).frame = (s0.pt p).frame ∧
        ((s0.pt p).m = true → (s1.pt p).m = true)) ∧
      s1.pm = upd s0.pm rec.pfn.toNat
        (upd (s0.pm rec.pfn.toNat) (offsetOf ref.addr) (ref.value % 256)) := by
  rcases handle_cases _ _ _ _ _ h with ⟨-, tbl, m, ht, rfl⟩ | ⟨h2, -⟩
  swap
  · omega
  obtain ⟨o, ho, hs, r1, r2, r3, r4, r5, r6, r7, r8, r9⟩ :=
    translateRef_some _ _ _ _ _ _ _ _ _ ht
  obtain ⟨t1, t2, t3, -, t5⟩ := storeByte_spec _ _ _ _ _ _ hs
  obtain ⟨u1, u2, u3⟩ := t5 hw
  have hrd : translateRef c true s.pt s.toMem (vpnOf ref.addr) { ref with type := 'r' }
      = some (o.tbl, o.mem, rec) := by
    have ht1 := ht
    unfold translateRef at ht1 ⊢
    rw [ho] at ht1 ⊢
    simp only at ht1 ⊢
    rw [hs] at ht1
    simp only [Option.some.injEq, Prod.mk.injEq] at ht1
    rw [← ht1.2.2]
    simp [storeByte]
  refine ⟨{ s with toMem := o.mem, pt := o.tbl }, ?_, by rw [r5]; exact u1, ?_, ?_, ?_⟩
  · unfold handle
    rw [if_pos hl]
    show (match translateRef c true s.pt s.toMem (vpnOf ref.addr) { ref with type := 'r' } with
      | none => none
      | some (tbl, m, rec) => some ({ s with toMem := m, pt := tbl }, rec)) = _
    rw [hrd]
  · show m.swap = o.mem.swap
    rw [t3]
  · intro p
    refine ⟨(t1 p).2.1, (t1 p).1, fun hm => ?_⟩
    show (tbl p).m = true
    by_cases hp : p = vpnOf ref.addr
    · rw [hp]; exact u2
    · rw [t2 p hp]; exact hm
  · show m.pm = _
    rw [u3, r5]

/-- A reference keeps `Holds P f k b` when it is not a write to byte `k` of frame `f` and,
if it replaces a page and reuses frame `f`, its victim is `P`. -/
theorem handle_Holds (c : Config) (s s1 : State) (ref : Ref) (rec : Record)
    (P f k b : Nat) (hl : c.level = 1) (hf : c.fcount ≤ 8192) (hk : k < 64)
    (hw : WF c s) (hJ : Holds P f k b s)
    (h : handle c s ref = some (s1, rec))
    (hcond : rec.replaced = true → rec.pfn = (f : Int) → rec.victim = some P)
    (hwr : ref.type = 'w' → rec.pfn = (f : Int) → offsetOf ref.addr ≠ k) :
    Holds P f k b s1 ∧
    (rec.victim = some P → s1.swap (P * 64 + k) = b) ∧
    (s.swap (P * 64 + k) = b → s1.swap (P * 64 + k) = b) := by
  by_cases hty : ref.type = 'w'
  · obtain ⟨s0, h0, hp0, e1, e2, e3⟩ := handle_write_split c s s1 ref rec hl hty h
    obtain ⟨⟨j1, j2, j3, j4⟩, -, k3, k4⟩ := handle_read_Holds c s s0 _ rec P f k b hl hf hk
      hw hJ (by simp) h0 hcond
    refine ⟨⟨by rw [(e2 P).1]; exact j1, (e2 P).2.2 j2, by rw [(e2 P).2.1]; exact j3, ?_⟩,
      fun hv => by rw [e1]; exact k3 hv, fun hs0 => by rw [e1]; exact k4 hs0⟩
    rw [e3]
    by_cases hfr : f = rec.pfn.toNat
    · have hpf : rec.pfn = (f : Int) := by rw [hfr]; exact (Int.toNat_of_nonneg hp0).symm
      rw [← hfr, upd_same, upd_ne _ _ (Ne.symm (hwr hty hpf))]
      exact j4
    · rw [upd_ne _ _ hfr]; exact j4
  · obtain ⟨k1, -, k3, k4⟩ := handle_read_Holds c s s1 ref rec P f k b hl hf hk hw hJ hty h
      hcond
    exact ⟨k1, k3, k4⟩

/-- A run keeps `Holds P f k b` when none of its writes goes to byte `k` of frame `f` and
every replacement that reuses frame `f` has `P` as its victim; if `P` was a victim in the
run, byte `k` of its place in the swap file is `b` afterwards. -/
theorem run_Holds (c : Config) (P f k b : Nat) (hl : c.level = 1) (hf0 : 0 < c.fcount)
    (hf : c.fcount ≤ 8192) (hk : k < 64) :
    ∀ (mid : List Ref) (i : Nat) (s s1 : State) (log : List Record),
      WF c s → Holds P f k b s → run c i s mid = some (s1, log) →
      (∀ re ∈ List.zip mid log, re.1.type = 'w' → re.2.pfn = (f : Int) →
        offsetOf re.1.addr ≠ k) →
      (∀ e ∈ log, e.replaced = true → e.pfn = (f : Int) → e.victim = some P) →
      WF c s1 ∧ Holds P f k b s1 ∧
      (((∃ e ∈ log, e.victim = some P) ∨ s.swap (P * 64 + k) = b) →
        s1.swap (P * 64 + k) = b) := by
  intro mid
  induction mid with
  | nil =>
    intro i s s1 log hw hJ hr _ _
    simp only [run, Option.some.injEq, Prod.mk.injEq] at hr
    obtain ⟨e1, e2⟩ := hr
    subst e1 e2
    refine ⟨hw, hJ, ?_⟩
    rintro (⟨e, he, -⟩ | h)
    · simp at he
    · exact h
  | cons ref rest ih =>
    intro i s s2 log hw hJ hr hwr hcond
    obtain ⟨s1, rec, recs, h1, h2, rfl⟩ := run_cons c i s ref rest s2 log hr
    have hwa := age_WF c i s hw
    have hJa : Holds P f k b (age c i s) := by
      obtain ⟨j1, j2, j3, j4⟩ := hJ
      refine ⟨by rw [(age_pt c i s P).2.2.1]; exact j1, by rw [(age_pt c i s P).2.1]; exact j2,
        by rw [(age_pt c i s P).1]; exact j3, ?_⟩
      have : (age c i s).pm = s.pm := congrArg Mem.pm (age_toMem c i s)
      rw [this]; exact j4
    have hsa : (age c i s).swap = s.swap := congrArg Mem.swap (age_toMem c i s)
    obtain ⟨k1, k3, k4⟩ := handle_Holds c _ s1 ref rec P f k b hl hf hk hwa hJa h1
      (hcond rec (List.mem_cons_self _ _))
      (hwr (ref, rec) (by simp))
    have hw1 := (handle_WF c _ s1 ref rec hf0 hf hwa h1).1
    obtain ⟨g1, g2, g3⟩ := ih (i + 1) s1 s2 recs hw1 k1 h2
      (fun re hre => hwr re (by
        rw [List.zip_cons_cons]
        exact List.mem_cons_of_mem _ hre))
      (fun e he => hcond e (List.mem_cons_of_mem _ he))
    refine ⟨g1, g2, ?_⟩
    rintro (⟨e, he, hv⟩ | h)
    · rcases List.mem_cons.mp he with rfl | he
      · exact g3 (Or.inr (k3 hv))
      · exact g3 (Or.inl ⟨e, he, hv⟩)
    · exact g3 (Or.inr (k4 (by rw [hsa]; exact h)))

/-! ## The entry installed by a fault -/

/-- The entry of the page after a read that faulted: the reported frame, `r = 1`, `m = 0`,
`v = 1`, on either branch of the fault. -/
theorem translateRef_install (c : Config) (e : Bool) (tbl : Nat → PTE) (m : Mem) (idx : Nat)
    (ref : Ref) (tbl1 : Nat → PTE) (m1 : Mem) (rec : Record)
    (hf : c.fcount ≤ 8192) (ht : TblOK c m.next_empty_frame tbl)
    (hw : ref.type ≠ 'w') (hpf : rec.pageFault = true)
    (hok : e = true ∨ c.algo ≠ Algo.ECLOCK)
    (h : translateRef c e tbl m idx ref = some (tbl1, m1, rec)) :
    0 ≤ rec.pfn ∧
    tbl1 idx = { frame := rec.pfn.toNat, r := true, m := false, v := true } := by
  obtain ⟨o, ho, hs, -, -, -, -, r1, -, r3, -, -⟩ := translateRef_some _ _ _ _ _ _ _ _ _ h
  obtain ⟨-, -, -, s4, -⟩ := storeByte_spec _ _ _ _ _ _ hs
  obtain ⟨rfl, -⟩ := s4 hw
  rw [r1]
  rw [r3] at hpf
  rcases lookup_cases _ _ _ _ _ _ ho with ⟨-, rfl⟩ | ⟨-, hlt, rfl⟩ | ⟨-, -, hr⟩
  · simp [pageHit] at hpf
  · have hm : m.next_empty_frame % 8192 = m.next_empty_frame :=
      Nat.mod_eq_of_lt (by omega)
    simp [loadFree, hm]
  · obtain ⟨-, -, -, -, -, -, q7⟩ := replacePage_spec _ _ _ _ _ _ hr
    rcases q7 with ⟨a1, a2, -⟩ | ⟨tbl0, v, sb, -, -, a4, -, -, a7⟩
    · rcases hok with h1 | h1
      · rw [h1] at a1; simp at a1
      · exact absurd a2 h1
    · have hv0 : (tbl0 v).frame < c.fcount := by rw [(sb v).1]; exact ht.1 v
      have hm : (tbl0 v).frame % 8192 = (tbl0 v).frame := Nat.mod_eq_of_lt (by omega)
      rw [a7, a4, swapIn_tbl, swapIn_frame, upd_same]
      simp [hm]

/-! ## Writes, the swap file and free-frame loads -/

/-- A write reference stores its value, as a byte, at the offset of the reported frame and
sets the `m` bit of the entry of the page. -/
theorem translateRef_write (c : Config) (e : Bool) (tbl : Nat → PTE) (m : Mem) (idx : Nat)
    (ref : Ref) (tbl1 : Nat → PTE) (m1 : Mem) (rec : Record) (hw : ref.type = 'w')
    (h : translateRef c e tbl m idx ref = some (tbl1, m1, rec)) :
    0 ≤ rec.pfn ∧ m1.pm rec.pfn.toNat (offsetOf ref.addr) = ref.value % 256 ∧
    (tbl1 idx).m = true := by
  obtain ⟨o, -, hs, -, -, -, -, r1, -⟩ := translateRef_some _ _ _ _ _ _ _ _ _ h
  obtain ⟨-, -, -, -, s5⟩ := storeByte_spec _ _ _ _ _ _ hs
  obtain ⟨a1, a2, a3⟩ := s5 hw
  rw [r1, a3]
  exact ⟨a1, by simp, a2⟩

/-- A read reference sets no `m` bit. -/
theorem translateRef_read_m (c : Config) (e : Bool) (tbl : Nat → PTE) (m : Mem) (idx : Nat)
    (ref : Ref) (tbl1 : Nat → PTE) (m1 : Mem) (rec : Record) (hw : ref.type ≠ 'w')
    (h : translateRef c e tbl m idx ref = some (tbl1, m1, rec)) :
    ∀ p, (tbl1 p).m = true → (tbl p).m = true := by
  obtain ⟨o, ho, hs, -⟩ := translateRef_some _ _ _ _ _ _ _ _ _ h
  obtain ⟨-, -, -, s4, -⟩ := storeByte_spec _ _ _ _ _ _ hs
  obtain ⟨rfl, -⟩ := s4 hw
  intro p hp
  rcases lookup_cases _ _ _ _ _ _ ho with ⟨-, rfl⟩ | ⟨-, -, rfl⟩ | ⟨-, -, hr⟩
  · by_cases hpi : p = idx
    · subst hpi; simpa [pageHit] using hp
    · simpa [pageHit, hpi] using hp
  · by_cases hpi : p = idx
    · subst hpi; simp [loadFree] at hp
    · simpa [loadFree, hpi] using hp
  · obtain ⟨-, -, -, -, -, -, q7⟩ := replacePage_spec _ _ _ _ _ _ hr
    rcases q7 with ⟨-, -, -, a4, -⟩ | ⟨tbl0, v, sb, -, -, a4, -⟩
    · rw [a4] at hp; exact hp
    · rw [a4, swapIn_tbl] at hp
      by_cases hpi : p = idx
      · subst hpi; simp at hp
      · rw [upd_ne _ _ hpi, (sb p).2.1] at hp
        exact hp

/-- The swap file after a reference: written only by a replacement whose victim has its `m`
bit set, with the victim's frame at the victim's place. -/
theorem translateRef_swap (c : Config) (e : Bool) (tbl : Nat → PTE) (m : Mem) (idx : Nat)
    (ref : Ref) (tbl1 : Nat → PTE) (m1 : Mem) (rec : Record)
    (h : translateRef c e tbl m idx ref = some (tbl1, m1, rec)) :
    (rec.replaced = false → m1.swap = m.swap) ∧
    (rec.replaced = true →
      (e = false ∧ c.algo = Algo.ECLOCK ∧ rec.victim = none ∧ m1.swap = m.swap) ∨
      (∃ v, rec.victim = some v ∧
        m1.swap = if (tbl v).m = true then writePage m.swap v (m.pm (tbl v).frame)
          else m.swap)) := by
  obtain ⟨o, ho, hs, -, -, -, -, -, -, -, r3, r4⟩ := translateRef_some _ _ _ _ _ _ _ _ _ h
  obtain ⟨-, -, s3, -, -⟩ := storeByte_spec _ _ _ _ _ _ hs
  have e1 : m1.swap = o.mem.swap := by rw [s3]
  rw [r3, r4, e1]
  rcases lookup_cases _ _ _ _ _ _ ho with ⟨-, rfl⟩ | ⟨-, -, rfl⟩ | ⟨-, -, hr⟩
  · exact ⟨fun _ => rfl, fun hx => by simp [pageHit] at hx⟩
  · exact ⟨fun _ => rfl, fun hx => by simp [loadFree] at hx⟩
  · obtain ⟨-, q2, -, -, -, -, q7⟩ := replacePage_spec _ _ _ _ _ _ hr
    refine ⟨fun hx => by rw [q2] at hx; simp at hx, fun _ => ?_⟩
    rcases q7 with ⟨a1, a2, a3, -, a5, -⟩ | ⟨tbl0, v, sb, -, a3, -, -, a6, -⟩
    · left
      rw [a5]
      exact ⟨a1, a2, a3, rfl⟩
    · right
      refine ⟨v, a3, ?_⟩
      rw [a6, swapIn_swap, (sb v).2.1, (sb v).1]

/-- A read fault served from a free frame: the frame is the one under the cursor, it is
filled with the 64 bytes at the place of the page in the swap file, and nothing else of
physical memory or of the swap file changes. -/
theorem translateRef_free_load (c : Config) (e : Bool) (tbl : Nat → PTE) (m : Mem) (idx : Nat)
    (ref : Ref) (tbl1 : Nat → PTE) (m1 : Mem) (rec : Record) (hw : ref.type ≠ 'w')
    (hpf : rec.pageFault = true) (hnr : rec.replaced = false)
    (h : translateRef c e tbl m idx ref = some (tbl1, m1, rec)) :
    rec.pfn = (m.next_empty_frame : Int) ∧ m.next_empty_frame < c.fcount ∧
    (∀ i, i < 64 → m1.pm m.next_empty_frame i = m.swap (64 * idx + i)) ∧
    (∀ g, g ≠ m.next_empty_frame → m1.pm g = m.pm g) ∧ m1.swap = m.swap := by
  obtain ⟨o, ho, hs, -, -, -, -, r1, -, r3, r4, -⟩ := translateRef_some _ _ _ _ _ _ _ _ _ h
  obtain ⟨-, -, -, s4, -⟩ := storeByte_spec _ _ _ _ _ _ hs
  obtain ⟨-, rfl⟩ := s4 hw
  rw [r3] at hpf
  rw [r4] at hnr
  rw [r1]
  rcases lookup_cases _ _ _ _ _ _ ho with ⟨-, rfl⟩ | ⟨-, hlt, rfl⟩ | ⟨-, -, hr⟩
  · simp [pageHit] at hpf
  · refine ⟨rfl, hlt, ?_, ?_, rfl⟩
    · intro i hi
      simp only [loadFree, upd_same]
      rw [copyFrom_apply, if_pos ⟨Nat.zero_le _, hi⟩]
      simp only [readPage, PAGE_SIZE]
      congr 1
      omega
    · intro g hg
      simp only [loadFree]
      rw [upd_ne _ _ hg]
  · obtain ⟨-, q2, -⟩ := replacePage_spec _ _ _ _ _ _ hr
    rw [q2] at hnr
    simp at hnr

/-! ## The four passes of ECLOCK -/

/-- A clearing pass without victim leaves the `r` bit at 0 on the page of every slot it
looked at. -/
theorem eclockPass_none_all (size : Nat) (order : Nat → Nat) (wantM : Bool) :
    ∀ (n : Nat) (tbl : Nat → PTE) (hand : Nat), hand < size →
      (eclockPass size order wantM true n tbl hand).2.2 = none →
      ∀ k, k < n →
        ((eclockPass size order wantM true n tbl hand).1 (order ((hand + k) % size))).r
          = false := by
  intro n
  induction n with
  | zero => intro tbl hand _ _ k hk; omega
  | succ n ih =>
    intro tbl hand hh hn k hk
    cases k with
    | zero =>
      have := (eclockPass_none_first size order wantM true n tbl hand hn).2 rfl
      simpa [Nat.mod_eq_of_lt hh] using this
    | succ k =>
      rw [eclockPass] at hn ⊢
      by_cases hc : (tbl (order hand)).r = false ∧ (tbl (order hand)).m = wantM
      · rw [if_pos hc] at hn
        simp at hn
      · rw [if_neg hc] at hn ⊢
        have := ih _ _ (Nat.mod_lt _ (by omega)) hn k (by omega)
        rw [Nat.mod_add_mod] at this
        have e : hand + 1 + k = hand + (k + 1) := by omega
        rw [e] at this
        exact this

/-- Every slot is reached from the hand in fewer than `size` steps. -/
theorem slot_from_hand (size hand i : Nat) (hh : hand < size) (hi : i < size) :
    ∃ k, k < size ∧ (hand + k) % size = i := by
  by_cases h : hand ≤ i
  · exact ⟨i - hand, by omega, by rw [Nat.add_sub_cancel' h, Nat.mod_eq_of_lt hi]⟩
  · refine ⟨i + size - hand, by omega, ?_⟩
    have e : hand + (i + size - hand) = i + size := by omega
    rw [e, Nat.add_mod_right, Nat.mod_eq_of_lt hi]

/-- The four steps in sequence are `eclockSelect`: each step is run when the steps before it
have no victim. -/
theorem eclockSelect_steps (size : Nat) (order : Nat → Nat) (tbl : Nat → PTE) (hand : Nat) :
    eclockSelect size order tbl hand =
      if (eclockStep1 size order tbl hand).2.2 ≠ none then eclockStep1 size order tbl hand
      else if (eclockStep2 size order tbl hand).2.2 ≠ none then eclockStep2 size order tbl hand
      else if (eclockStep3 size order tbl hand).2.2 ≠ none then eclockStep3 size order tbl hand
      else eclockStep4 size order tbl hand := rfl

/-! ## Iterations of the CLOCK loop -/

/-- The number of hand advances of a CLOCK selection: when the loop ends within `fuel`
iterations, it ends in exactly `n + 1` iterations for some `n < fuel`, having advanced the hand
`n` times. -/
theorem clockSelect_steps (size : Nat) (order : Nat → Nat) :
    ∀ (fuel : Nat) (tbl : Nat → PTE) (hand : Nat) (r : (Nat → PTE) × Nat × Nat),
      hand < size → clockSelect size order fuel tbl hand = some r →
      ∃ n, n < fuel ∧ clockSelect size order (n + 1) tbl hand = some r ∧
        clockSelect size order n tbl hand = none ∧ r.2.1 = (hand + n) % size := by
  intro fuel
  induction fuel with
  | zero => intro tbl hand r _ h; simp [clockSelect] at h
  | succ fuel ih =>
    intro tbl hand r hh h
    rw [clockSelect] at h
    by_cases hr : (tbl (order hand)).r = false
    · rw [if_pos hr] at h
      refine ⟨0, by omega, ?_, rfl, ?_⟩
      · rw [clockSelect, if_pos hr]; exact h
      · rw [← Option.some.inj h]
        exact (Nat.mod_eq_of_lt hh).symm
    · rw [if_neg hr] at h
      obtain ⟨n, a1, a2, a3, a4⟩ := ih _ _ r (Nat.mod_lt _ (by omega)) h
      refine ⟨n + 1, by omega, ?_, ?_, ?_⟩
      · rw [clockSelect, if_neg hr]; exact a2
      · rw [clockSelect, if_neg hr]; exact a3
      · rw [a4, Nat.mod_add_mod]
        congr 1
        omega

/-! ## The hand after a CLOCK replacement -/

/-- A CLOCK replacement: the hand is left on the slot where the scan stopped, `n ≤ fcount`
slots after the slot it started from, and the victim is the page of that slot. -/
theorem translateRef_clock (c : Config) (e : Bool) (tbl : Nat → PTE) (m : Mem) (idx : Nat)
    (ref : Ref) (tbl1 : Nat → PTE) (m1 : Mem) (rec : Record) (hA : c.algo = Algo.CLOCK)
    (hh : m.clock_hand < c.fcount) (hrep : rec.replaced = true)
    (h : translateRef c e tbl m idx ref = some (tbl1, m1, rec)) :
    ∃ n, n ≤ c.fcount ∧ m1.clock_hand = (m.clock_hand + n) % c.fcount ∧
      rec.victim = some (m.clock_hand_order m1.clock_hand) := by
  obtain ⟨o, ho, hs, -, -, -, -, -, -, -, r3, r4⟩ := translateRef_some _ _ _ _ _ _ _ _ _ h
  obtain ⟨-, -, s3, -, -⟩ := storeByte_spec _ _ _ _ _ _ hs
  have e1 : m1.clock_hand = o.mem.clock_hand := by rw [s3]
  rw [r3] at hrep
  rw [r4, e1]
  rcases lookup_cases _ _ _ _ _ _ ho with ⟨-, rfl⟩ | ⟨-, -, rfl⟩ | ⟨-, -, hr⟩
  · simp [pageHit] at hrep
  · simp [loadFree] at hrep
  · unfold replacePage at hr
    simp only [hA] at hr
    split at hr
    · simp at hr
    · rename_i tbl0 hand v hsel
      simp only [Option.some.injEq] at hr
      subst hr
      obtain ⟨n, a1, -, -, a4⟩ := clockSelect_steps _ _ _ _ _ _ hh hsel
      obtain ⟨-, -, -, b4, -⟩ := clockSelect_spec _ _ _ _ _ _ _ _ hsel
      exact ⟨n, by omega, a4, by rw [b4]⟩

/-! ## Free-frame installs in the FIFO and LRU arrays -/

/-- The FIFO and LRU arrays after a replacement: as they were, or updated with the page. -/
theorem replacePage_orders (c : Config) (e : Bool) (tbl : Nat → PTE) (m : Mem) (idx : Nat)
    (o : Outcome) (h : replacePage c e tbl m idx = some o) :
    (o.mem.fifo_order = m.fifo_order ∨
      o.mem.fifo_order = shiftIn c.fcount m.fifo_order idx) ∧
    (o.mem.lru_order = m.lru_order ∨
      o.mem.lru_order = update_lru_order m.lru_order idx c.fcount) := by
  unfold replacePage at h
  split at h
  · simp only [Option.some.injEq] at h
    subst h
    exact ⟨Or.inr rfl, Or.inl rfl⟩
  · simp only [Option.some.injEq] at h
    subst h
    exact ⟨Or.inl rfl, Or.inr rfl⟩
  · split at h
    · simp at h
    · simp only [Option.some.injEq] at h
      subst h
      exact ⟨Or.inl rfl, Or.inl rfl⟩
  · by_cases he : e = true
    · rw [if_pos he] at h
      split at h
      · simp at h
      · simp only [Option.some.injEq] at h
        subst h
        exact ⟨Or.inl rfl, Or.inl rfl⟩
    · rw [if_neg he] at h
      simp only [Option.some.injEq] at h
      subst h
      exact ⟨Or.inl rfl, Or.inl rfl⟩

/-- The FIFO and LRU arrays after a reference: as they were, or updated with the page; and
a reference that faults finds the entry of its page invalid. -/
theorem translateRef_orders (c : Config) (e : Bool) (tbl : Nat → PTE) (m : Mem) (idx : Nat)
    (ref : Ref) (tbl1 : Nat → PTE) (m1 : Mem) (rec : Record)
    (h : translateRef c e tbl m idx ref = some (tbl1, m1, rec)) :
    (m1.fifo_order = m.fifo_order ∨ m1.fifo_order = shiftIn c.fcount m.fifo_order idx) ∧
    (m1.lru_order = m.lru_order ∨
      m1.lru_order = update_lru_order m.lru_order idx c.fcount) ∧
    (rec.pageFault = true → (tbl idx).v = false) := by
  obtain ⟨o, ho, hs, -, -, -, -, -, -, r3, -, -⟩ := translateRef_some _ _ _ _ _ _ _ _ _ h
  obtain ⟨-, -, s3, -, -⟩ := storeByte_spec _ _ _ _ _ _ hs
  have e1 : m1.fifo_order = o.mem.fifo_order := by rw [s3]
  have e2 : m1.lru_order = o.mem.lru_order := by rw [s3]
  rw [e1, e2, r3]
  rcases lookup_cases _ _ _ _ _ _ ho with ⟨-, rfl⟩ | ⟨hv, -, rfl⟩ | ⟨hv, -, hr⟩
  · exact ⟨Or.inl rfl, Or.inr rfl, fun hx => by simp [pageHit] at hx⟩
  · exact ⟨Or.inr rfl, Or.inr rfl, fun _ => hv⟩
  · obtain ⟨a1, a2⟩ := replacePage_orders _ _ _ _ _ _ hr
    exact ⟨a1, a2, fun _ => hv⟩

theorem OrderInv_init (c : Config) (swap0 : Nat → Nat) : OrderInv c (init c swap0) :=
  ⟨fun _ _ => Or.inl rfl, fun _ _ => Or.inl rfl⟩

theorem OrderInv_age (c : Config) (i : Nat) (s : State) (h : OrderInv c s) :
    OrderInv c (age c i s) := by
  have e1 : (age c i s).fifo_order = s.fifo_order := by
    rw [show (age c i s).fifo_order = (age c i s).toMem.fifo_order from rfl, age_toMem]
  have e2 : (age c i s).lru_order = s.lru_order := by
    rw [show (age c i s).lru_order = (age c i s).toMem.lru_order from rfl, age_toMem]
  refine ⟨fun j hj => ?_, fun j hj => ?_⟩
  · rw [e1, (age_pt c i s _).2.2.1]
    exact h.1 j hj
  · rw [e2, (age_pt c i s _).2.2.1]
    exact h.2 j hj

/-- A reference of level 1 keeps `OrderInv`: no valid bit is cleared, and the page put into
an array is valid afterwards. -/
theorem OrderInv_step (c : Config) (s s1 : State) (ref : Ref) (rec : Record)
    (hl : c.level = 1) (hf : c.fcount ≤ 8192) (hw : WF c s) (hi : OrderInv c s)
    (h : handle c s ref = some (s1, rec)) : OrderInv c s1 := by
  rcases handle_cases _ _ _ _ _ h with ⟨-, tbl, m, htr, rfl⟩ | ⟨h2, -⟩
  · obtain ⟨o1, o2, -⟩ := translateRef_orders _ _ _ _ _ _ _ _ _ htr
    obtain ⟨e1, e2⟩ := translateRef_entry _ _ _ _ _ _ _ _ _ hf hw.2.2.2.1 htr
    have hidx : (tbl (vpnOf ref.addr)).v = true := by
      by_cases hr : rec.replaced = true
      · rcases e2 hr with ⟨a1, -⟩ | ⟨v, -, -, a3, -⟩
        · simp at a1
        · exact a3
      · exact (e1 (by simpa using hr)).2.1
    have hmono : ∀ p, (s.pt p).v = true → (tbl p).v = true := by
      intro p hp
      by_cases hpi : p = vpnOf ref.addr
      · rw [hpi]; exact hidx
      · by_cases hr : rec.replaced = true
        · rcases e2 hr with ⟨a1, -⟩ | ⟨v, -, a2, -⟩
          · simp at a1
          · rw [(a2 p hpi).1]; exact hp
        · rw [(e1 (by simpa using hr)).1 p hpi]; exact hp
    have keep : ∀ q, (q = 0 ∨ (s.pt q).v = true) → (q = 0 ∨ (tbl q).v = true) :=
      fun q hq => hq.imp id (hmono q)
    refine ⟨fun j hj => ?_, fun j hj => ?_⟩
    · show m.fifo_order j = 0 ∨ (tbl (m.fifo_order j)).v = true
      rcases o1 with o1 | o1
      · rw [o1]; exact keep _ (hi.1 j hj)
      · rw [o1, shiftIn_apply]
        by_cases h1 : j = c.fcount - 1
        · rw [if_pos h1]; exact Or.inr hidx
        · rw [if_neg h1, if_pos (by omega)]
          exact keep _ (hi.1 (j + 1) (by omega))
    · show m.lru_order j = 0 ∨ (tbl (m.lru_order j)).v = true
      rcases o2 with o2 | o2
      · rw [o2]; exact keep _ (hi.2 j hj)
      · rw [o2, update_lru_order_apply]
        by_cases h0 : j = 0
        · rw [if_pos h0]; exact Or.inr hidx
        · rw [if_neg h0]
          split
          · split
            · exact keep _ (hi.2 (j - 1) (by omega))
            · exact keep _ (hi.2 j hj)
          · split
            · exact keep _ (hi.2 (j - 1) (by omega))
            · exact keep _ (hi.2 j hj)
  · omega

/-- `OrderInv` holds before every step of a level-1 run from the initial state. -/
theorem stepAt_OrderInv (c : Config) (swap0 : Nat → Nat) (refs : List Ref) (t : Nat)
    (hl : c.level = 1) (hf0 : 0 < c.fcount) (hf : c.fcount ≤ 8192)
    (s : State) (e : Record) (s1 : State) (h : stepAt c swap0 refs t = some (s, e, s1)) :
    OrderInv c s := by
  obtain ⟨s0, l0, ref, h1, -, rfl, -⟩ := stepAt_some c swap0 refs t s e s1 h
  have hi := run_induct c (fun _ s => WF c s ∧ OrderInv c s) (fun _ => True)
    (fun h s i hi => ⟨age_WF c i s hi.1, OrderInv_age c i s hi.2⟩)
    (fun h s ref s1 rec _ hi hh =>
      ⟨(handle_WF c s s1 ref rec hf0 hf hi.1 hh).1,
        OrderInv_step c s s1 ref rec hl hf hi.1 hi.2 hh⟩)
    (refs.take t) [] 0 _ s0 l0 (fun _ _ => trivial)
    ⟨init_WF c swap0 hf0, OrderInv_init c swap0⟩ h1
  exact OrderInv_age c t s0 hi.2

/-- The first `n + 1` entries of the array after `shiftIn`: the entries 1 to `n`, then the
page. -/
theorem arrList_shiftIn (a : Nat → Nat) (n p : Nat) :
    arrList (shiftIn (n + 1) a p) (n + 1) = (List.range n).map (fun j => a (j + 1)) ++ [p] := by
  unfold arrList
  rw [List.range_succ, List.map_append]
  congr 1
  · apply List.map_congr_left
    intro j hj
    have := List.mem_range.mp hj
    rw [shiftIn_apply, if_neg (by omega), if_pos (by omega)]
  · simp [shiftIn_apply]

/-- A page that is not among the first `n` entries occurs once among them after
`shiftIn`, and at least once in any case. -/
theorem count_shiftIn (a : Nat → Nat) (n p : Nat) (hn : 0 < n) :
    1 ≤ (arrList (shiftIn n a p) n).count p ∧
    ((∀ j, j < n → a j ≠ p) → (arrList (shiftIn n a p) n).count p = 1) := by
  obtain ⟨k, rfl⟩ : ∃ k, n = k + 1 := ⟨n - 1, by omega⟩
  rw [arrList_shiftIn, List.count_append]
  simp only [List.count_cons_self, List.count_nil]
  refine ⟨by omega, fun hne => ?_⟩
  have : ((List.range k).map (fun j => a (j + 1))).count p = 0 := by
    rw [List.count_eq_zero]
    intro hm
    obtain ⟨j, hj, hjp⟩ := List.mem_map.mp hm
    exact hne (j + 1) (by have := List.mem_range.mp hj; omega) hjp
  omega

/-- The same for `update_lru_order`. -/
theorem count_update_lru_order (a : Nat → Nat) (n p : Nat) (hn : 0 < n) :
    1 ≤ (arrList (update_lru_order a p n) n).count p ∧
    ((∀ j, j < n → a j ≠ p) → (arrList (update_lru_order a p n) n).count p = 1) := by
  obtain ⟨k, rfl⟩ : ∃ k, n = k + 1 := ⟨n - 1, by omega⟩
  rw [arrList_update_lru_order]
  unfold touch
  rw [List.take_succ_cons, List.count_cons_self]
  refine ⟨by omega, fun hne => ?_⟩
  have hnot : p ∉ arrList a (k + 1) := by
    intro hm
    obtain ⟨j, hj, hjp⟩ := (mem_arrList a (k + 1) p).mp hm
    exact hne j hj hjp
  have : (((arrList a (k + 1)).erase p).take k).count p = 0 := by
    rw [List.count_eq_zero, List.erase_of_not_mem hnot]
    intro hm
    exact hnot (List.mem_of_mem_take hm)
  omega

/-! ## Entries that `update_lru_order` leaves alone -/

/-- Entries from position `n` on are not touched by `update_lru_order` with size `n`. -/
theorem update_lru_order_beyond (a : Nat → Nat) (v n i : Nat) (hn : 0 < n) (hi : n ≤ i) :
    update_lru_order a v n i = a i := by
  rw [update_lru_order_apply, if_neg (by omega)]
  cases h : lruFind a v 0 n with
  | none => simp only; rw [if_neg (by omega)]
  | some idx =>
    simp only
    have := (lruFind_some a v n 0 idx h).2.1
    rw [if_neg (by omega)]

/-! ## The first match of an ECLOCK pass -/

/-- A pass that does not clear stops at the first slot, counted from the hand, whose page
meets its condition: the table is as it was, the hand is one slot past that slot, and the
page of that slot is the victim. -/
theorem eclockPass_first (size : Nat) (order : Nat → Nat) (wantM : Bool) :
    ∀ (j n : Nat) (tbl : Nat → PTE) (hand : Nat), j < n → hand < size →
      (∀ i, i < j → ¬ ((tbl (order ((hand + i) % size))).r = false ∧
        (tbl (order ((hand + i) % size))).m = wantM)) →
      ((tbl (order ((hand + j) % size))).r = false ∧
        (tbl (order ((hand + j) % size))).m = wantM) →
      eclockPass size order wantM false n tbl hand
        = (tbl, (hand + j + 1) % size, some (order ((hand + j) % size))) := by
  intro j
  induction j with
  | zero =>
    intro n tbl hand hn hh _ hc
    obtain ⟨n, rfl⟩ : ∃ k, n = k + 1 := ⟨n - 1, by omega⟩
    rw [Nat.add_zero, Nat.mod_eq_of_lt hh] at hc
    rw [eclockPass, if_pos hc]
    simp [Nat.mod_eq_of_lt hh]
  | succ j ih =>
    intro n tbl hand hn hh hnot hc
    obtain ⟨n, rfl⟩ : ∃ k, n = k + 1 := ⟨n - 1, by omega⟩
    have h0 := hnot 0 (by omega)
    rw [Nat.add_zero, Nat.mod_eq_of_lt hh] at h0
    rw [eclockPass, if_neg h0, if_neg (by simp)]
    have e : ∀ i, ((hand + 1) % size + i) % size = (hand + (i + 1)) % size := by
      intro i
      rw [Nat.mod_add_mod]
      congr 1
      omega
    rw [ih n tbl ((hand + 1) % size) (by omega) (Nat.mod_lt _ (by omega))
      (fun i hi => by rw [e]; exact hnot (i + 1) (by omega)) (by rw [e]; exact hc)]
    have e3 : ((hand + 1) % size + j + 1) % size = (hand + (j + 1) + 1) % size := by
      rw [Nat.add_assoc, Nat.mod_add_mod]
      congr 1
      omega
    rw [e3, e]

/-! ## One fault per page in level 1 -/

theorem toFinset_snoc_card (l : List Nat) (p : Nat) :
    (l ++ [p]).toFinset.card = if p ∈ l then l.toFinset.card else l.toFinset.card + 1 := by
  have e : (l ++ [p]).toFinset = insert p l.toFinset := by
    ext x
    simp [or_comm]
  rw [e]
  by_cases hp : p ∈ l
  · rw [if_pos hp, Finset.insert_eq_of_mem (List.mem_toFinset.mpr hp)]
  · rw [if_neg hp, Finset.card_insert_of_not_mem (fun h => hp (List.mem_toFinset.mp h))]

theorem FaultInv_init (c : Config) (swap0 : Nat → Nat) : FaultInv [] (init c swap0) := by
  refine ⟨fun p => ?_, rfl⟩
  simp [init, init_pt, logPages]

theorem FaultInv_age (c : Config) (h : List Record) (s : State) (i : Nat)
    (hi : FaultInv h s) : FaultInv h (age c i s) := by
  refine ⟨fun p => ?_, ?_⟩
  · rw [(age_pt c i s p).2.2.1]
    exact hi.1 p
  · rw [show (age c i s).pfault_count = (age c i s).toMem.pfault_count from rfl, age_toMem]
    exact hi.2

/-- A reference of level 1 keeps `FaultInv`: no valid bit is cleared, the entry of the page is
valid afterwards, and the counter goes up exactly when the entry was invalid. -/
theorem FaultInv_step (c : Config) (h : List Record) (s : State) (ref : Ref) (s1 : State)
    (rec : Record) (hl : c.level = 1) (hf : c.fcount ≤ 8192) (hw : WF c s)
    (hi : FaultInv h s) (hh : handle c s ref = some (s1, rec)) :
    FaultInv (h ++ [rec]) s1 := by
  obtain ⟨i1, i2⟩ := hi
  rcases handle_cases _ _ _ _ _ hh with ⟨-, tbl, m, ht, rfl⟩ | ⟨h2, -⟩
  swap
  · omega
  obtain ⟨-, -, -, r1, -⟩ := translateRef_some _ _ _ _ _ _ _ _ _ ht
  obtain ⟨e1, e2⟩ := translateRef_entry _ _ _ _ _ _ _ _ _ hf hw.2.2.2.1 ht
  have hv : ∀ p, (tbl p).v = true ↔ (p = vpnOf ref.addr ∨ (s.pt p).v = true) := by
    intro p
    by_cases hrep : rec.replaced = true
    · rcases e2 hrep with ⟨x1, -⟩ | ⟨v, -, b2, b3, -, -⟩
      · simp at x1
      · by_cases hp : p = vpnOf ref.addr
        · subst hp; simp [b3]
        · rw [(b2 p hp).1]; simp [hp]
    · have hrep0 : rec.replaced = false := by simpa using hrep
      obtain ⟨b1, b2, -, -⟩ := e1 hrep0
      by_cases hp : p = vpnOf ref.addr
      · subst hp; simp [b2]
      · rw [b1 p hp]; simp [hp]
  unfold FaultInv
  rw [logPages_snoc, r1]
  refine ⟨fun p => ?_, ?_⟩
  · show (tbl p).v = true ↔ _
    rw [hv p, i1 p, List.mem_append, List.mem_singleton]
    exact or_comm
  · show m.pfault_count = _
    rw [toFinset_snoc_card]
    rcases translateRef_counts _ _ _ _ _ _ _ _ _ ht with
      ⟨-, -, -, a4, a5, -⟩ | ⟨-, -, -, a4, -, -, a7, -⟩ | ⟨-, -, a4, -, a5, -⟩
    · rw [if_pos ((i1 _).mp a4), a5]
      exact i2
    · have hnot : vpnOf ref.addr ∉ logPages h := by
        intro hm
        rw [← i1, a4] at hm
        simp at hm
      rw [if_neg hnot, a7]
      exact congrArg (· + 1) i2
    · have hnot : vpnOf ref.addr ∉ logPages h := by
        intro hm
        rw [← i1, a4] at hm
        simp at hm
      rw [if_neg hnot, a5]
      exact congrArg (· + 1) i2

/-! ## Command line -/

theorem setArg_isSome (a : Args) (opt val : String) (h : opt ∈ knownOptions) :
    ∃ a1, setArg a opt val = some a1 := by
  unfold setArg
  simp only [knownOptions, List.mem_cons, List.mem_singleton, List.not_mem_nil, or_false] at h
  rcases h with h | h | h | h | h | h | h <;> subst h <;> simp

/-- The loop of `read_args` runs through `n` pairs whose option names are known. -/
theorem argLoop_isSome :
    ∀ (n : Nat) (l : List String) (a : Args), l.length = 2 * n →
      (∀ i, i < n → ∃ o, l[2 * i]? = some o ∧ o ∈ knownOptions) →
      ∃ a1, argLoop l a = some a1 := by
  intro n
  induction n with
  | zero =>
    intro l a hl _
    have : l = [] := List.length_eq_zero.mp (by omega)
    subst this
    exact ⟨a, rfl⟩
  | succ n ih =>
    intro l a hl ho
    match l, hl, ho with
    | [], hl, _ => simp at hl
    | [_], hl, _ => simp at hl; omega
    | opt :: val :: rest, hl, ho =>
      obtain ⟨o, h1, h2⟩ := ho 0 (by omega)
      simp only [Nat.mul_zero, List.getElem?_cons_zero, Option.some.injEq] at h1
      subst h1
      obtain ⟨a1, h3⟩ := setArg_isSome a opt val h2
      rw [argLoop, h3]
      simp only
      apply ih rest a1
      · simp only [List.length_cons] at hl
        omega
      · intro i hi
        obtain ⟨o, g1, g2⟩ := ho (i + 1) (by omega)
        refine ⟨o, ?_, g2⟩
        have e : 2 * (i + 1) = 2 * i + 1 + 1 := by omega
        rw [e, List.getElem?_cons_succ, List.getElem?_cons_succ] at g1
        exact g1

/-- What one pass of the loop of `read_args` leaves in each global: the value of the pair when
the option names that global, and what was there otherwise. -/
theorem setArg_fields (a a1 : Args) (o v : String) (h : setArg a o v = some a1) :
    a1.level = (if o = "-p" then atoi v else a.level) ∧
    a1.addrfile = (if o = "-r" then v else a.addrfile) ∧
    a1.swapfile = (if o = "-s" then v else a.swapfile) ∧
    a1.fcount = (if o = "-f" then atoi v else a.fcount) ∧
    a1.algo = (if o = "-a" then v else a.algo) ∧
    a1.tick = (if o = "-t" then atoi v else a.tick) ∧
    a1.outfile = (if o = "-o" then v else a.outfile) := by
  unfold setArg at h
  split_ifs at h with h1 h2 h3 h4 h5 h6 h7 <;>
    simp only [Option.some.injEq] at h <;> subst h <;> simp_all

/-- What the loop of `read_args` leaves in each global: the value of the last pair with the
option of that global (through `atoi` for the numbers), and what was there when no pair has
it. -/
theorem argLoop_fields :
    ∀ (n : Nat) (l : List String) (a0 a : Args), l.length ≤ n → argLoop l a0 = some a →
      a.level = ((optValue "-p" l).map atoi).getD a0.level ∧
      a.addrfile = (optValue "-r" l).getD a0.addrfile ∧
      a.swapfile = (optValue "-s" l).getD a0.swapfile ∧
      a.fcount = ((optValue "-f" l).map atoi).getD a0.fcount ∧
      a.algo = (optValue "-a" l).getD a0.algo ∧
      a.tick = ((optValue "-t" l).map atoi).getD a0.tick ∧
      a.outfile = (optValue "-o" l).getD a0.outfile := by
  intro n
  induction n with
  | zero =>
    intro l a0 a hl h
    have : l = [] := List.length_eq_zero.mp (by omega)
    subst this
    simp only [argLoop, Option.some.injEq] at h
    subst h
    simp [optValue]
  | succ n ih =>
    intro l a0 a hl h
    match l, hl, h with
    | [], _, h =>
      simp only [argLoop, Option.some.injEq] at h
      subst h
      simp [optValue]
    | [_], _, h =>
      simp only [argLoop, Option.some.injEq] at h
      subst h
      simp [optValue]
    | o :: v :: rest, hl, h =>
      rw [argLoop] at h
      cases hs : setArg a0 o v with
      | none => rw [hs] at h; simp at h
      | some a1 =>
        rw [hs] at h
        simp only at h
        obtain ⟨f1, f2, f3, f4, f5, f6, f7⟩ := setArg_fields a0 a1 o v hs
        obtain ⟨g1, g2, g3, g4, g5, g6, g7⟩ := ih rest a1 a
          (by simp only [List.length_cons] at hl; omega) h
        rw [g1, g2, g3, g4, g5, g6, g7, f1, f2, f3, f4, f5, f6, f7]
        simp only [optValue]
        refine ⟨?_, ?_, ?_, ?_, ?_, ?_, ?_⟩
        · cases optValue "-p" rest with
          | none => by_cases e : o = "-p" <;> simp [e]
          | some w => simp
        · cases optValue "-r" rest with
          | none => by_cases e : o = "-r" <;> simp [e]
          | some w => simp
        · cases optValue "-s" rest with
          | none => by_cases e : o = "-s" <;> simp [e]
          | some w => simp
        · cases optValue "-f" rest with
          | none => by_cases e : o = "-f" <;> simp [e]
          | some w => simp
        · cases optValue "-a" rest with
          | none => by_cases e : o = "-a" <;> simp [e]
          | some w => simp
        · cases optValue "-t" rest with
          | none => by_cases e : o = "-t" <;> simp [e]
          | some w => simp
        · cases optValue "-o" rest with
          | none => by_cases e : o = "-o" <;> simp [e]
          | some w => simp

/-! ## The scan of a CLOCK selection -/

/-- The scan of a CLOCK selection that ends within `fuel` iterations: it ends in exactly
`n + 1` iterations with the hand `n` slots further; the pages of the `n` slots passed over
had `r = 1` and have `r = 0` afterwards, and the entries of all other pages are as they
were. -/
theorem clockSelect_scan (size : Nat) (order : Nat → Nat) :
    ∀ (fuel : Nat) (tbl : Nat → PTE) (hand : Nat) (tbl1 : Nat → PTE) (hand1 v : Nat),
      hand < size → clockSelect size order fuel tbl hand = some (tbl1, hand1, v) →
      ∃ n, n < fuel ∧ clockSelect size order (n + 1) tbl hand = some (tbl1, hand1, v) ∧
        clockSelect size order n tbl hand = none ∧ hand1 = (hand + n) % size ∧
        (∀ j, j < n → (tbl (order ((hand + j) % size))).r = true ∧
          (tbl1 (order ((hand + j) % size))).r = false) ∧
        (∀ q, (∀ j, j < n → order ((hand + j) % size) ≠ q) → tbl1 q = tbl q) := by
  intro fuel
  induction fuel with
  | zero => intro tbl hand tbl1 hand1 v _ h; simp [clockSelect] at h
  | succ fuel ih =>
    intro tbl hand tbl1 hand1 v hh h
    rw [clockSelect] at h
    by_cases hr : (tbl (order hand)).r = false
    · rw [if_pos hr] at h
      simp only [Option.some.injEq, Prod.mk.injEq] at h
      obtain ⟨h1, h2, h3⟩ := h
      subst h1 h2 h3
      refine ⟨0, by omega, ?_, rfl, (Nat.mod_eq_of_lt hh).symm, fun j hj => by omega,
        fun _ _ => rfl⟩
      rw [clockSelect, if_pos hr]
    · rw [if_neg hr] at h
      have hr1 : (tbl (order hand)).r = true := by simpa using hr
      obtain ⟨n, a1, a2, a3, a4, a5, a6⟩ := ih _ _ tbl1 hand1 v (Nat.mod_lt _ (by omega)) h
      obtain ⟨-, b2, -⟩ := clockSelect_spec size order _ _ _ tbl1 hand1 v h
      have e : ∀ j, ((hand + 1) % size + j) % size = (hand + (j + 1)) % size := by
        intro j
        rw [Nat.mod_add_mod]
        congr 1
        omega
      refine ⟨n + 1, by omega, ?_, ?_, ?_, ?_, ?_⟩
      · rw [clockSelect, if_neg hr]; exact a2
      · rw [clockSelect, if_neg hr]; exact a3
      · rw [a4, e]
      · intro j hj
        cases j with
        | zero =>
          rw [Nat.add_zero, Nat.mod_eq_of_lt hh]
          exact ⟨hr1, b2 _ (by simp)⟩
        | succ j =>
          obtain ⟨c1, c2⟩ := a5 j (by omega)
          rw [e] at c1 c2
          refine ⟨?_, c2⟩
          by_cases hq : order ((hand + (j + 1)) % size) = order hand
          · rw [hq]; exact hr1
          · rw [upd_ne _ _ hq] at c1; exact c1
      · intro q hq
        rw [a6 q (fun j hj => by rw [e]; exact hq (j + 1) (by omega))]
        have h0 := hq 0 (by omega)
        rw [Nat.add_zero, Nat.mod_eq_of_lt hh] at h0
        exact upd_ne _ _ (Ne.symm h0)

/-- A CLOCK replacement is the selection on the table and hand of the state, within
`fcount + 1` iterations. -/
theorem translateRef_clock_select (c : Config) (e : Bool) (tbl : Nat → PTE) (m : Mem)
    (idx : Nat) (ref : Ref) (tbl1 : Nat → PTE) (m1 : Mem) (rec : Record)
    (hA : c.algo = Algo.CLOCK) (hrep : rec.replaced = true)
    (h : translateRef c e tbl m idx ref = some (tbl1, m1, rec)) :
    ∃ tbl0 k v, clockSelect c.fcount m.clock_hand_order (c.fcount + 1) tbl m.clock_hand
        = some (tbl0, k, v) ∧ rec.victim = some v ∧ m1.clock_hand = k := by
  obtain ⟨o, ho, hs, -, -, -, -, -, -, -, r3, r4⟩ := translateRef_some _ _ _ _ _ _ _ _ _ h
  obtain ⟨-, -, s3, -, -⟩ := storeByte_spec _ _ _ _ _ _ hs
  have e1 : m1.clock_hand = o.mem.clock_hand := by rw [s3]
  rw [r3] at hrep
  rw [r4, e1]
  rcases lookup_cases _ _ _ _ _ _ ho with ⟨-, rfl⟩ | ⟨-, -, rfl⟩ | ⟨-, -, hr⟩
  · simp [pageHit] at hrep
  · simp [loadFree] at hrep
  · unfold replacePage at hr
    simp only [hA] at hr
    split at hr
    · simp at hr
    · rename_i tbl0 hand v hsel
      simp only [Option.some.injEq] at hr
      subst hr
      exact ⟨tbl0, hand, v, hsel, rfl, rfl⟩

/-- Two slots reached from the hand in `j < n ≤ size` steps are the same slot only for
`j = 0` and `n = size`. -/
theorem same_slot_full_turn (size hand j n : Nat) (hjn : j < n) (hn : n ≤ size)
    (h : (hand + j) % size = (hand + n) % size) : j = 0 ∧ n = size := by
  have h1 := Nat.sub_mod_eq_zero_of_mod_eq h.symm
  have e : hand + n - (hand + j) = n - j := by omega
  rw [e] at h1
  have h2 := Nat.le_of_dvd (by omega) (Nat.dvd_of_mod_eq_zero h1)
  omega

/-! ## The hit branch and the arrays of CLOCK and ECLOCK -/

/-- The hit branch: the frame of the entry is reported, the `r` bit of the entry is set, the
CLOCK hand moves one slot, and the ECLOCK hand and the CLOCK and ECLOCK arrays are kept. -/
theorem translateRef_hit (c : Config) (e : Bool) (tbl : Nat → PTE) (m : Mem) (idx : Nat)
    (ref : Ref) (hv : (tbl idx).v = true) :
    ∃ tbl1 m1 rec, translateRef c e tbl m idx ref = some (tbl1, m1, rec) ∧
      rec.pageFault = false ∧ rec.replaced = false ∧ (tbl1 idx).r = true ∧
      m1.clock_hand = (m.clock_hand + 1) % c.fcount ∧ m1.eclock_hand = m.eclock_hand ∧
      m1.clock_hand_order = m.clock_hand_order ∧
      m1.eclock_hand_order = m.eclock_hand_order := by
  have hl : lookup c e tbl m idx = some (pageHit c tbl m idx) := by
    unfold lookup
    rw [if_neg (by simp [hv])]
  unfold translateRef
  rw [hl]
  simp only
  unfold storeByte
  by_cases hw : ref.type = 'w'
  · rw [if_pos hw, if_neg (by simp [pageHit])]
    exact ⟨_, _, _, rfl, rfl, rfl, by simp [pageHit], rfl, rfl, rfl, rfl⟩
  · rw [if_neg hw]
    exact ⟨_, _, _, rfl, rfl, rfl, by simp [pageHit], rfl, rfl, rfl, rfl⟩

/-- A reference that does not fault found the entry of its page valid. -/
theorem translateRef_nofault_valid (c : Config) (e : Bool) (tbl : Nat → PTE) (m : Mem)
    (idx : Nat) (ref : Ref) (tbl1 : Nat → PTE) (m1 : Mem) (rec : Record)
    (h : translateRef c e tbl m idx ref = some (tbl1, m1, rec))
    (hp : rec.pageFault = false) : (tbl idx).v = true := by
  obtain ⟨o, ho, -, -, -, -, -, -, -, r3, -, -⟩ := translateRef_some _ _ _ _ _ _ _ _ _ h
  rw [r3] at hp
  rcases lookup_cases _ _ _ _ _ _ ho with ⟨hv, -⟩ | ⟨-, -, rfl⟩ | ⟨-, -, hr⟩
  · exact hv
  · simp [loadFree] at hp
  · obtain ⟨q1, -⟩ := replacePage_spec _ _ _ _ _ _ hr
    rw [q1] at hp
    simp at hp

/-- The CLOCK and ECLOCK arrays after a replacement: the array of the policy is shifted by
one slot towards position 0 and the page is stored in slot `fcount - 1`; the other array is
kept. -/
theorem replacePage_clock_orders (c : Config) (tbl : Nat → PTE) (m : Mem) (idx : Nat)
    (o : Outcome) (h : replacePage c true tbl m idx = some o) :
    (c.algo = Algo.CLOCK →
      o.mem.clock_hand_order = shiftIn c.fcount m.clock_hand_order idx ∧
      o.mem.eclock_hand_order = m.eclock_hand_order) ∧
    (c.algo = Algo.ECLOCK →
      o.mem.eclock_hand_order = shiftIn c.fcount m.eclock_hand_order idx ∧
      o.mem.clock_hand_order = m.clock_hand_order) := by
  unfold replacePage at h
  split at h
  · rename_i hA
    exact ⟨fun hx => by rw [hA] at hx; simp at hx, fun hx => by rw [hA] at hx; simp at hx⟩
  · rename_i hA
    exact ⟨fun hx => by rw [hA] at hx; simp at hx, fun hx => by rw [hA] at hx; simp at hx⟩
  · rename_i hA
    split at h
    · simp at h
    · simp only [Option.some.injEq] at h
      subst h
      exact ⟨fun _ => ⟨rfl, rfl⟩, fun hx => by rw [hA] at hx; simp at hx⟩
  · rename_i hA
    rw [if_pos rfl] at h
    split at h
    · simp at h
    · simp only [Option.some.injEq] at h
      subst h
      exact ⟨fun hx => by rw [hA] at hx; simp at hx, fun _ => ⟨rfl, rfl⟩⟩

/-- The same for a reference of level 1 that is served by replacement. -/
theorem translateRef_clock_orders (c : Config) (tbl : Nat → PTE) (m : Mem) (idx : Nat)
    (ref : Ref) (tbl1 : Nat → PTE) (m1 : Mem) (rec : Record) (hrep : rec.replaced = true)
    (h : translateRef c true tbl m idx ref = some (tbl1, m1, rec)) :
    (c.algo = Algo.CLOCK →
      m1.clock_hand_order = shiftIn c.fcount m.clock_hand_order idx ∧
      m1.eclock_hand_order = m.eclock_hand_order) ∧
    (c.algo = Algo.ECLOCK →
      m1.eclock_hand_order = shiftIn c.fcount m.eclock_hand_order idx ∧
      m1.clock_hand_order = m.clock_hand_order) := by
  obtain ⟨o, ho, hs, -, -, -, -, -, -, -, r4, -⟩ := translateRef_some _ _ _ _ _ _ _ _ _ h
  obtain ⟨-, -, s3, -, -⟩ := storeByte_spec _ _ _ _ _ _ hs
  have e1 : m1.clock_hand_order = o.mem.clock_hand_order := by rw [s3]
  have e2 : m1.eclock_hand_order = o.mem.eclock_hand_order := by rw [s3]
  rw [r4] at hrep
  rw [e1, e2]
  rcases lookup_cases _ _ _ _ _ _ ho with ⟨-, rfl⟩ | ⟨-, -, rfl⟩ | ⟨-, -, hr⟩
  · simp [pageHit] at hrep
  · simp [loadFree] at hrep
  · exact replacePage_clock_orders c tbl { m with pfault_count := m.pfault_count + 1 } idx o hr

/-! ## The final flush -/

/-- The loop of `write_pm_to_swap` after `n` frames: the file position is `64 * n`, the bytes
below it are those of the frames, the bytes from it on are as they were, and the length is
the larger of the old length and `64 * n`. -/
theorem flushLoop_spec (pm : Nat → Nat → Nat) (f : SwapFile) :
    ∀ (n : Nat),
      (forLoop (fun i (st : SwapFile × Nat) => (fwriteFrame (pm i) st.2 st.1, st.2 + 64))
        0 n (f, 0)).2 = 64 * n ∧
      (∀ j, (forLoop (fun i (st : SwapFile × Nat) => (fwriteFrame (pm i) st.2 st.1, st.2 + 64))
        0 n (f, 0)).1.bytes j = if j < 64 * n then pm (j / 64) (j % 64) else f.bytes j) ∧
      (forLoop (fun i (st : SwapFile × Nat) => (fwriteFrame (pm i) st.2 st.1, st.2 + 64))
        0 n (f, 0)).1.size = max f.size (64 * n) := by
  have snoc : ∀ (σ : Type) (body : Nat → σ → σ) (n lo : Nat) (s : σ),
      forLoop body lo (n + 1) s = body (lo + n) (forLoop body lo n s) := by
    intro σ body n
    induction n with
    | zero => intro lo s; simp [forLoop]
    | succ n ih =>
      intro lo s
      rw [forLoop, ih (lo + 1) (body lo s)]
      have e : lo + 1 + n = lo + (n + 1) := by omega
      rw [e]
      rfl
  intro n
  induction n with
  | zero =>
    refine ⟨rfl, fun j => ?_, ?_⟩
    · simp [forLoop]
    · simp [forLoop]
  | succ n ih =>
    obtain ⟨i1, i2, i3⟩ := ih
    rw [snoc]
    simp only [Nat.zero_add]
    refine ⟨by rw [i1]; omega, fun j => ?_, ?_⟩
    · simp only [fwriteFrame] at i1 i2 ⊢
      rw [i1]
      by_cases h1 : 64 * n ≤ j ∧ j < 64 * n + 64
      · rw [if_pos h1, if_pos (by omega)]
        have e1 : j / 64 = n := by omega
        have e2 : j - 64 * n = j % 64 := by omega
        rw [e1, e2]
      · rw [if_neg h1, i2]
        by_cases h2 : j < 64 * n
        · rw [if_pos h2, if_pos (by omega)]
        · rw [if_neg h2, if_neg (by omega)]
    · simp only [fwriteFrame] at i1 i3 ⊢
      rw [i1, i3]
      omega

/-! ## Index bounds in level 1 -/

/-- The CLOCK and ECLOCK arrays after a replacement: as they were, or shifted with the page
stored last. -/
theorem replacePage_hand_orders (c : Config) (e : Bool) (tbl : Nat → PTE) (m : Mem)
    (idx : Nat) (o : Outcome) (h : replacePage c e tbl m idx = some o) :
    (o.mem.clock_hand_order = m.clock_hand_order ∨
      o.mem.clock_hand_order = shiftIn c.fcount m.clock_hand_order idx) ∧
    (o.mem.eclock_hand_order = m.eclock_hand_order ∨
      o.mem.eclock_hand_order = shiftIn c.fcount m.eclock_hand_order idx) := by
  unfold replacePage at h
  split at h
  · simp only [Option.some.injEq] at h
    subst h
    exact ⟨Or.inl rfl, Or.inl rfl⟩
  · simp only [Option.some.injEq] at h
    subst h
    exact ⟨Or.inl rfl, Or.inl rfl⟩
  · split at h
    · simp at h
    · simp only [Option.some.injEq] at h
      subst h
      exact ⟨Or.inr rfl, Or.inl rfl⟩
  · by_cases he : e = true
    · rw [if_pos he] at h
      split at h
      · simp at h
      · simp only [Option.some.injEq] at h
        subst h
        exact ⟨Or.inl rfl, Or.inr rfl⟩
    · rw [if_neg he] at h
      simp only [Option.some.injEq] at h
      subst h
      exact ⟨Or.inl rfl, Or.inl rfl⟩

/-- The victim of an ECLOCK pass is the page of a slot of the order. -/
theorem eclockPass_victim_slot (size : Nat) (order : Nat → Nat) (wantM clear : Bool) :
    ∀ (n : Nat) (tbl : Nat → PTE) (hand v : Nat), hand < size →
      (eclockPass size order wantM clear n tbl hand).2.2 = some v →
      ∃ i, i < size ∧ v = order i := by
  intro n
  induction n with
  | zero => intro tbl hand v _ h; simp [eclockPass] at h
  | succ n ih =>
    intro tbl hand v hh h
    rw [eclockPass] at h
    by_cases hc : (tbl (order hand)).r = false ∧ (tbl (order hand)).m = wantM
    · rw [if_pos hc] at h
      simp only [Option.some.injEq] at h
      exact ⟨hand, hh, h.symm⟩
    · rw [if_neg hc] at h
      exact ih _ _ v (Nat.mod_lt _ (by omega)) h

/-- The victim of the ECLOCK selection is the page of a slot of the order. -/
theorem eclockSelect_victim_slot (size : Nat) (order : Nat → Nat) (tbl : Nat → PTE)
    (hand v : Nat) (hh : hand < size) (h : (eclockSelect size order tbl hand).2.2 = some v) :
    ∃ i, i < size ∧ v = order i := by
  have h1 : (eclockStep1 size order tbl hand).2.1 < size :=
    (eclockPass_spec size order false false size tbl hand).2.2.2 hh
  have h2 : (eclockStep2 size order tbl hand).2.1 < size :=
    (eclockPass_spec size order true true size _ _).2.2.2 h1
  have h3 : (eclockStep3 size order tbl hand).2.1 < size :=
    (eclockPass_spec size order false false (size - 1) _ _).2.2.2 h2
  rw [eclockSelect_steps] at h
  split at h
  · exact eclockPass_victim_slot size order false false size tbl hand v hh h
  split at h
  · exact eclockPass_victim_slot size order true true size _ _ v h1 h
  split at h
  · exact eclockPass_victim_slot size order false false (size - 1) _ _ v h2 h
  · exact eclockPass_victim_slot size order true false (size - 1) _ _ v h3 h

/-- The victim of a replacement is one of the tracked entries of the order arrays. -/
theorem replacePage_victim_slot (c : Config) (e : Bool) (tbl : Nat → PTE) (m : Mem)
    (idx : Nat) (o : Outcome) (v : Nat) (hf : 0 < c.fcount) (hc : m.clock_hand < c.fcount)
    (he : m.eclock_hand < c.fcount) (h : replacePage c e tbl m idx = some o)
    (hv : o.victim = some v) :
    ∃ i, i < c.fcount ∧ (v = m.fifo_order i ∨ v = m.lru_order i ∨
      v = m.clock_hand_order i ∨ v = m.eclock_hand_order i) := by
  unfold replacePage at h
  split at h
  · simp only [Option.some.injEq] at h
    subst h
    simp only [Option.some.injEq] at hv
    exact ⟨0, hf, Or.inl hv.symm⟩
  · simp only [Option.some.injEq] at h
    subst h
    simp only [Option.some.injEq] at hv
    exact ⟨c.fcount - 1, by omega, Or.inr (Or.inl hv.symm)⟩
  · split at h
    · simp at h
    · rename_i tbl0 hand w hsel
      simp only [Option.some.injEq] at h
      subst h
      simp only [Option.some.injEq] at hv
      subst hv
      obtain ⟨-, -, a3, a4, -⟩ := clockSelect_spec _ _ _ _ _ _ _ _ hsel
      exact ⟨hand, a3 hc, Or.inr (Or.inr (Or.inl a4))⟩
  · by_cases hE : e = true
    · rw [if_pos hE] at h
      split at h
      · simp at h
      · rename_i tbl0 hand w hsel
        simp only [Option.some.injEq] at h
        subst h
        simp only [Option.some.injEq] at hv
        subst hv
        obtain ⟨i, hi, hiv⟩ := eclockSelect_victim_slot c.fcount m.eclock_hand_order tbl
          m.eclock_hand w he (by rw [hsel])
        exact ⟨i, hi, Or.inr (Or.inr (Or.inr hiv))⟩
    · rw [if_neg hE] at h
      simp only [Option.some.injEq] at h
      subst h
      simp at hv

/-- The order arrays and the victim of a reference. -/
theorem translateRef_hand_orders (c : Config) (e : Bool) (tbl : Nat → PTE) (m : Mem)
    (idx : Nat) (ref : Ref) (tbl1 : Nat → PTE) (m1 : Mem) (rec : Record)
    (hf : 0 < c.fcount) (hc : m.clock_hand < c.fcount) (he : m.eclock_hand < c.fcount)
    (h : translateRef c e tbl m idx ref = some (tbl1, m1, rec)) :
    (m1.clock_hand_order = m.clock_hand_order ∨
      m1.clock_hand_order = shiftIn c.fcount m.clock_hand_order idx) ∧
    (m1.eclock_hand_order = m.eclock_hand_order ∨
      m1.eclock_hand_order = shiftIn c.fcount m.eclock_hand_order idx) ∧
    (∀ v, rec.victim = some v →
      ∃ i, i < c.fcount ∧ (v = m.fifo_order i ∨ v = m.lru_order i ∨
        v = m.clock_hand_order i ∨ v = m.eclock_hand_order i)) := by
  obtain ⟨o, ho, hs, -, -, -, -, -, -, -, -, r5⟩ := translateRef_some _ _ _ _ _ _ _ _ _ h
  obtain ⟨-, -, s3, -, -⟩ := storeByte_spec _ _ _ _ _ _ hs
  have e1 : m1.clock_hand_order = o.mem.clock_hand_order := by rw [s3]
  have e2 : m1.eclock_hand_order = o.mem.eclock_hand_order := by rw [s3]
  rw [e1, e2, r5]
  rcases lookup_cases _ _ _ _ _ _ ho with ⟨-, rfl⟩ | ⟨-, -, rfl⟩ | ⟨-, -, hr⟩
  · exact ⟨Or.inl rfl, Or.inl rfl, fun v hv => by simp [pageHit] at hv⟩
  · exact ⟨Or.inl rfl, Or.inl rfl, fun v hv => by simp [loadFree] at hv⟩
  · obtain ⟨a1, a2⟩ := replacePage_hand_orders _ _ _ _ _ _ hr
    exact ⟨a1, a2, fun v hv => replacePage_victim_slot c e tbl
      { m with pfault_count := m.pfault_count + 1 } idx o v hf hc he hr hv⟩

theorem shiftIn_bound (n : Nat) (a : Nat → Nat) (x b : Nat) (hx : x < b)
    (ha : ∀ i, i < n → a i < b) : ∀ i, i < n → shiftIn n a x i < b := by
  intro i hi
  rw [shiftIn_apply]
  by_cases h1 : i = n - 1
  · rw [if_pos h1]; exact hx
  · rw [if_neg h1, if_pos (by omega)]
    exact ha (i + 1) (by omega)

theorem update_lru_order_bound (n : Nat) (a : Nat → Nat) (x b : Nat) (hx : x < b)
    (ha : ∀ i, i < n → a i < b) : ∀ i, i < n → update_lru_order a x n i < b := by
  intro i hi
  rw [update_lru_order_apply]
  by_cases h0 : i = 0
  · rw [if_pos h0]; exact hx
  · rw [if_neg h0]
    split
    · split
      · exact ha (i - 1) (by omega)
      · exact ha i hi
    · split
      · exact ha (i - 1) (by omega)
      · exact ha i hi

theorem OrdBound_init (c : Config) (swap0 : Nat → Nat) (hf : c.fcount ≤ 1024) :
    OrdBound c (init c swap0) := by
  intro i hi
  simp only [init, if_pos hi]
  omega

theorem OrdBound_age (c : Config) (i : Nat) (s : State) (h : OrdBound c s) :
    OrdBound c (age c i s) := by
  intro j hj
  have hm := age_toMem c i s
  have e1 : (age c i s).fifo_order = s.fifo_order := congrArg Mem.fifo_order hm
  have e2 : (age c i s).lru_order = s.lru_order := congrArg Mem.lru_order hm
  have e3 : (age c i s).clock_hand_order = s.clock_hand_order :=
    congrArg Mem.clock_hand_order hm
  have e4 : (age c i s).eclock_hand_order = s.eclock_hand_order :=
    congrArg Mem.eclock_hand_order hm
  rw [e1, e2, e3, e4]
  exact h j hj

/-- A reference of level 1 to a page below 1024 keeps `OrdBound`. -/
theorem OrdBound_step (c : Config) (s s1 : State) (ref : Ref) (rec : Record)
    (hl : c.level = 1) (hw : WF c s) (hp : vpnOf ref.addr < 1024) (hi : OrdBound c s)
    (h : handle c s ref = some (s1, rec)) : OrdBound c s1 := by
  rcases handle_cases _ _ _ _ _ h with ⟨-, tbl, m, htr, rfl⟩ | ⟨h2, -⟩
  · obtain ⟨o1, o2, -⟩ := translateRef_orders _ _ _ _ _ _ _ _ _ htr
    obtain ⟨o3, o4, -⟩ := translateRef_hand_orders _ _ _ _ _ _ _ _ _
      (Nat.lt_of_le_of_lt (Nat.zero_le _) hw.1) hw.1 hw.2.1 htr
    intro j hj
    refine ⟨?_, ?_, ?_, ?_⟩
    · show m.fifo_order j < 1024
      rcases o1 with o | o
      · rw [o]; exact (hi j hj).1
      · rw [o]; exact shiftIn_bound _ _ _ _ hp (fun i hi2 => (hi i hi2).1) j hj
    · show m.lru_order j < 1024
      rcases o2 with o | o
      · rw [o]; exact (hi j hj).2.1
      · rw [o]; exact update_lru_order_bound _ _ _ _ hp (fun i hi2 => (hi i hi2).2.1) j hj
    · show m.clock_hand_order j < 1024
      rcases o3 with o | o
      · rw [o]; exact (hi j hj).2.2.1
      · rw [o]; exact shiftIn_bound _ _ _ _ hp (fun i hi2 => (hi i hi2).2.2.1) j hj
    · show m.eclock_hand_order j < 1024
      rcases o4 with o | o
      · rw [o]; exact (hi j hj).2.2.2
      · rw [o]; exact shiftIn_bound _ _ _ _ hp (fun i hi2 => (hi i hi2).2.2.2) j hj
  · omega

theorem InBounds_of (c : Config) (s : State) (hw : WF c s) (ho : OrdBound c s) :
    InBounds c s :=
  ⟨hw.1, hw.2.1, hw.2.2.1, hw.2.2.2.1.1, ho⟩

theorem vpnOf_lt (a : Nat) (h : a < 65536) : vpnOf a < 1024 := by
  rw [vpnOf_eq_div]
  omega

/-! # Claims -/

/-- C1. Address translation: for every address `a` below 65536, level 1 gives
`outer = a >> 6`, `inner = 0`, `offset = a & 63`; level 2 gives `outer = (a >> 6) >> 5`,
`inner = (a >> 6) & 31`, `offset = a & 63`, with `outer < 32`, `inner < 32`, `offset < 64`
and `outer * 32 + inner = a >> 6`. -/
theorem translation_correct (a : Nat) (h : a < 65536) :
    (pte1Of 1 a = a >>> 6 ∧ pte2Of 1 a = 0 ∧ offsetOf a = a &&& 63) ∧
    (pte1Of 2 a = (a >>> 6) >>> 5 ∧ pte2Of 2 a = (a >>> 6) &&& 31 ∧ offsetOf a = a &&& 63) ∧
    pte1Of 2 a < 32 ∧ pte2Of 2 a < 32 ∧ offsetOf a < 64 ∧
    pte1Of 2 a * 32 + pte2Of 2 a = a >>> 6 := by
  have e1 : pte1Of 2 a = a / 64 / 32 := by
    simp [pte1Of, vpnOf_eq_div, Nat.shiftRight_eq_div_pow]
  have e2 : pte2Of 2 a = a / 64 % 32 := by
    simp only [pte2Of, vpnOf_eq_div]
    exact Nat.and_pow_two_sub_one_eq_mod (a / 64) 5
  have e3 : a >>> 6 = a / 64 := by rw [Nat.shiftRight_eq_div_pow]
  refine ⟨⟨by simp [pte1Of, vpnOf], by simp [pte2Of], rfl⟩,
    ⟨by simp [pte1Of, vpnOf], by simp [pte2Of, vpnOf], rfl⟩, ?_, ?_, offsetOf_lt a, ?_⟩
  · rw [e1]; omega
  · rw [e2]; omega
  · rw [e1, e2, e3]; omega

/-- C1 at the address `0xABCD`: outer `0x15`, inner `0x0F`, offset `0x0D`. -/
theorem translation_correct_witness :
    (0xABCD : Nat) < 65536 ∧
    ((pte1Of 1 0xABCD = 0xABCD >>> 6 ∧ pte2Of 1 0xABCD = 0 ∧ offsetOf 0xABCD = 0xABCD &&& 63) ∧
    (pte1Of 2 0xABCD = (0xABCD >>> 6) >>> 5 ∧ pte2Of 2 0xABCD = (0xABCD >>> 6) &&& 31 ∧
      offsetOf 0xABCD = 0xABCD &&& 63) ∧
    pte1Of 2 0xABCD < 32 ∧ pte2Of 2 0xABCD < 32 ∧ offsetOf 0xABCD < 64 ∧
    pte1Of 2 0xABCD * 32 + pte2Of 2 0xABCD = 0xABCD >>> 6) :=
  ⟨by decide, translation_correct 0xABCD (by decide)⟩

/-- C7. Hits never count as faults: in either mode and in every state in which the entry of
the page of `a` is valid, a read of any address `b` of that page is handled, leaves the fault
counter as it is, is recorded as not a fault and leaves the entry valid; and any run of
reads of addresses of that page, started at any reference number `i` (so across any aging
steps), is defined, leaves the fault counter as it is and records no fault. -/
theorem hits_never_fault (c : Config) (s : State) (a : Nat)
    (hl : c.level = 1 ∨ c.level = 2) (hv : (entryOf c s a).v = true) :
    (∀ b, vpnOf b = vpnOf a →
      ∃ s1 rec, handle c s (rd b) = some (s1, rec) ∧ s1.pfault_count = s.pfault_count ∧
        rec.pageFault = false ∧ (entryOf c s1 a).v = true) ∧
    (∀ (bs : List Nat) (i : Nat), (∀ b ∈ bs, vpnOf b = vpnOf a) →
      ∃ s1 log, run c i s (bs.map rd) = some (s1, log) ∧
        s1.pfault_count = s.pfault_count ∧ (∀ e ∈ log, e.pageFault = false) ∧
        (entryOf c s1 a).v = true) := by
  refine ⟨fun b hb => handle_hit_read c s a (rd b) hl hv hb (rd_type b), ?_⟩
  intro bs
  induction bs generalizing s with
  | nil =>
    intro i _
    exact ⟨s, [], rfl, rfl, by simp, hv⟩
  | cons b rest ih =>
    intro i hb
    have hv1 : (entryOf c (age c i s) a).v = true := by rw [entryOf_age]; exact hv
    obtain ⟨s1, rec, h1, h2, h3, h4⟩ := handle_hit_read c (age c i s) a (rd b) hl hv1
      (hb b (List.mem_cons_self _ _)) (rd_type b)
    obtain ⟨s2, log, g1, g2, g3, g4⟩ := ih s1 h4 (i + 1)
      (fun x hx => hb x (List.mem_cons_of_mem _ hx))
    refine ⟨s2, rec :: log, run_cons_eq c i s s1 s2 (rd b) _ rec log h1 g1, ?_, ?_, g4⟩
    · rw [g2, h2]
      exact congrArg Mem.pfault_count (age_toMem c i s)
    · intro e he
      rcases List.mem_cons.mp he with rfl | he
      · exact h3
      · exact g3 e he

/-- C7 after the references `r 0x0040, r 0x0080` in two-level mode under CLOCK with tick 2:
three more reads of page 1, which cross two aging steps, leave the fault counter as it is. -/
theorem hits_never_fault_witness :
    ((exConfig 2 Algo.CLOCK).level = 1 ∨ (exConfig 2 Algo.CLOCK).level = 2) ∧
    (entryOf (exConfig 2 Algo.CLOCK)
      (stateAfter (exConfig 2 Algo.CLOCK) zeroSwap [rd 0x40, rd 0x80]) 0x40).v = true ∧
    ∃ s1 log, run (exConfig 2 Algo.CLOCK) 2
        (stateAfter (exConfig 2 Algo.CLOCK) zeroSwap [rd 0x40, rd 0x80])
        ([0x41, 0x7f, 0x40].map rd) = some (s1, log) ∧
      s1.pfault_count
        = (stateAfter (exConfig 2 Algo.CLOCK) zeroSwap [rd 0x40, rd 0x80]).pfault_count ∧
      (∀ e ∈ log, e.pageFault = false) ∧
      (entryOf (exConfig 2 Algo.CLOCK) s1 0x40).v = true :=
  ⟨by decide, by decide!,
    (hits_never_fault (exConfig 2 Algo.CLOCK)
      (stateAfter (exConfig 2 Algo.CLOCK) zeroSwap [rd 0x40, rd 0x80]) 0x40
      (by decide) (by decide!)).2 [0x41, 0x7f, 0x40] 2 (by decide)⟩

/-- C10. Frame allocation is ascending and monotonic, in either mode: a run from the initial
state is defined (level 1, and level 2 under FIFO, LRU and CLOCK), and in every run the
`k`-th fault for `k < fcount` does not take the replacement branch, has no victim and gets
frame `k`, every later fault takes the replacement branch, the free-frame cursor is at most
`fcount`, and it does not decrease and stays at most `fcount` in any continuation. -/
theorem frame_allocation_ascending (c : Config) (swap0 : Nat → Nat) (refs : List Ref)
    (hl : c.level = 1 ∨ c.level = 2) (hf : 4 ≤ c.fcount ∧ c.fcount ≤ 128) :
    ((c.level = 1 ∨ c.algo ≠ Algo.ECLOCK) →
      ∃ s1 log, run c 0 (init c swap0) refs = some (s1, log)) ∧
    ∀ s1 log, run c 0 (init c swap0) refs = some (s1, log) →
      (∀ k e, (faultsOf log)[k]? = some e →
        (k < c.fcount → e.replaced = false ∧ e.victim = none ∧ e.pfn = (k : Int)) ∧
        (c.fcount ≤ k → e.replaced = true)) ∧
      s1.next_empty_frame ≤ c.fcount ∧
      (∀ more i s2 log2, run c i s1 more = some (s2, log2) →
        s1.next_empty_frame ≤ s2.next_empty_frame ∧ s2.next_empty_frame ≤ c.fcount) := by
  have hw0 := init_WF c swap0 (by omega : 0 < c.fcount)
  constructor
  · intro hok
    apply run_total c (fun _ => by omega) (by omega) _ refs 0 _ hw0
    rcases hok with h1 | h2
    · exact Or.inl h1
    · rcases hl with h1 | h1
      · exact Or.inl h1
      · exact Or.inr ⟨h1, h2⟩
  · intro s1 log hr
    have hi := run_induct c (CountInv c) (fun _ => True) (CountInv_age c)
      (fun h s ref s1 rec _ hi hh => CountInv_step c h s ref s1 rec hi hh)
      refs [] 0 _ s1 log (fun _ _ => trivial) (CountInv_init c swap0) hr
    rw [List.nil_append] at hi
    obtain ⟨w1, -⟩ := run_WF c (by omega) (by omega) refs 0 _ s1 log hw0 hr
    refine ⟨hi.2.2, w1.2.2.1, ?_⟩
    intro more i s2 log2 hr2
    obtain ⟨w2, n2⟩ := run_WF c (by omega) (by omega) more i s1 s2 log2 w1 hr2
    exact ⟨n2, w2.2.2.1⟩

/-- C10 on six references to six pages in two-level mode under LRU: the run is defined. -/
theorem frame_allocation_ascending_witness :
    ((exConfig 2 Algo.LRU).level = 1 ∨ (exConfig 2 Algo.LRU).level = 2) ∧
    (4 ≤ (exConfig 2 Algo.LRU).fcount ∧ (exConfig 2 Algo.LRU).fcount ≤ 128) ∧
    ∃ s1 log, run (exConfig 2 Algo.LRU) 0 (init (exConfig 2 Algo.LRU) zeroSwap)
      [rd 0x0, rd 0x840, wr 0x1080 7, rd 0x18c0, rd 0x840, rd 0x2100, rd 0x2940]
        = some (s1, log) :=
  ⟨by decide, by decide,
    (frame_allocation_ascending (exConfig 2 Algo.LRU) zeroSwap
      [rd 0x0, rd 0x840, wr 0x1080 7, rd 0x18c0, rd 0x840, rd 0x2100, rd 0x2940]
      (by decide) (by decide)).1 (by decide)⟩

/-- C9. Reported frame and physical address in level 1: for `fcount` in [4,128], each policy
and every trace of 16-bit addresses, the run from the initial state is defined and has one
record per reference; for every reference the page number is below 1024, the reported frame
is the `frame` field of the entry of the referenced page after the reference, it is in
`[0, fcount)`, and the reported physical address is `frame * 64 + offset`, in
`[0, fcount * 64)`. -/
theorem reported_frame_and_address (c : Config) (swap0 : Nat → Nat) (refs : List Ref)
    (hl : c.level = 1) (hf : 4 ≤ c.fcount ∧ c.fcount ≤ 128)
    (h16 : ∀ r ∈ refs, r.addr < 65536) :
    ∃ sf log, run c 0 (init c swap0) refs = some (sf, log) ∧ log.length = refs.length ∧
      ∀ t, t < refs.length →
        ∃ ref s e s1, refs[t]? = some ref ∧ log[t]? = some e ∧
          stepAt c swap0 refs t = some (s, e, s1) ∧
          ref.addr >>> 6 < 1024 ∧ e.addr = ref.addr ∧ e.offset = ref.addr &&& 63 ∧
          e.pfn = ((s1.pt (ref.addr >>> 6)).frame : Int) ∧
          0 ≤ e.pfn ∧ e.pfn < (c.fcount : Int) ∧
          e.pa = e.pfn * 64 + (e.offset : Int) ∧ 0 ≤ e.pa ∧ e.pa < (c.fcount : Int) * 64 := by
  obtain ⟨sf, log, hr⟩ := run_total c (fun _ => by omega) (by omega) (Or.inl hl) refs 0 _
    (init_WF c swap0 (by omega))
  refine ⟨sf, log, hr, run_length c _ _ _ _ _ hr, ?_⟩
  intro t ht
  obtain ⟨s0, ref, e, s1, g1, g2, g3, g4, g5, -⟩ := stepAt_of_run c swap0 refs sf log hr t ht
  have hw := stepAt_WF c swap0 refs t (by omega) (by omega) _ _ _ g4
  obtain ⟨a1, a2, a3, -, a5, a6, a7, a8, a9⟩ :=
    handle_reported c _ s1 ref e hl (by omega) (by omega) hw g3
  have hmem : ref ∈ refs := List.getElem?_mem g1
  have hv : ref.addr >>> 6 < 1024 := by
    have := h16 ref hmem
    rw [Nat.shiftRight_eq_div_pow]
    omega
  exact ⟨ref, _, e, s1, g1, g5, g4, hv, a1, a2, a3, a5, a6, a7, a8, a9⟩

/-- C9 on a trace with hits, faults and evictions under ECLOCK. -/
theorem reported_frame_and_address_witness :
    (exConfig 1 Algo.ECLOCK).level = 1 ∧
    (4 ≤ (exConfig 1 Algo.ECLOCK).fcount ∧ (exConfig 1 Algo.ECLOCK).fcount ≤ 128) ∧
    (∀ r ∈ [rd 0x0, wr 0x47 9, rd 0x80, rd 0xc0, rd 0x47, rd 0x100, wr 0x140 3],
      r.addr < 65536) ∧
    ∃ sf log, run (exConfig 1 Algo.ECLOCK) 0 (init (exConfig 1 Algo.ECLOCK) zeroSwap)
        [rd 0x0, wr 0x47 9, rd 0x80, rd 0xc0, rd 0x47, rd 0x100, wr 0x140 3] = some (sf, log) ∧
      log.length = 7 :=
  ⟨by decide, by decide, by decide,
    (reported_frame_and_address (exConfig 1 Algo.ECLOCK) zeroSwap
      [rd 0x0, wr 0x47 9, rd 0x80, rd 0xc0, rd 0x47, rd 0x100, wr 0x140 3]
      (by decide) (by decide) (by decide)).imp
      (fun _ h => h.imp (fun _ h2 => ⟨h2.1, h2.2.1⟩))⟩

/-- C8, as the code has it: in level 1, for `fcount` in [4,128] and each policy, every
reference of a run from the initial state is handled, and when it is a fault served by
replacement it has a victim whose entry is not invalidated: unless the victim is the
faulting page itself, its valid bit and frame are what they were before the reference, and
if the victim was valid a read of any address of the victim page at any later reference
number is a hit. -/
theorem eviction_keeps_victim_valid (c : Config) (swap0 : Nat → Nat) (refs : List Ref)
    (hl : c.level = 1) (hf : 4 ≤ c.fcount ∧ c.fcount ≤ 128) :
    ∃ sf log, run c 0 (init c swap0) refs = some (sf, log) ∧
      ∀ t, t < refs.length →
        ∃ ref s e s1, refs[t]? = some ref ∧ log[t]? = some e ∧
          stepAt c swap0 refs t = some (s, e, s1) ∧
          (e.replaced = true →
            ∃ v, e.victim = some v ∧
              (v ≠ vpnOf ref.addr →
                (s1.pt v).v = (s.pt v).v ∧ (s1.pt v).frame = (s.pt v).frame) ∧
              ((s.pt v).v = true →
                (s1.pt v).v = true ∧
                ∀ b i, vpnOf b = v →
                  ∃ s2 e2, handle c (age c i s1) (rd b) = some (s2, e2) ∧
                    e2.pageFault = false)) := by
  obtain ⟨sf, log, hr⟩ := run_total c (fun _ => by omega) (by omega) (Or.inl hl) refs 0 _
    (init_WF c swap0 (by omega))
  refine ⟨sf, log, hr, ?_⟩
  intro t ht
  obtain ⟨s0, ref, e, s1, g1, g2, g3, g4, g5, -⟩ := stepAt_of_run c swap0 refs sf log hr t ht
  have hw := stepAt_WF c swap0 refs t (by omega) (by omega) _ _ _ g4
  refine ⟨ref, _, e, s1, g1, g5, g4, ?_⟩
  intro hrep
  rcases handle_cases _ _ _ _ _ g3 with ⟨-, tbl, m, htr, rfl⟩ | ⟨h2, -⟩
  · obtain ⟨-, e2⟩ := translateRef_entry _ _ _ _ _ _ _ _ _ (by omega) hw.2.2.2.1 htr
    rcases e2 hrep with ⟨a1, -⟩ | ⟨v, a1, a2, a3, -, -⟩
    · simp at a1
    · have hkeep : ((age c t s0).pt v).v = true → (tbl v).v = true := by
        intro hv
        by_cases hvp : v = vpnOf ref.addr
        · rw [hvp]; exact a3
        · rw [(a2 v hvp).1]; exact hv
      refine ⟨v, a1, fun hne => ⟨(a2 v hne).1, (a2 v hne).2.1⟩, fun hv => ⟨hkeep hv, ?_⟩⟩
      intro b i hb
      have hent : (entryOf c (age c i { age c t s0 with toMem := m, pt := tbl }) b).v
          = true := by
        rw [entryOf_age]
        simp only [entryOf, if_pos hl, hb]
        exact hkeep hv
      obtain ⟨s2, e2, k1, -, k3, -⟩ := handle_hit_read c _ b (rd b) (Or.inl hl) hent rfl
        (rd_type b)
      exact ⟨s2, e2, k1, k3⟩
  · omega

/-- C8 (as amended) on the trace of the FIFO scenario, followed by a reference to the
evicted page. -/
theorem eviction_keeps_victim_valid_witness :
    (exConfig 1 Algo.FIFO).level = 1 ∧
    (4 ≤ (exConfig 1 Algo.FIFO).fcount ∧ (exConfig 1 Algo.FIFO).fcount ≤ 128) ∧
    ∃ sf log, run (exConfig 1 Algo.FIFO) 0 (init (exConfig 1 Algo.FIFO) zeroSwap)
      [rd 0x0, rd 0x40, rd 0x80, rd 0xc0, rd 0x100, rd 0x0] = some (sf, log) :=
  ⟨by decide, by decide,
    (eviction_keeps_victim_valid (exConfig 1 Algo.FIFO) zeroSwap
      [rd 0x0, rd 0x40, rd 0x80, rd 0xc0, rd 0x100, rd 0x0] (by decide) (by decide)).imp
      (fun _ h => h.imp (fun _ h2 => h2.1))⟩

/-- C8 as stated fails: under FIFO with four frames, the fifth reference of
`r 0x0000, r 0x0040, r 0x0080, r 0x00C0, r 0x0100` is served by replacement with victim
page 0, the entry of page 0 is still valid afterwards, and a following reference to page 0
is not a fault. -/
theorem eviction_invalidates_victim_counterexample :
    (stepAt (exConfig 1 Algo.FIFO) zeroSwap
        [rd 0x0, rd 0x40, rd 0x80, rd 0xc0, rd 0x100, rd 0x0] 4).map
      (fun x => (x.2.1.replaced, x.2.1.victim, (x.2.2.pt 0).v)) = some (true, some 0, true) ∧
    (stepAt (exConfig 1 Algo.FIFO) zeroSwap
        [rd 0x0, rd 0x40, rd 0x80, rd 0xc0, rd 0x100, rd 0x0] 5).map
      (fun x => x.2.1.pageFault) = some false := by
  decide!

/-- C5, as the code has it: in either mode, for each policy and `fcount` in [4,128], a run
from the initial state is defined (level 1, and level 2 under FIFO, LRU and CLOCK), and in
the state reached by a run in which no reference has taken the replacement branch, no two
page-table entries with `v = 1` hold the same frame number. -/
theorem frame_exclusive_before_replacement (c : Config) (swap0 : Nat → Nat)
    (refs : List Ref) (hl : c.level = 1 ∨ c.level = 2)
    (hf : 4 ≤ c.fcount ∧ c.fcount ≤ 128) :
    ((c.level = 1 ∨ c.algo ≠ Algo.ECLOCK) →
      ∃ s log, run c 0 (init c swap0) refs = some (s, log)) ∧
    ∀ s log, run c 0 (init c swap0) refs = some (s, log) →
      (∀ e ∈ log, e.replaced = false) → FrameExclusive s := by
  have hw0 := init_WF c swap0 (by omega : 0 < c.fcount)
  constructor
  · intro hok
    apply run_total c (fun _ => by omega) (by omega) _ refs 0 _ hw0
    rcases hok with h1 | h2
    · exact Or.inl h1
    · rcases hl with h1 | h1
      · exact Or.inl h1
      · exact Or.inr ⟨h1, h2⟩
  · intro s log hr hno
    have hi := run_induct c
      (fun h s => WF c s ∧ ((∀ e ∈ h, e.replaced = false) → FrameExclusive s))
      (fun _ => True)
      (fun h s i hi => ⟨age_WF c i s hi.1, fun hh => FrameExclusive_age c i s (hi.2 hh)⟩)
      (fun h s ref s1 rec _ hi hh =>
        ⟨(handle_WF c s s1 ref rec (by omega) (by omega) hi.1 hh).1, fun hno1 =>
          handle_noreplace_excl c s s1 ref rec (by omega) hi.1
            (hi.2 (fun e he => hno1 e (List.mem_append_left _ he))) hh
            (hno1 rec (by simp))⟩)
      refs [] 0 _ s log (fun _ _ => trivial)
      ⟨hw0, fun _ => FrameExclusive_init c swap0⟩ hr
    rw [List.nil_append] at hi
    exact hi.2 hno

/-- C5 (as amended) on four references to four pages in two different outer tables. -/
theorem frame_exclusive_before_replacement_witness :
    ((exConfig 2 Algo.CLOCK).level = 1 ∨ (exConfig 2 Algo.CLOCK).level = 2) ∧
    (4 ≤ (exConfig 2 Algo.CLOCK).fcount ∧ (exConfig 2 Algo.CLOCK).fcount ≤ 128) ∧
    ∃ s log, run (exConfig 2 Algo.CLOCK) 0 (init (exConfig 2 Algo.CLOCK) zeroSwap)
      [rd 0x0, rd 0x840, wr 0x40 5, rd 0x880, rd 0x0] = some (s, log) :=
  ⟨by decide, by decide,
    (frame_exclusive_before_replacement (exConfig 2 Algo.CLOCK) zeroSwap
      [rd 0x0, rd 0x840, wr 0x40 5, rd 0x880, rd 0x0] (by decide) (by decide)).1
      (by decide)⟩

/-- C5 as stated fails: under FIFO with four frames in level 1, after
`r 0x0000, r 0x0040, r 0x0080, r 0x00C0, r 0x0100` the entries of page 0 and page 4 are
both valid and both hold frame 0. -/
theorem frame_exclusivity_counterexample :
    (run (exConfig 1 Algo.FIFO) 0 (init (exConfig 1 Algo.FIFO) zeroSwap)
      [rd 0x0, rd 0x40, rd 0x80, rd 0xc0, rd 0x100]).isSome = true ∧
    ¬ FrameExclusive (stateAfter (exConfig 1 Algo.FIFO) zeroSwap
      [rd 0x0, rd 0x40, rd 0x80, rd 0xc0, rd 0x100]) := by
  have v0 : ((stateAfter (exConfig 1 Algo.FIFO) zeroSwap
      [rd 0x0, rd 0x40, rd 0x80, rd 0xc0, rd 0x100]).pt 0).v = true := by decide!
  have v4 : ((stateAfter (exConfig 1 Algo.FIFO) zeroSwap
      [rd 0x0, rd 0x40, rd 0x80, rd 0xc0, rd 0x100]).pt 4).v = true := by decide!
  have f0 : ((stateAfter (exConfig 1 Algo.FIFO) zeroSwap
      [rd 0x0, rd 0x40, rd 0x80, rd 0xc0, rd 0x100]).pt 0).frame = 0 := by decide!
  have f4 : ((stateAfter (exConfig 1 Algo.FIFO) zeroSwap
      [rd 0x0, rd 0x40, rd 0x80, rd 0xc0, rd 0x100]).pt 4).frame = 0 := by decide!
  refine ⟨by decide!, ?_⟩
  generalize stateAfter (exConfig 1 Algo.FIFO) zeroSwap
      [rd 0x0, rd 0x40, rd 0x80, rd 0xc0, rd 0x100] = s at v0 v4 f0 f4 ⊢
  intro h
  have h1 : entryAt s none 0 = some (s.pt 0) := rfl
  have h2 : entryAt s none 4 = some (s.pt 4) := rfl
  have := (h none 0 none 4 (s.pt 0) (s.pt 4) h1 h2 v0 v4 (f0.trans f4.symm)).2
  omega

/-- C2. FIFO eviction order in level 1: for `fcount` in [4,128] and every trace of 16-bit
addresses, the run from the initial state under FIFO is defined, and the `j`-th fault that
takes the replacement branch evicts the page of the `j`-th fault of the run, whose frame was
`j mod fcount`, and gets that frame; this holds whatever hits lie in between.  In
particular, with four frames the trace `r 0x0000, r 0x0040, r 0x0080, r 0x00C0, r 0x0100`
gives four faults that fill frames 0, 1, 2, 3 with pages 0, 1, 2, 3, then page 4 faults,
evicts page 0, whose `m` bit is 0 so that nothing is written back, and gets frame 0; the
fault counter ends at 5. -/
theorem fifo_eviction_order (c : Config) (swap0 : Nat → Nat) (refs : List Ref)
    (hl : c.level = 1) (hA : c.algo = Algo.FIFO) (hf : 4 ≤ c.fcount ∧ c.fcount ≤ 128)
    (h16 : ∀ r ∈ refs, r.addr < 65536) :
    (∃ sf log, run c 0 (init c swap0) refs = some (sf, log) ∧
      (∀ e ∈ log, e.addr >>> 6 < 1024) ∧
      ∀ j e, (evictionsOf log)[j]? = some e →
        ∃ f, (faultsOf log)[j]? = some f ∧ e.pageFault = true ∧
          e.victim = some (f.addr >>> 6) ∧
          f.pfn = ((j % c.fcount : Nat) : Int) ∧ e.pfn = ((j % c.fcount : Nat) : Int)) ∧
    (run (exConfig 1 Algo.FIFO) 0 (init (exConfig 1 Algo.FIFO) zeroSwap)
        [rd 0x0000, rd 0x0040, rd 0x0080, rd 0x00C0, rd 0x0100]).map
      (fun x => x.2.map (fun e => e.addr >>> 6)) = some [0, 1, 2, 3, 4] ∧
    (run (exConfig 1 Algo.FIFO) 0 (init (exConfig 1 Algo.FIFO) zeroSwap)
        [rd 0x0000, rd 0x0040, rd 0x0080, rd 0x00C0, rd 0x0100]).map
      (fun x => x.2.map (fun e => e.pageFault)) = some [true, true, true, true, true] ∧
    (run (exConfig 1 Algo.FIFO) 0 (init (exConfig 1 Algo.FIFO) zeroSwap)
        [rd 0x0000, rd 0x0040, rd 0x0080, rd 0x00C0, rd 0x0100]).map
      (fun x => x.2.map (fun e => e.pfn)) = some [0, 1, 2, 3, 0] ∧
    (run (exConfig 1 Algo.FIFO) 0 (init (exConfig 1 Algo.FIFO) zeroSwap)
        [rd 0x0000, rd 0x0040, rd 0x0080, rd 0x00C0, rd 0x0100]).map
      (fun x => x.2.map (fun e => e.victim)) = some [none, none, none, none, some 0] ∧
    (run (exConfig 1 Algo.FIFO) 0 (init (exConfig 1 Algo.FIFO) zeroSwap)
        [rd 0x0000, rd 0x0040, rd 0x0080, rd 0x00C0, rd 0x0100]).map
      (fun x => x.1.pfault_count) = some 5 ∧
    (stepAt (exConfig 1 Algo.FIFO) zeroSwap
        [rd 0x0000, rd 0x0040, rd 0x0080, rd 0x00C0, rd 0x0100] 4).map
      (fun x => ((x.1.pt 0).m, (x.1.pt 0).frame)) = some (false, 0) := by
  refine ⟨?_, by decide!, by decide!, by decide!, by decide!, by decide!, by decide!⟩
  have hw0 := init_WF c swap0 (by omega : 0 < c.fcount)
  obtain ⟨sf, log, hr⟩ := run_total c (fun _ => by omega) (by omega) (Or.inl hl) refs 0 _ hw0
  have hi := run_induct c
    (fun h s => WF c s ∧ FifoInv c h s ∧ (∀ e ∈ h, e.replaced = true → e.pageFault = true) ∧
      (∀ e ∈ h, e.addr >>> 6 < 1024))
    (fun r => r.addr < 65536)
    (fun h s i hi => ⟨age_WF c i s hi.1, FifoInv_age c h s i hi.2.1, hi.2.2⟩)
    (fun h s ref s1 rec hR hi hh =>
      ⟨(handle_WF c s s1 ref rec (by omega) (by omega) hi.1 hh).1,
        FifoInv_step c h s ref s1 rec hl hA (by omega) (by omega) hi.1 hi.2.1 hh,
        fun e he hrep => by
          rcases List.mem_append.mp he with he | he
          · exact hi.2.2.1 e he hrep
          · rw [List.mem_singleton] at he
            subst he
            rcases handle_counts _ _ _ _ _ hh with ⟨-, a2, -⟩ | ⟨-, a2, -⟩ | ⟨a1, -⟩
            · rw [a2] at hrep; simp at hrep
            · rw [a2] at hrep; simp at hrep
            · exact a1,
        fun e he => by
          rcases List.mem_append.mp he with he | he
          · exact hi.2.2.2 e he
          · rw [List.mem_singleton] at he
            subst he
            rcases handle_cases _ _ _ _ _ hh with ⟨-, tbl, m, ht, -⟩ | ⟨h2, -⟩
            · obtain ⟨-, -, -, r1, -⟩ := translateRef_some _ _ _ _ _ _ _ _ _ ht
              rw [r1, Nat.shiftRight_eq_div_pow]
              omega
            · omega⟩)
    refs [] 0 _ sf log h16
    ⟨hw0, FifoInv_init c swap0, fun _ he => by simp at he, fun _ he => by simp at he⟩ hr
  rw [List.nil_append] at hi
  obtain ⟨-, ⟨⟨-, -, k3⟩, -, k5⟩, k6, k7⟩ := hi
  refine ⟨sf, log, hr, k7, ?_⟩
  have hev : evictionsOf log = (faultsOf log).drop c.fcount := by
    have h1 : evictionsOf log = (faultsOf log).filter (fun e => e.replaced) := by
      unfold evictionsOf faultsOf
      rw [List.filter_filter]
      apply List.filter_congr
      intro e he
      by_cases hrep : e.replaced = true
      · simp [hrep, k6 e he hrep]
      · simp [hrep]
    rw [h1]
    apply filter_eq_drop
    intro k e hk
    obtain ⟨b1, b2⟩ := k3 k e hk
    constructor
    · intro hrep
      by_contra hlt
      have := (b1 (by omega)).1
      rw [this] at hrep
      simp at hrep
    · exact b2
  intro j e hj
  rw [hev, List.getElem?_drop] at hj
  obtain ⟨-, -, c3, c4⟩ := k5 _ e hj
  obtain ⟨f, f1, f2⟩ := c4 (by omega)
  rw [show c.fcount + j - c.fcount = j by omega] at f1
  obtain ⟨-, -, d3, -⟩ := k5 _ f f1
  have hmod : (c.fcount + j) % c.fcount = j % c.fcount := by
    rw [Nat.add_comm, Nat.add_mod_right]
  rw [hmod] at c3
  refine ⟨f, f1, k6 e ?_ ((k3 _ e hj).2 (by omega)), f2, d3, c3⟩
  exact List.mem_of_mem_filter (List.getElem?_mem hj)

/-- C2 on a trace with hits between the faults and two replacements. -/
theorem fifo_eviction_order_witness :
    (exConfig 1 Algo.FIFO).level = 1 ∧ (exConfig 1 Algo.FIFO).algo = Algo.FIFO ∧
    (4 ≤ (exConfig 1 Algo.FIFO).fcount ∧ (exConfig 1 Algo.FIFO).fcount ≤ 128) ∧
    (∀ r ∈ [rd 0x1000, rd 0x40, rd 0x1001, wr 0x80 1, rd 0xffff, rd 0x40, rd 0x100, rd 0x1000,
      rd 0x140], r.addr < 65536) ∧
    ∃ sf log, run (exConfig 1 Algo.FIFO) 0 (init (exConfig 1 Algo.FIFO) zeroSwap)
      [rd 0x1000, rd 0x40, rd 0x1001, wr 0x80 1, rd 0xffff, rd 0x40, rd 0x100, rd 0x1000,
        rd 0x140] = some (sf, log) :=
  ⟨by decide, by decide, by decide, by decide,
    (fifo_eviction_order (exConfig 1 Algo.FIFO) zeroSwap
      [rd 0x1000, rd 0x40, rd 0x1001, wr 0x80 1, rd 0xffff, rd 0x40, rd 0x100, rd 0x1000,
        rd 0x140] (by decide) (by decide) (by decide) (by decide)).1.imp
      (fun _ h => h.imp (fun _ h2 => h2.1))⟩

/-- C3. LRU victim selection in level 1: for every trace (also one that references a page
again after its eviction) the run from the initial state under LRU is defined; after every
reference, hit or fault, the referenced page is at the front of `lru_order`; and at every
fault served by replacement the victim is the last of the `fcount` tracked pages, it has
been referenced, and its most recent reference is older than that of every other tracked
page.  In particular, with two frames, references to pages 0, 1, 0, 2 give fault, fault,
hit, fault, and the victim of the last fault is page 1. -/
theorem lru_victim_selection (c : Config) (swap0 : Nat → Nat) (refs : List Ref)
    (hl : c.level = 1) (hA : c.algo = Algo.LRU) (hf : 1 ≤ c.fcount ∧ c.fcount ≤ 128) :
    (∃ sf log, run c 0 (init c swap0) refs = some (sf, log) ∧
      ∀ t, t < refs.length →
        ∃ ref s e s1, refs[t]? = some ref ∧ log[t]? = some e ∧
          stepAt c swap0 refs t = some (s, e, s1) ∧
          s1.lru_order 0 = ref.addr >>> 6 ∧
          (e.replaced = true →
            e.victim = some (s.lru_order (c.fcount - 1)) ∧
            0 < lastUse ((pagesOf refs).take t) (s.lru_order (c.fcount - 1)) ∧
            ∀ i, i < c.fcount - 1 →
              lastUse ((pagesOf refs).take t) (s.lru_order (c.fcount - 1))
                < lastUse ((pagesOf refs).take t) (s.lru_order i))) ∧
    (run { level := 1, fcount := 2, algo := Algo.LRU, tick := 100 } 0
        (init { level := 1, fcount := 2, algo := Algo.LRU, tick := 100 } zeroSwap)
        [rd 0x0000, rd 0x0040, rd 0x0000, rd 0x0080]).map
      (fun x => x.2.map (fun e => e.pageFault)) = some [true, true, false, true] ∧
    (run { level := 1, fcount := 2, algo := Algo.LRU, tick := 100 } 0
        (init { level := 1, fcount := 2, algo := Algo.LRU, tick := 100 } zeroSwap)
        [rd 0x0000, rd 0x0040, rd 0x0000, rd 0x0080]).map
      (fun x => x.2.map (fun e => e.victim)) = some [none, none, none, some 1] := by
  refine ⟨?_, by decide!, by decide!⟩
  obtain ⟨sf, log, hr⟩ := run_total c (fun h => by rw [hA] at h; cases h) (by omega)
    (Or.inl hl) refs 0 _ (init_WF c swap0 (by omega))
  refine ⟨sf, log, hr, ?_⟩
  intro t ht
  obtain ⟨s0, ref, e, s1, g1, g2, g3, g4, g5, -⟩ := stepAt_of_run c swap0 refs sf log hr t ht
  obtain ⟨l0, hi, hp⟩ := stepAt_LruInv c swap0 refs t hl hA (by omega) (by omega) _ _ _ g4
  refine ⟨ref, _, e, s1, g1, g5, g4, ?_, ?_⟩
  · rcases handle_cases _ _ _ _ _ g3 with ⟨-, tbl, m, ht1, rfl⟩ | ⟨h2, -⟩
    · have := (translateRef_lru _ _ _ _ _ _ _ _ _ ht1).1 (Or.inr hA)
      show m.lru_order 0 = _
      rw [this, update_lru_order_apply, if_pos rfl]
      rfl
    · omega
  · intro hrep
    obtain ⟨a1, a2, a3, -⟩ := lru_victim_facts c l0 _ ref s1 e hl hA (by omega) hi g3 hrep
    rw [hp] at a2 a3
    exact ⟨a1, a2, a3⟩

/-- C3 on a trace in which page 1 is referenced again after its eviction. -/
theorem lru_victim_selection_witness :
    (exConfig 1 Algo.LRU).level = 1 ∧ (exConfig 1 Algo.LRU).algo = Algo.LRU ∧
    (1 ≤ (exConfig 1 Algo.LRU).fcount ∧ (exConfig 1 Algo.LRU).fcount ≤ 128) ∧
    ∃ sf log, run (exConfig 1 Algo.LRU) 0 (init (exConfig 1 Algo.LRU) zeroSwap)
      [rd 0x40, rd 0x80, rd 0xc0, rd 0x40, rd 0x100, rd 0x140, rd 0x80, rd 0x180]
        = some (sf, log) :=
  ⟨by decide, by decide, by decide,
    (lru_victim_selection (exConfig 1 Algo.LRU) zeroSwap
      [rd 0x40, rd 0x80, rd 0xc0, rd 0x40, rd 0x100, rd 0x140, rd 0x80, rd 0x180]
      (by decide) (by decide) (by decide)).1.imp
      (fun _ h => h.imp (fun _ h2 => h2.1))⟩

/-- C4, as the code has it: in level 1 under LRU with `fcount` in [4,128], the run from the
initial state is defined and at every fault served by replacement the victim was not
referenced more recently than any other of the `fcount` pages in `lru_order` at that moment;
a valid page that was referenced less recently than the victim is not one of them. -/
theorem lru_recency_among_tracked (c : Config) (swap0 : Nat → Nat) (refs : List Ref)
    (hl : c.level = 1) (hA : c.algo = Algo.LRU) (hf : 4 ≤ c.fcount ∧ c.fcount ≤ 128) :
    ∃ sf log, run c 0 (init c swap0) refs = some (sf, log) ∧
      ∀ t, t < refs.length →
        ∃ s e s1, log[t]? = some e ∧ stepAt c swap0 refs t = some (s, e, s1) ∧
          (e.replaced = true →
            ∃ v, e.victim = some v ∧
              (∀ q, q ≠ v → (∃ i, i < c.fcount ∧ s.lru_order i = q) →
                lastUse ((pagesOf refs).take t) v < lastUse ((pagesOf refs).take t) q) ∧
              (∀ q, (s.pt q).v = true → q ≠ v →
                lastUse ((pagesOf refs).take t) q < lastUse ((pagesOf refs).take t) v →
                ¬ ∃ i, i < c.fcount ∧ s.lru_order i = q)) := by
  obtain ⟨sf, log, hr⟩ := run_total c (fun h => by rw [hA] at h; cases h) (by omega)
    (Or.inl hl) refs 0 _ (init_WF c swap0 (by omega))
  refine ⟨sf, log, hr, ?_⟩
  intro t ht
  obtain ⟨s0, ref, e, s1, g1, g2, g3, g4, g5, -⟩ := stepAt_of_run c swap0 refs sf log hr t ht
  obtain ⟨l0, hi, hp⟩ := stepAt_LruInv c swap0 refs t hl hA (by omega) (by omega) _ _ _ g4
  refine ⟨_, e, s1, g5, g4, ?_⟩
  intro hrep
  obtain ⟨a1, -, a3, a4⟩ := lru_victim_facts c l0 _ ref s1 e hl hA (by omega) hi g3 hrep
  rw [hp] at a3 a4
  refine ⟨_, a1, ?_, ?_⟩
  · rintro q hq ⟨i, hi1, hi2⟩
    have hi3 : i < c.fcount - 1 := by
      by_contra hge
      have : i = c.fcount - 1 := by omega
      subst this
      exact hq hi2.symm
    rw [← hi2]
    exact a3 i hi3
  · intro q hv hq hlt htr
    have := (a4 q hv hq).mp htr
    omega

/-- C4 (as amended) on six references to six pages. -/
theorem lru_recency_among_tracked_witness :
    (exConfig 1 Algo.LRU).level = 1 ∧ (exConfig 1 Algo.LRU).algo = Algo.LRU ∧
    (4 ≤ (exConfig 1 Algo.LRU).fcount ∧ (exConfig 1 Algo.LRU).fcount ≤ 128) ∧
    ∃ sf log, run (exConfig 1 Algo.LRU) 0 (init (exConfig 1 Algo.LRU) zeroSwap)
      [rd 0x40, rd 0x80, rd 0xc0, rd 0x100, rd 0x140, rd 0x180] = some (sf, log) :=
  ⟨by decide, by decide, by decide,
    (lru_recency_among_tracked (exConfig 1 Algo.LRU) zeroSwap
      [rd 0x40, rd 0x80, rd 0xc0, rd 0x100, rd 0x140, rd 0x180]
      (by decide) (by decide) (by decide)).imp
      (fun _ h => h.imp (fun _ h2 => h2.1))⟩

/-- C4 as stated fails: under LRU with four frames, in the trace of reads of pages
1, 2, 3, 4, 5, 6 the last fault evicts page 2 while the entry of page 1, evicted by the
fault before, is still valid, and page 1 was referenced before page 2. -/
theorem lru_recency_counterexample :
    (stepAt (exConfig 1 Algo.LRU) zeroSwap
        [rd 0x40, rd 0x80, rd 0xc0, rd 0x100, rd 0x140, rd 0x180] 5).map
      (fun x => (x.2.1.victim, (x.1.pt 1).v)) = some (some 2, true) ∧
    lastUse ((pagesOf [rd 0x40, rd 0x80, rd 0xc0, rd 0x100, rd 0x140, rd 0x180]).take 5) 1
      < lastUse ((pagesOf [rd 0x40, rd 0x80, rd 0xc0, rd 0x100, rd 0x140, rd 0x180]).take 5)
        2 := by
  decide!

/-- C6, as the code has it: in level 1, for each policy and `fcount` in [4,128], take a
trace `front`, then a write of `x` to address `a`, then references `mid`, then one more
reference `last`.  The run is defined.  Suppose no write of `mid` goes to offset `a & 63` of
the frame reported for the write of `x`, and no fault of `mid` is served by a replacement
that reuses that frame.  Then, if `last` is a read of the page of `a`, it is a hit that
reports the frame of the write and the byte at offset `a & 63` of that frame is `x mod 256`;
and if `last` evicts the page of `a`, byte `a & 63` of the place of that page in the swap
file is `x mod 256` right after it.  Nothing is said about the frame once a replacement has
reused it. -/
theorem write_survives_until_reuse (c : Config) (swap0 : Nat → Nat) (front mid : List Ref)
    (a x : Nat) (last : Ref) (hl : c.level = 1) (hf : 4 ≤ c.fcount ∧ c.fcount ≤ 128) :
    ∃ s1 log1 s2 ew s3 log3 s4 el,
      run c 0 (init c swap0) front = some (s1, log1) ∧
      handle c (age c front.length s1) (wr a x) = some (s2, ew) ∧
      run c (front.length + 1) s2 mid = some (s3, log3) ∧
      handle c (age c (front.length + 1 + mid.length) s3) last = some (s4, el) ∧
      run c 0 (init c swap0) (front ++ wr a x :: (mid ++ [last]))
        = some (s4, log1 ++ ew :: (log3 ++ [el])) ∧
      ((∀ re ∈ List.zip mid log3, re.1.type = 'w' → re.2.pfn = ew.pfn →
          re.1.addr &&& 63 ≠ a &&& 63) →
        (∀ e ∈ log3, e.replaced = true → e.pfn ≠ ew.pfn) →
        (last.type ≠ 'w' → last.addr >>> 6 = a >>> 6 →
          el.pageFault = false ∧ el.pfn = ew.pfn ∧
          s4.pm el.pfn.toNat (a &&& 63) = x % 256) ∧
        (el.victim = some (a >>> 6) →
          s4.swap ((a >>> 6) * 64 + (a &&& 63)) = x % 256)) := by
  have hf0 : 0 < c.fcount := by omega
  have hf1 : c.fcount ≤ 8192 := by omega
  have hE : c.algo = Algo.ECLOCK → 3 ≤ c.fcount := fun _ => by omega
  have hw0 := init_WF c swap0 hf0
  obtain ⟨s1, log1, r1⟩ := run_total c hE hf1 (Or.inl hl) front 0 _ hw0
  have hw1 := age_WF c front.length s1 (run_WF c hf0 hf1 _ _ _ _ _ hw0 r1).1
  obtain ⟨s2, ew, r2⟩ := handle_isSome c _ (wr a x) hE hw1 (Or.inl hl)
  have hw2 := (handle_WF c _ s2 _ ew hf0 hf1 hw1 r2).1
  obtain ⟨s3, log3, r3⟩ := run_total c hE hf1 (Or.inl hl) mid (front.length + 1) _ hw2
  have hw3 := (run_WF c hf0 hf1 _ _ _ _ _ hw2 r3).1
  have hw3a := age_WF c (front.length + 1 + mid.length) s3 hw3
  obtain ⟨s4, el, r4⟩ := handle_isSome c _ last hE hw3a (Or.inl hl)
  refine ⟨s1, log1, s2, ew, s3, log3, s4, el, r1, r2, r3, r4, ?_, ?_⟩
  · apply run_append_eq c front _ 0 _ s1 s4 log1 _ r1
    rw [Nat.zero_add]
    apply run_cons_eq c _ s1 s2 s4 _ _ ew _ r2
    apply run_append_eq c mid _ _ s2 s3 s4 log3 _ r3
    exact run_cons_eq c _ s3 s4 s4 _ [] el [] r4 rfl
  · intro hwr hfree
    obtain ⟨hp0, hJ2⟩ := handle_write_Holds c _ s2 a x ew hl hf0 hf1 hw1 r2
    have hpfn : ((ew.pfn.toNat : Nat) : Int) = ew.pfn := Int.toNat_of_nonneg hp0
    obtain ⟨-, hJ3, -⟩ := run_Holds c (vpnOf a) ew.pfn.toNat (offsetOf a) (x % 256)
      hl hf0 hf1 (offsetOf_lt a) mid _ s2 s3 log3 hw2 hJ2 r3
      (fun re hre hty hpf => hwr re hre hty (by rw [hpf, hpfn]))
      (fun e he hrep hpf => absurd (by rw [hpf, hpfn]) (hfree e he hrep))
    have hJ3a : Holds (vpnOf a) ew.pfn.toNat (offsetOf a) (x % 256)
        (age c (front.length + 1 + mid.length) s3) := by
      obtain ⟨j1, j2, j3, j4⟩ := hJ3
      refine ⟨by rw [(age_pt c _ s3 _).2.2.1]; exact j1, by rw [(age_pt c _ s3 _).2.1]; exact j2,
        by rw [(age_pt c _ s3 _).1]; exact j3, ?_⟩
      have : (age c (front.length + 1 + mid.length) s3).pm = s3.pm :=
        congrArg Mem.pm (age_toMem c _ s3)
      rw [this]; exact j4
    constructor
    · intro hty hpage
      have hnorep : el.replaced = false := by
        obtain ⟨s5, e5, k1, -, k3, -⟩ := handle_hit_read c _ a last (Or.inl hl)
          (by simp only [entryOf, if_pos hl]; exact hJ3a.1) hpage hty
        rw [r4] at k1
        simp only [Option.some.injEq, Prod.mk.injEq] at k1
        rcases handle_counts _ _ _ _ _ r4 with ⟨-, b2, -⟩ | ⟨b1, -⟩ | ⟨b1, -⟩
        · exact b2
        · rw [k1.2, k3] at b1; simp at b1
        · rw [k1.2, k3] at b1; simp at b1
      obtain ⟨k1, k2, -, -⟩ := handle_read_Holds c _ s4 last el (vpnOf a) ew.pfn.toNat
        (offsetOf a) (x % 256) hl hf1 (offsetOf_lt a) hw3a hJ3a hty r4
        (fun hrep _ => by rw [hnorep] at hrep; simp at hrep)
      obtain ⟨q1, q2⟩ := k2 hpage
      refine ⟨q1, by rw [q2, hpfn], ?_⟩
      rw [q2]
      exact k1.2.2.2
    · intro hv
      by_cases hty : last.type = 'w'
      · obtain ⟨s0, h0, -, e1, -, -⟩ := handle_write_split c _ s4 last el hl hty r4
        obtain ⟨-, -, k3, -⟩ := handle_read_Holds c _ s0 _ el (vpnOf a) ew.pfn.toNat
          (offsetOf a) (x % 256) hl hf1 (offsetOf_lt a) hw3a hJ3a (by simp) h0
          (fun _ _ => hv)
        rw [e1]
        exact k3 hv
      · obtain ⟨-, -, k3, -⟩ := handle_read_Holds c _ s4 last el (vpnOf a) ew.pfn.toNat
          (offsetOf a) (x % 256) hl hf1 (offsetOf_lt a) hw3a hJ3a hty r4
          (fun _ _ => hv)
        exact k3 hv

/-- C6 (as amended) on two FIFO traces with four frames: 7 is written to page 1 at offset
5, then pages 2, 3 and 4 take the free frames 1, 2 and 3, so that no replacement has
happened.  If a read of page 1 follows, it is a hit on frame 0 and byte 5 of frame 0 is 7;
if a read of page 5 follows, it evicts page 1 and byte 5 of page 1 in the swap file is 7
right after it. -/
theorem write_survives_until_reuse_witness :
    (exConfig 1 Algo.FIFO).level = 1 ∧
    (4 ≤ (exConfig 1 Algo.FIFO).fcount ∧ (exConfig 1 Algo.FIFO).fcount ≤ 128) ∧
    (∃ s4 log el, run (exConfig 1 Algo.FIFO) 0 (init (exConfig 1 Algo.FIFO) zeroSwap)
        [wr 0x45 7, rd 0x80, rd 0xc0, rd 0x100, rd 0x7f] = some (s4, log ++ [el]) ∧
      el.pageFault = false ∧ el.pfn = 0 ∧ s4.pm 0 5 = 7) ∧
    (∃ s4 log el, run (exConfig 1 Algo.FIFO) 0 (init (exConfig 1 Algo.FIFO) zeroSwap)
        [wr 0x45 7, rd 0x80, rd 0xc0, rd 0x100, rd 0x140] = some (s4, log ++ [el]) ∧
      el.victim = some 1 ∧ s4.swap (64 + 5) = 7) := by
  refine ⟨by decide, by decide, ?_, ?_⟩
  · obtain ⟨s1, log1, s2, ew, s3, log3, s4, el, r1, -, -, -, r5, h⟩ :=
      write_survives_until_reuse (exConfig 1 Algo.FIFO) zeroSwap []
        [rd 0x80, rd 0xc0, rd 0x100] 0x45 7 (rd 0x7f) (by decide) (by decide)
    have hg : (run (exConfig 1 Algo.FIFO) 0 (init (exConfig 1 Algo.FIFO) zeroSwap)
        ([] ++ wr 0x45 7 :: ([rd 0x80, rd 0xc0, rd 0x100] ++ [rd 0x7f]))).map
          (fun x => x.2.map (fun e => (e.replaced, e.pfn)))
        = some ((false, 0) :: ([(false, 1), (false, 2), (false, 3)] ++ [(false, 0)])) := by
      decide!
    simp only [run, Option.some.injEq, Prod.mk.injEq] at r1
    obtain ⟨-, rfl⟩ := r1
    rw [r5] at hg
    simp only [Option.map_some', Option.some.injEq, List.nil_append, List.map_cons,
      List.map_append, List.map_nil, List.cons.injEq, Prod.mk.injEq] at hg
    obtain ⟨⟨-, hew⟩, hg3⟩ := hg
    have hm := (List.append_inj' hg3 rfl).1
    obtain ⟨q1, q2, q3⟩ := (h
      (fun re hre hty => by
        have := (List.of_mem_zip hre).1
        simp only [List.mem_cons, List.mem_singleton, List.not_mem_nil, or_false] at this
        rcases this with e | e | e <;> rw [e] at hty <;> exact absurd hty (rd_type _))
      (fun e he hrep => by
        have := List.mem_map_of_mem (fun e => (e.replaced, e.pfn)) he
        rw [hm] at this
        simp only [List.mem_cons, List.mem_singleton, List.not_mem_nil, or_false,
          Prod.mk.injEq] at this
        rcases this with e | e | e <;> rw [e.1] at hrep <;> simp at hrep)).1
      (rd_type _) (by decide)
    refine ⟨s4, ew :: log3, el, r5, q1, q2.trans hew, ?_⟩
    rw [q2, hew] at q3
    exact q3
  · obtain ⟨s1, log1, s2, ew, s3, log3, s4, el, r1, -, -, -, r5, h⟩ :=
      write_survives_until_reuse (exConfig 1 Algo.FIFO) zeroSwap []
        [rd 0x80, rd 0xc0, rd 0x100] 0x45 7 (rd 0x140) (by decide) (by decide)
    have hg : (run (exConfig 1 Algo.FIFO) 0 (init (exConfig 1 Algo.FIFO) zeroSwap)
        ([] ++ wr 0x45 7 :: ([rd 0x80, rd 0xc0, rd 0x100] ++ [rd 0x140]))).map
          (fun x => x.2.map (fun e => (e.replaced, e.victim)))
        = some ((false, none) ::
            ([(false, none), (false, none), (false, none)] ++ [(true, some 1)])) := by
      decide!
    simp only [run, Option.some.injEq, Prod.mk.injEq] at r1
    obtain ⟨-, rfl⟩ := r1
    rw [r5] at hg
    simp only [Option.map_some', Option.some.injEq, List.nil_append, List.map_cons,
      List.map_append, List.map_nil, List.cons.injEq, Prod.mk.injEq] at hg
    obtain ⟨-, hg3⟩ := hg
    obtain ⟨hm, hlast⟩ := List.append_inj' hg3 rfl
    simp only [List.cons.injEq, Prod.mk.injEq, and_true] at hlast
    have q := (h
      (fun re hre hty => by
        have := (List.of_mem_zip hre).1
        simp only [List.mem_cons, List.mem_singleton, List.not_mem_nil, or_false] at this
        rcases this with e | e | e <;> rw [e] at hty <;> exact absurd hty (rd_type _))
      (fun e he hrep => by
        have := List.mem_map_of_mem (fun e => (e.replaced, e.victim)) he
        rw [hm] at this
        simp only [List.mem_cons, List.mem_singleton, List.not_mem_nil, or_false,
          Prod.mk.injEq] at this
        rcases this with e | e | e <;> rw [e.1] at hrep <;> simp at hrep)).2 hlast.2
    exact ⟨s4, ew :: log3, el, r5, hlast.2, q⟩

/-- C6 as stated fails: under FIFO with four frames, 7 is written to page 1 at offset 0,
page 1 is evicted by the fault on page 5, which takes over frame 0, 9 is written to page 5
at offset 0, and the read of page 1 that follows, with no write to page 1 in between,
reports frame 0, whose byte 0 is 9. -/
theorem round_trip_counterexample :
    (run (exConfig 1 Algo.FIFO) 0 (init (exConfig 1 Algo.FIFO) zeroSwap)
        [wr 0x40 7, rd 0x80, rd 0xc0, rd 0x100, rd 0x140, wr 0x140 9, rd 0x40]).map
      (fun x => x.2.map (fun e => e.victim))
      = some [none, none, none, none, some 1, none, none] ∧
    (stepAt (exConfig 1 Algo.FIFO) zeroSwap
        [wr 0x40 7, rd 0x80, rd 0xc0, rd 0x100, rd 0x140, wr 0x140 9, rd 0x40] 6).map
      (fun x => (x.2.1.pfn, x.2.2.pm 0 0)) = some (0, 9) := by
  decide!

/-- C11. Install on fault: for `fcount` in [4,128], in level 1 under each of the four
policies and in level 2 under FIFO, LRU and CLOCK, every reference of a run from the initial
state is handled, and after a read reference that faulted, from a free frame or by
replacement, the entry of the referenced page is exactly the reported frame with `r = 1`,
`m = 0` and `v = 1`. -/
theorem install_on_fault (c : Config) (swap0 : Nat → Nat) (refs : List Ref)
    (hc : c.level = 1 ∨ (c.level = 2 ∧ c.algo ≠ Algo.ECLOCK))
    (hf : 4 ≤ c.fcount ∧ c.fcount ≤ 128) :
    ∃ sf log, run c 0 (init c swap0) refs = some (sf, log) ∧
      ∀ t, t < refs.length →
        ∃ ref s e s1, refs[t]? = some ref ∧ log[t]? = some e ∧
          stepAt c swap0 refs t = some (s, e, s1) ∧
          (ref.type = 'r' → e.pageFault = true →
            0 ≤ e.pfn ∧
            entryOf c s1 ref.addr
              = { frame := e.pfn.toNat, r := true, m := false, v := true }) := by
  obtain ⟨sf, log, hr⟩ := run_total c (fun _ => by omega) (by omega) hc refs 0 _
    (init_WF c swap0 (by omega))
  refine ⟨sf, log, hr, ?_⟩
  intro t ht
  obtain ⟨s0, ref, e, s1, g1, g2, g3, g4, g5, -⟩ := stepAt_of_run c swap0 refs sf log hr t ht
  have hw := stepAt_WF c swap0 refs t (by omega) (by omega) _ _ _ g4
  refine ⟨ref, _, e, s1, g1, g5, g4, ?_⟩
  intro hrd hpf
  have hnw : ref.type ≠ 'w' := by rw [hrd]; decide
  rcases handle_cases _ _ _ _ _ g3 with ⟨h1, tbl, m, htr, rfl⟩ | ⟨h2, tbl, m, htr, rfl⟩
  · obtain ⟨a1, a2⟩ := translateRef_install _ _ _ _ _ _ _ _ _ (by omega) hw.2.2.2.1 hnw hpf
      (Or.inl rfl) htr
    refine ⟨a1, ?_⟩
    simp only [entryOf, if_pos h1]
    exact a2
  · have hA : c.algo ≠ Algo.ECLOCK := by
      rcases hc with h | h
      · omega
      · exact h.2
    have hn1 : ¬ c.level = 1 := by omega
    have hin : TblOK c (age c t s0).next_empty_frame
        (match (age c t s0).pt_array (pte1Of c.level ref.addr) with
          | none => init_pt
          | some t => t) := by
      split
      · exact TblOK_init_pt c _ (by omega)
      · rename_i tt htt
        exact hw.2.2.2.2 _ tt htt
    obtain ⟨a1, a2⟩ := translateRef_install _ _ _ _ _ _ _ _ _ (by omega) hin hnw hpf
      (Or.inr hA) htr
    refine ⟨a1, ?_⟩
    simp only [entryOf, if_neg hn1, upd_same]
    exact a2

/-- C11 on a level-2 CLOCK trace whose fifth reference is served by replacement. -/
theorem install_on_fault_witness :
    ((exConfig 2 Algo.CLOCK).level = 1 ∨
      ((exConfig 2 Algo.CLOCK).level = 2 ∧ (exConfig 2 Algo.CLOCK).algo ≠ Algo.ECLOCK)) ∧
    (4 ≤ (exConfig 2 Algo.CLOCK).fcount ∧ (exConfig 2 Algo.CLOCK).fcount ≤ 128) ∧
    ∃ sf log, run (exConfig 2 Algo.CLOCK) 0 (init (exConfig 2 Algo.CLOCK) zeroSwap)
      [rd 0x0, rd 0x840, wr 0x1080 7, rd 0x18c0, rd 0x100, rd 0x0] = some (sf, log) :=
  ⟨by decide, by decide,
    (install_on_fault (exConfig 2 Algo.CLOCK) zeroSwap
      [rd 0x0, rd 0x840, wr 0x1080 7, rd 0x18c0, rd 0x100, rd 0x0] (by decide) (by decide)).imp
      (fun _ h => h.imp (fun _ h2 => h2.1))⟩

/-- C12. Write references in level 1: for `fcount` in [4,128] and each policy, every
reference of a run from the initial state is handled; after a write of `x` to address `a`,
hit or fault, byte `a & 63` of the reported frame is `x mod 256` and the `m` bit of the
entry of page `a >> 6` is 1; a read sets no `m` bit, and a read that hits leaves physical
memory as it is. -/
theorem write_reference_effect (c : Config) (swap0 : Nat → Nat) (refs : List Ref)
    (hl : c.level = 1) (hf : 4 ≤ c.fcount ∧ c.fcount ≤ 128) :
    ∃ sf log, run c 0 (init c swap0) refs = some (sf, log) ∧
      ∀ t, t < refs.length →
        ∃ ref s e s1, refs[t]? = some ref ∧ log[t]? = some e ∧
          stepAt c swap0 refs t = some (s, e, s1) ∧
          (ref.type = 'w' →
            0 ≤ e.pfn ∧ e.pfn < (c.fcount : Int) ∧
            s1.pm e.pfn.toNat (ref.addr &&& 63) = ref.value % 256 ∧
            (s1.pt (ref.addr >>> 6)).m = true) ∧
          (ref.type = 'r' →
            (∀ p, (s1.pt p).m = true → (s.pt p).m = true) ∧
            (e.pageFault = false → s1.pm = s.pm)) := by
  obtain ⟨sf, log, hr⟩ := run_total c (fun _ => by omega) (by omega) (Or.inl hl) refs 0 _
    (init_WF c swap0 (by omega))
  refine ⟨sf, log, hr, ?_⟩
  intro t ht
  obtain ⟨s0, ref, e, s1, g1, g2, g3, g4, g5, -⟩ := stepAt_of_run c swap0 refs sf log hr t ht
  have hw := stepAt_WF c swap0 refs t (by omega) (by omega) _ _ _ g4
  obtain ⟨-, -, -, -, -, b6, -⟩ := handle_reported c _ s1 ref e hl (by omega) (by omega) hw g3
  refine ⟨ref, _, e, s1, g1, g5, g4, ?_⟩
  rcases handle_cases _ _ _ _ _ g3 with ⟨-, tbl, m, htr, rfl⟩ | ⟨h2, -⟩
  · refine ⟨fun hwr => ?_, fun hrd => ?_⟩
    · obtain ⟨a1, a2, a3⟩ := translateRef_write _ _ _ _ _ _ _ _ _ hwr htr
      exact ⟨a1, b6, a2, a3⟩
    · have hnw : ref.type ≠ 'w' := by rw [hrd]; decide
      exact ⟨translateRef_read_m _ _ _ _ _ _ _ _ _ hnw htr,
        fun hpf => ((translateRef_read_mem _ _ _ _ _ _ _ _ _ hnw htr).1 hpf).1⟩
  · omega

/-- C12 on an LRU trace with a write that hits, a write that faults into a free frame and a
write that faults with replacement. -/
theorem write_reference_effect_witness :
    (exConfig 1 Algo.LRU).level = 1 ∧
    (4 ≤ (exConfig 1 Algo.LRU).fcount ∧ (exConfig 1 Algo.LRU).fcount ≤ 128) ∧
    ∃ sf log, run (exConfig 1 Algo.LRU) 0 (init (exConfig 1 Algo.LRU) zeroSwap)
      [rd 0x0, wr 0x5 300, wr 0x47 9, rd 0x80, rd 0xc0, wr 0x101 1, rd 0x47]
        = some (sf, log) :=
  ⟨by decide, by decide,
    (write_reference_effect (exConfig 1 Algo.LRU) zeroSwap
      [rd 0x0, wr 0x5 300, wr 0x47 9, rd 0x80, rd 0xc0, wr 0x101 1, rd 0x47]
      (by decide) (by decide)).imp (fun _ h => h.imp (fun _ h2 => h2.1))⟩

/-- C13. Writeback on eviction in level 1: for `fcount` in [4,128] and each policy, every
reference of a run from the initial state is handled, and a fault served by replacement has
a victim `v`, held in frame `f = pt.entries[v].frame`; if the `m` bit of `v` is 1 the swap
file afterwards has at `[64v, 64v + 64)` the bytes frame `f` held before the reference and
is unchanged elsewhere, and if it is 0 the swap file is unchanged.  A reference that is not
served by replacement leaves the swap file unchanged. -/
theorem writeback_on_eviction (c : Config) (swap0 : Nat → Nat) (refs : List Ref)
    (hl : c.level = 1) (hf : 4 ≤ c.fcount ∧ c.fcount ≤ 128) :
    ∃ sf log, run c 0 (init c swap0) refs = some (sf, log) ∧
      ∀ t, t < refs.length →
        ∃ ref s e s1, refs[t]? = some ref ∧ log[t]? = some e ∧
          stepAt c swap0 refs t = some (s, e, s1) ∧
          (e.replaced = true →
            ∃ v, e.victim = some v ∧
              ((s.pt v).m = true →
                (∀ i, i < 64 → s1.swap (64 * v + i) = s.pm (s.pt v).frame i) ∧
                (∀ j, ¬ (64 * v ≤ j ∧ j < 64 * v + 64) → s1.swap j = s.swap j)) ∧
              ((s.pt v).m = false → s1.swap = s.swap)) ∧
          (e.replaced = false → s1.swap = s.swap) := by
  obtain ⟨sf, log, hr⟩ := run_total c (fun _ => by omega) (by omega) (Or.inl hl) refs 0 _
    (init_WF c swap0 (by omega))
  refine ⟨sf, log, hr, ?_⟩
  intro t ht
  obtain ⟨s0, ref, e, s1, g1, g2, g3, g4, g5, -⟩ := stepAt_of_run c swap0 refs sf log hr t ht
  refine ⟨ref, _, e, s1, g1, g5, g4, ?_⟩
  rcases handle_cases _ _ _ _ _ g3 with ⟨-, tbl, m, htr, rfl⟩ | ⟨h2, -⟩
  · obtain ⟨k1, k2⟩ := translateRef_swap _ _ _ _ _ _ _ _ _ htr
    refine ⟨fun hrep => ?_, fun hn => k1 hn⟩
    rcases k2 hrep with ⟨a1, -⟩ | ⟨v, a1, a2⟩
    · simp at a1
    · refine ⟨v, a1, fun hm => ?_, fun hm => ?_⟩
      · have a3 : m.swap = writePage (age c t s0).swap v
            ((age c t s0).pm ((age c t s0).pt v).frame) := by
          rw [a2]; exact if_pos hm
        refine ⟨fun i hi => ?_, fun j hj => ?_⟩
        · show m.swap (64 * v + i) = _
          rw [a3]
          have := writePage_read (age c t s0).swap v
            ((age c t s0).pm ((age c t s0).pt v).frame) i hi
          unfold readPage PAGE_SIZE at this
          rw [← this]
          congr 1
          omega
        · show m.swap j = _
          rw [a3]
          unfold writePage PAGE_SIZE
          rw [if_neg (by omega)]
      · show m.swap = _
        rw [a2]
        have hm2 : ¬ ((age c t s0).pt v).m = true := by simp [hm]
        exact if_neg hm2
  · omega

/-- C13 on a FIFO trace in which a modified page and a clean page are evicted. -/
theorem writeback_on_eviction_witness :
    (exConfig 1 Algo.FIFO).level = 1 ∧
    (4 ≤ (exConfig 1 Algo.FIFO).fcount ∧ (exConfig 1 Algo.FIFO).fcount ≤ 128) ∧
    ∃ sf log, run (exConfig 1 Algo.FIFO) 0 (init (exConfig 1 Algo.FIFO) zeroSwap)
      [wr 0x3 7, rd 0x40, rd 0x80, rd 0xc0, rd 0x100, rd 0x140] = some (sf, log) :=
  ⟨by decide, by decide,
    (writeback_on_eviction (exConfig 1 Algo.FIFO) zeroSwap
      [wr 0x3 7, rd 0x40, rd 0x80, rd 0xc0, rd 0x100, rd 0x140]
      (by decide) (by decide)).imp (fun _ h => h.imp (fun _ h2 => h2.1))⟩

/-- C15. Load into a free frame in level 1: for `fcount` in [4,128] and each policy, every
reference of a run from the initial state is handled, and after a read fault on page `p`
served from a free frame, the reported frame `f` is the one under the free-frame cursor, its
64 bytes are the swap-file bytes `[64p, 64p + 64)`, no other frame is changed and the swap
file is unchanged. -/
theorem load_into_free_frame (c : Config) (swap0 : Nat → Nat) (refs : List Ref)
    (hl : c.level = 1) (hf : 4 ≤ c.fcount ∧ c.fcount ≤ 128) :
    ∃ sf log, run c 0 (init c swap0) refs = some (sf, log) ∧
      ∀ t, t < refs.length →
        ∃ ref s e s1, refs[t]? = some ref ∧ log[t]? = some e ∧
          stepAt c swap0 refs t = some (s, e, s1) ∧
          (ref.type = 'r' → e.pageFault = true → e.replaced = false →
            ∃ f : Nat, e.pfn = (f : Int) ∧ f = s.next_empty_frame ∧ f < c.fcount ∧
              (∀ i, i < 64 → s1.pm f i = s.swap (64 * (ref.addr >>> 6) + i)) ∧
              (∀ g, g ≠ f → s1.pm g = s.pm g) ∧ s1.swap = s.swap) := by
  obtain ⟨sf, log, hr⟩ := run_total c (fun _ => by omega) (by omega) (Or.inl hl) refs 0 _
    (init_WF c swap0 (by omega))
  refine ⟨sf, log, hr, ?_⟩
  intro t ht
  obtain ⟨s0, ref, e, s1, g1, g2, g3, g4, g5, -⟩ := stepAt_of_run c swap0 refs sf log hr t ht
  refine ⟨ref, _, e, s1, g1, g5, g4, ?_⟩
  intro hrd hpf hnr
  have hnw : ref.type ≠ 'w' := by rw [hrd]; decide
  rcases handle_cases _ _ _ _ _ g3 with ⟨-, tbl, m, htr, rfl⟩ | ⟨h2, -⟩
  · obtain ⟨a1, a2, a3, a4, a5⟩ := translateRef_free_load _ _ _ _ _ _ _ _ _ hnw hpf hnr htr
    exact ⟨_, a1, rfl, a2, a3, a4, a5⟩
  · omega

/-- C15 on a CLOCK trace with four faults into free frames and a hit. -/
theorem load_into_free_frame_witness :
    (exConfig 1 Algo.CLOCK).level = 1 ∧
    (4 ≤ (exConfig 1 Algo.CLOCK).fcount ∧ (exConfig 1 Algo.CLOCK).fcount ≤ 128) ∧
    ∃ sf log, run (exConfig 1 Algo.CLOCK) 0 (init (exConfig 1 Algo.CLOCK) zeroSwap)
      [rd 0x100, rd 0x40, rd 0x100, rd 0x80, rd 0xc0] = some (sf, log) :=
  ⟨by decide, by decide,
    (load_into_free_frame (exConfig 1 Algo.CLOCK) zeroSwap
      [rd 0x100, rd 0x40, rd 0x100, rd 0x80, rd 0xc0]
      (by decide) (by decide)).imp (fun _ h => h.imp (fun _ h2 => h2.1))⟩

/-- C14 fails on the code: level 1, FIFO, four frames, a swap file whose page `p` holds the
byte `p` throughout, trace `r 0x0000, r 0x0040, r 0x0080, r 0x00C0, r 0x0100`.  The fifth
reference faults on page 4 and is served by replacement with victim page 0 in frame 0.
Afterwards bytes 0, 1 and 63 of frame 0 are 0, the content of the victim page, while the
bytes of page 4 in the swap file (positions 256, 257 and 319) are 4. -/
theorem load_on_eviction_divergence :
    (stepAt (exConfig 1 Algo.FIFO) pageSwap
        [rd 0x0, rd 0x40, rd 0x80, rd 0xc0, rd 0x100] 4).map
      (fun x => (x.2.1.pageFault, x.2.1.replaced, x.2.1.victim, x.2.1.pfn))
      = some (true, true, some 0, 0) ∧
    (stepAt (exConfig 1 Algo.FIFO) pageSwap
        [rd 0x0, rd 0x40, rd 0x80, rd 0xc0, rd 0x100] 4).map
      (fun x => (x.2.2.pm 0 0, x.2.2.pm 0 1, x.2.2.pm 0 63)) = some (0, 0, 0) ∧
    (stepAt (exConfig 1 Algo.FIFO) pageSwap
        [rd 0x0, rd 0x40, rd 0x80, rd 0xc0, rd 0x100] 4).map
      (fun x => (x.2.2.swap 256, x.2.2.swap 257, x.2.2.swap 319)) = some (4, 4, 4) := by
  decide!

/-- C16 fails on the code: level 2, FIFO, four frames, a swap file whose page `p` holds the
byte `p` throughout, trace `r 0x0040, r 0x0840`.  The references are to the pages with
indices (0, 1) and (1, 1); both fault into a free frame, frames 0 and 1, and both frames
are filled from swap page 1 (byte 1), while swap page `1 * 32 + 1 = 33` holds the byte 33
(position `33 * 64 = 2112`). -/
theorem two_level_swap_page_divergence :
    (stepAt (exConfig 2 Algo.FIFO) pageSwap [rd 0x40, rd 0x840] 0).map
      (fun x => (x.2.1.pte1, x.2.1.pte2, x.2.1.pageFault, x.2.1.replaced))
      = some (0, 1, true, false) ∧
    (stepAt (exConfig 2 Algo.FIFO) pageSwap [rd 0x40, rd 0x840] 0).map
      (fun x => (x.2.1.pfn, x.2.2.pm 0 0, x.2.2.pm 0 63)) = some (0, 1, 1) ∧
    (stepAt (exConfig 2 Algo.FIFO) pageSwap [rd 0x40, rd 0x840] 1).map
      (fun x => (x.2.1.pte1, x.2.1.pte2, x.2.1.pageFault, x.2.1.replaced))
      = some (1, 1, true, false) ∧
    (stepAt (exConfig 2 Algo.FIFO) pageSwap [rd 0x40, rd 0x840] 1).map
      (fun x => (x.2.1.pfn, x.2.2.pm 1 0, x.2.2.pm 1 63)) = some (1, 1, 1) ∧
    (stepAt (exConfig 2 Algo.FIFO) pageSwap [rd 0x40, rd 0x840] 1).map
      (fun x => (x.2.2.swap 2112, x.2.2.swap 2175)) = some (33, 33) := by
  decide!

/-- C17. ECLOCK always finds a victim: for `fcount` in [4,128], every hand position below
`fcount`, every order array and every page table, the four passes of lines 343-417 end with
a victim, so the ECLOCK replacement branch of level 1 produces a result with a victim; and
when passes 1 and 2 find nothing, the `r` bit of the page of every slot is 0 after pass 2 and
pass 3 or pass 4 finds a victim. -/
theorem eclock_finds_victim (c : Config) (order : Nat → Nat) (tbl : Nat → PTE) (hand : Nat)
    (hf : 4 ≤ c.fcount ∧ c.fcount ≤ 128) (hh : hand < c.fcount) :
    (eclockSelect c.fcount order tbl hand).2.2 ≠ none ∧
    (∀ (m : Mem) (idx : Nat), c.algo = Algo.ECLOCK → m.eclock_hand_order = order →
      m.eclock_hand = hand →
      ∃ o v, replacePage c true tbl m idx = some o ∧ o.victim = some v) ∧
    ((eclockStep1 c.fcount order tbl hand).2.2 = none →
      (eclockStep2 c.fcount order tbl hand).2.2 = none →
      (∀ i, i < c.fcount → ((eclockStep2 c.fcount order tbl hand).1 (order i)).r = false) ∧
      ((eclockStep3 c.fcount order tbl hand).2.2 ≠ none ∨
       (eclockStep4 c.fcount order tbl hand).2.2 ≠ none)) := by
  have hsel := eclockSelect_isSome c.fcount order tbl hand (by omega) hh
  refine ⟨hsel, ?_, ?_⟩
  · intro m idx hA ho hm
    subst ho hm
    unfold replacePage
    simp only [hA, if_true]
    split
    · rename_i heq
      rw [heq] at hsel
      exact absurd rfl hsel
    · exact ⟨_, _, rfl, rfl⟩
  · intro h1 h2
    have hh1 : (eclockStep1 c.fcount order tbl hand).2.1 < c.fcount :=
      (eclockPass_spec c.fcount order false false c.fcount tbl hand).2.2.2 hh
    refine ⟨?_, ?_⟩
    · intro i hi
      obtain ⟨k, hk, hki⟩ := slot_from_hand c.fcount _ i hh1 hi
      have := eclockPass_none_all c.fcount order true c.fcount _ _ hh1 h2 k hk
      rw [hki] at this
      exact this
    · rw [eclockSelect_steps, if_neg (not_not.mpr h1), if_neg (not_not.mpr h2)] at hsel
      by_cases h3 : (eclockStep3 c.fcount order tbl hand).2.2 = none
      · right
        rw [if_neg (not_not.mpr h3)] at hsel
        exact hsel
      · left
        exact h3

/-- C17 with four frames, the hand on slot 2, and a table in which the pages of the order
have `r = 1` and `m = 1`, so that passes 1 and 2 find nothing. -/
theorem eclock_finds_victim_witness :
    (4 ≤ (exConfig 1 Algo.ECLOCK).fcount ∧ (exConfig 1 Algo.ECLOCK).fcount ≤ 128) ∧
    2 < (exConfig 1 Algo.ECLOCK).fcount ∧
    (eclockSelect (exConfig 1 Algo.ECLOCK).fcount (fun i => i + 10)
      (fun p => { frame := p % 4, r := true, m := true, v := true }) 2).2.2 ≠ none :=
  ⟨by decide, by decide,
    (eclock_finds_victim (exConfig 1 Algo.ECLOCK) (fun i => i + 10)
      (fun p => { frame := p % 4, r := true, m := true, v := true }) 2
      (by decide) (by decide)).1⟩

/-- C18. CLOCK selection terminates: for `fcount ≥ 1`, every hand position below `fcount`,
every order array (duplicates allowed) and every page table, the victim loop of lines
292-300 ends after `n ≤ fcount` advances of the hand (`n + 1` iterations and no fewer), with
the hand `n` slots further, the victim the page of the slot under the hand, and the `r` bit
of the victim 0 at that moment; the `fcount + 1` iterations that the replacement branch
allows give the same result. -/
theorem clock_selection_terminates (fcount hand : Nat) (order : Nat → Nat) (tbl : Nat → PTE)
    (_hf : 1 ≤ fcount) (hh : hand < fcount) :
    ∃ n tbl1 hand1 v, n ≤ fcount ∧
      clockSelect fcount order (n + 1) tbl hand = some (tbl1, hand1, v) ∧
      clockSelect fcount order n tbl hand = none ∧
      clockSelect fcount order (fcount + 1) tbl hand = some (tbl1, hand1, v) ∧
      hand1 = (hand + n) % fcount ∧ v = order hand1 ∧ (tbl1 v).r = false := by
  have hs := clockSelect_isSome fcount order (fcount + 1) tbl hand hh
    (Nat.lt_succ_of_le (rcount_le fcount order tbl))
  obtain ⟨⟨tbl1, hand1, v⟩, hr⟩ := Option.isSome_iff_exists.mp hs
  obtain ⟨n, a1, a2, a3, a4⟩ := clockSelect_steps fcount order _ tbl hand _ hh hr
  obtain ⟨-, -, -, b4, b5⟩ := clockSelect_spec fcount order _ tbl hand tbl1 hand1 v hr
  exact ⟨n, tbl1, hand1, v, by omega, a2, a3, hr, a4, b4, b5⟩

/-- C18 with one frame whose page has `r = 1`: one advance of the hand. -/
theorem clock_selection_terminates_witness :
    1 ≤ 1 ∧ 0 < 1 ∧
    ∃ n tbl1 hand1 v, n ≤ 1 ∧
      clockSelect 1 (fun _ => 5) (n + 1)
        (fun _ => { frame := 0, r := true, m := false, v := true }) 0
          = some (tbl1, hand1, v) :=
  ⟨by decide, by decide,
    (clock_selection_terminates 1 0 (fun _ => 5)
      (fun _ => { frame := 0, r := true, m := false, v := true }) (by decide) (by decide)).imp
      (fun _ h => h.imp (fun _ h2 => h2.imp (fun _ h3 => h3.imp (fun _ h4 => ⟨h4.1, h4.2.1⟩))))⟩

/-- C19, as the code has it: under CLOCK, in either mode and for `fcount` in [4,128], every
reference of a run from the initial state is handled, and when a fault is served by
replacement the scan stops on a slot `k`, reached from the hand in `n ≤ fcount` advances, the
victim is the page `clock_hand_order[k]`, and the hand after the reference is `k`: it stays
on the slot of the victim, which is not `(k + 1) mod fcount`. -/
theorem clock_hand_stays_on_victim (c : Config) (swap0 : Nat → Nat) (refs : List Ref)
    (hl : c.level = 1 ∨ c.level = 2) (hA : c.algo = Algo.CLOCK)
    (hf : 4 ≤ c.fcount ∧ c.fcount ≤ 128) :
    ∃ sf log, run c 0 (init c swap0) refs = some (sf, log) ∧
      ∀ t, t < refs.length →
        ∃ ref s e s1, refs[t]? = some ref ∧ log[t]? = some e ∧
          stepAt c swap0 refs t = some (s, e, s1) ∧
          (e.replaced = true →
            ∃ n k, n ≤ c.fcount ∧ k = (s.clock_hand + n) % c.fcount ∧ k < c.fcount ∧
              e.victim = some (s.clock_hand_order k) ∧ s1.clock_hand = k ∧
              s1.clock_hand ≠ (k + 1) % c.fcount) := by
  have hok : c.level = 1 ∨ (c.level = 2 ∧ c.algo ≠ Algo.ECLOCK) := by
    rcases hl with h | h
    · exact Or.inl h
    · exact Or.inr ⟨h, by rw [hA]; decide⟩
  obtain ⟨sf, log, hr⟩ := run_total c (fun _ => by omega) (by omega) hok refs 0 _
    (init_WF c swap0 (by omega))
  refine ⟨sf, log, hr, ?_⟩
  intro t ht
  obtain ⟨s0, ref, e, s1, g1, g2, g3, g4, g5, -⟩ := stepAt_of_run c swap0 refs sf log hr t ht
  have hw := stepAt_WF c swap0 refs t (by omega) (by omega) _ _ _ g4
  refine ⟨ref, _, e, s1, g1, g5, g4, ?_⟩
  intro hrep
  have key : ∀ k, k < c.fcount → k ≠ (k + 1) % c.fcount := by
    intro k hk hkk
    by_cases h1 : k + 1 < c.fcount
    · rw [Nat.mod_eq_of_lt h1] at hkk; omega
    · have h2 : k + 1 = c.fcount := by omega
      rw [h2, Nat.mod_self] at hkk
      omega
  rcases handle_cases _ _ _ _ _ g3 with ⟨-, tbl, m, htr, rfl⟩ | ⟨-, tbl, m, htr, rfl⟩
  · obtain ⟨n, a1, a2, a3⟩ := translateRef_clock _ _ _ _ _ _ _ _ _ hA hw.1 hrep htr
    have hk : m.clock_hand < c.fcount := by rw [a2]; exact Nat.mod_lt _ (by omega)
    exact ⟨n, m.clock_hand, a1, a2, hk, a3, rfl, key _ hk⟩
  · obtain ⟨n, a1, a2, a3⟩ := translateRef_clock _ _ _ _ _ _ _ _ _ hA hw.1 hrep htr
    have hk : m.clock_hand < c.fcount := by rw [a2]; exact Nat.mod_lt _ (by omega)
    exact ⟨n, m.clock_hand, a1, a2, hk, a3, rfl, key _ hk⟩

/-- C19 (as amended) on a CLOCK trace with a hit and two replacements. -/
theorem clock_hand_stays_on_victim_witness :
    ((exConfig 1 Algo.CLOCK).level = 1 ∨ (exConfig 1 Algo.CLOCK).level = 2) ∧
    (exConfig 1 Algo.CLOCK).algo = Algo.CLOCK ∧
    (4 ≤ (exConfig 1 Algo.CLOCK).fcount ∧ (exConfig 1 Algo.CLOCK).fcount ≤ 128) ∧
    ∃ sf log, run (exConfig 1 Algo.CLOCK) 0 (init (exConfig 1 Algo.CLOCK) zeroSwap)
      [rd 0x0, rd 0x40, rd 0x80, rd 0xc0, rd 0x40, rd 0x100, rd 0x140] = some (sf, log) :=
  ⟨by decide, by decide, by decide,
    (clock_hand_stays_on_victim (exConfig 1 Algo.CLOCK) zeroSwap
      [rd 0x0, rd 0x40, rd 0x80, rd 0xc0, rd 0x40, rd 0x100, rd 0x140]
      (by decide) (by decide) (by decide)).imp (fun _ h => h.imp (fun _ h2 => h2.1))⟩

/-- C19 as stated fails: under CLOCK with four frames, the fifth reference of
`r 0x0000, r 0x0040, r 0x0080, r 0x00C0, r 0x0100` is served by replacement; the hand is 0
before it, the victim is page 0, found at position 0 of `clock_hand_order`, and the hand
afterwards is 0, not `(0 + 1) mod 4 = 1`. -/
theorem clock_hand_counterexample :
    (stepAt (exConfig 1 Algo.CLOCK) zeroSwap
        [rd 0x0, rd 0x40, rd 0x80, rd 0xc0, rd 0x100] 4).map
      (fun x => (x.1.clock_hand, x.1.clock_hand_order 0, x.2.1.replaced, x.2.1.victim))
      = some (0, 0, true, some 0) ∧
    (stepAt (exConfig 1 Algo.CLOCK) zeroSwap
        [rd 0x0, rd 0x40, rd 0x80, rd 0xc0, rd 0x100] 4).map
      (fun x => x.2.2.clock_hand) = some 0 ∧
    (0 + 1) % (exConfig 1 Algo.CLOCK).fcount = 1 := by
  decide!

/-- C20, as the code has it: in level 1, for `fcount` in [4,128] and each policy, every
reference of a run from the initial state is handled, and after a fault on page `p` served
from a free frame, `p` occurs among the first `fcount` entries of `fifo_order` and of
`lru_order`, exactly once in each if `p` is not page 0. -/
theorem free_install_tracked (c : Config) (swap0 : Nat → Nat) (refs : List Ref)
    (hl : c.level = 1) (hf : 4 ≤ c.fcount ∧ c.fcount ≤ 128) :
    ∃ sf log, run c 0 (init c swap0) refs = some (sf, log) ∧
      ∀ t, t < refs.length →
        ∃ ref s e s1, refs[t]? = some ref ∧ log[t]? = some e ∧
          stepAt c swap0 refs t = some (s, e, s1) ∧
          (e.pageFault = true → e.replaced = false →
            1 ≤ (arrList s1.fifo_order c.fcount).count (ref.addr >>> 6) ∧
            1 ≤ (arrList s1.lru_order c.fcount).count (ref.addr >>> 6) ∧
            (ref.addr >>> 6 ≠ 0 →
              (arrList s1.fifo_order c.fcount).count (ref.addr >>> 6) = 1 ∧
              (arrList s1.lru_order c.fcount).count (ref.addr >>> 6) = 1)) := by
  obtain ⟨sf, log, hr⟩ := run_total c (fun _ => by omega) (by omega) (Or.inl hl) refs 0 _
    (init_WF c swap0 (by omega))
  refine ⟨sf, log, hr, ?_⟩
  intro t ht
  obtain ⟨s0, ref, e, s1, g1, g2, g3, g4, g5, -⟩ := stepAt_of_run c swap0 refs sf log hr t ht
  have hi := stepAt_OrderInv c swap0 refs t hl (by omega) (by omega) _ _ _ g4
  refine ⟨ref, _, e, s1, g1, g5, g4, ?_⟩
  intro hpf hnr
  rcases handle_cases _ _ _ _ _ g3 with ⟨-, tbl, m, htr, rfl⟩ | ⟨h2, -⟩
  · obtain ⟨-, -, o3⟩ := translateRef_orders _ _ _ _ _ _ _ _ _ htr
    have f1 := (translateRef_fifo _ _ _ _ _ _ _ _ _ htr).2.1 hpf (Or.inl hnr)
    have l1 := (translateRef_lru _ _ _ _ _ _ _ _ _ htr).1 (Or.inl hnr)
    have hinv := o3 hpf
    have c1 := count_shiftIn (age c t s0).fifo_order c.fcount (vpnOf ref.addr) (by omega)
    have c2 := count_update_lru_order (age c t s0).lru_order c.fcount (vpnOf ref.addr)
      (by omega)
    show 1 ≤ (arrList m.fifo_order c.fcount).count (vpnOf ref.addr) ∧
      1 ≤ (arrList m.lru_order c.fcount).count (vpnOf ref.addr) ∧
      (vpnOf ref.addr ≠ 0 →
        (arrList m.fifo_order c.fcount).count (vpnOf ref.addr) = 1 ∧
        (arrList m.lru_order c.fcount).count (vpnOf ref.addr) = 1)
    rw [f1, l1]
    refine ⟨c1.1, c2.1, fun hp0 => ⟨c1.2 ?_, c2.2 ?_⟩⟩
    · intro j hj hjp
      rcases hi.1 j hj with h0 | hv
      · exact hp0 (by rw [← hjp]; exact h0)
      · rw [hjp, hinv] at hv
        simp at hv
    · intro j hj hjp
      rcases hi.2 j hj with h0 | hv
      · exact hp0 (by rw [← hjp]; exact h0)
      · rw [hjp, hinv] at hv
        simp at hv
  · omega

/-- C20 (as amended) on a FIFO trace with four faults into free frames, one of them on
page 0. -/
theorem free_install_tracked_witness :
    (exConfig 1 Algo.FIFO).level = 1 ∧
    (4 ≤ (exConfig 1 Algo.FIFO).fcount ∧ (exConfig 1 Algo.FIFO).fcount ≤ 128) ∧
    ∃ sf log, run (exConfig 1 Algo.FIFO) 0 (init (exConfig 1 Algo.FIFO) zeroSwap)
      [rd 0x100, rd 0x0, rd 0x100, wr 0x80 1, rd 0xc0, rd 0x140] = some (sf, log) :=
  ⟨by decide, by decide,
    (free_install_tracked (exConfig 1 Algo.FIFO) zeroSwap
      [rd 0x100, rd 0x0, rd 0x100, wr 0x80 1, rd 0xc0, rd 0x140]
      (by decide) (by decide)).imp (fun _ h => h.imp (fun _ h2 => h2.1))⟩

/-- C20 as stated fails, with four frames and a one-reference trace.  Under FIFO and under
LRU, after `r 0x0000` (a fault on page 0 served from a free frame) page 0 occurs four times
among the first four entries of `fifo_order` and of `lru_order`.  Under CLOCK and under
ECLOCK, after `r 0x0100` (a fault on page 4 served from a free frame) page 4 does not occur
among the first four entries of `clock_hand_order` and of `eclock_hand_order`. -/
theorem free_install_counterexample :
    (stepAt (exConfig 1 Algo.FIFO) zeroSwap [rd 0x0] 0).map
      (fun x => (x.2.1.pageFault, x.2.1.replaced, (arrList x.2.2.fifo_order 4).count 0))
      = some (true, false, 4) ∧
    (stepAt (exConfig 1 Algo.LRU) zeroSwap [rd 0x0] 0).map
      (fun x => (x.2.1.pageFault, x.2.1.replaced, (arrList x.2.2.lru_order 4).count 0))
      = some (true, false, 4) ∧
    (stepAt (exConfig 1 Algo.CLOCK) zeroSwap [rd 0x100] 0).map
      (fun x => (x.2.1.pageFault, x.2.1.replaced, (arrList x.2.2.clock_hand_order 4).count 4))
      = some (true, false, 0) ∧
    (stepAt (exConfig 1 Algo.ECLOCK) zeroSwap [rd 0x100] 0).map
      (fun x => (x.2.1.pageFault, x.2.1.replaced, (arrList x.2.2.eclock_hand_order 4).count 4))
      = some (true, false, 0) := by
  decide!

/-- C21 fails on the code in level 2: FIFO, four frames, `tick = 2`, trace
`r 0x0000, r 0x0040, r 0x0080`.  Reference 2 is handled after the aging step of `i = 2`
(`2 mod 2 = 0`), which clears the flat table `pt` only: in the state in which reference 2 is
handled, the entries 0 and 1 of the allocated inner table `pt_array[0]`, installed by
references 0 and 1, still have `r = 1`. -/
theorem aging_two_level_divergence :
    (stepAt (exConfig 2 Algo.FIFO) zeroSwap [rd 0x0, rd 0x40, rd 0x80] 1).map
      (fun x => (x.2.2.pt_array 0).map (fun t => ((t 0).r, (t 1).r)))
      = some (some (true, true)) ∧
    (stepAt (exConfig 2 Algo.FIFO) zeroSwap [rd 0x0, rd 0x40, rd 0x80] 2).map
      (fun x => (x.1.pt_array 0).map (fun t => ((t 0).r, (t 1).r, (t 0).v, (t 1).v)))
      = some (some (true, true, true, true)) ∧
    2 % (exConfig 2 Algo.FIFO).tick = 0 := by
  decide!

/-- C22 fails on the code: level 2, ECLOCK, four frames, trace
`r 0x0000, r 0x0040, r 0x0080, r 0x00C0, r 0x0100`.  The fifth reference faults on the page
with indices (0, 4) when no frame is free; the ECLOCK branch of level 2 (lines 686-689) is
empty, so no victim is selected and nothing is installed: the entry of the page is still
invalid afterwards, the reported frame is -1 and the reported address is `-1 * 64 + 0`.
With `w 0x0100 1` as fifth reference the write goes to `pm.frames[-1]`, which has no defined
behaviour. -/
theorem eclock_two_level_divergence :
    (stepAt (exConfig 2 Algo.ECLOCK) zeroSwap
        [rd 0x0, rd 0x40, rd 0x80, rd 0xc0, rd 0x100] 4).map
      (fun x => (x.2.1.pageFault, x.2.1.replaced, x.2.1.victim)) = some (true, true, none) ∧
    (stepAt (exConfig 2 Algo.ECLOCK) zeroSwap
        [rd 0x0, rd 0x40, rd 0x80, rd 0xc0, rd 0x100] 4).map
      (fun x => (x.1.next_empty_frame, x.2.1.pfn, x.2.1.pa)) = some (4, -1, -64) ∧
    (stepAt (exConfig 2 Algo.ECLOCK) zeroSwap
        [rd 0x0, rd 0x40, rd 0x80, rd 0xc0, rd 0x100] 4).map
      (fun x => (x.2.2.pt_array 0).map (fun t => (t 4).v)) = some (some false) ∧
    (stepAt (exConfig 2 Algo.ECLOCK) zeroSwap
        [rd 0x0, rd 0x40, rd 0x80, rd 0xc0, wr 0x100 1] 4).isSome = false := by
  decide!

/-- C29 fails on the code: level 2, FIFO, four frames, trace
`r 0x0040, r 0x0080, r 0x00C0, r 0x0100, r 0x09C0, r 0x0A00`.  The first four references
install the pages (0, 1), (0, 2), (0, 3), (0, 4) in frames 0 to 3; the last two fault on the
pages (1, 7) and (1, 8) and are served by replacement.  For the second of them the victim is
the inner index 2 taken from `fifo_order[0]`, looked up in the table of the faulting page,
`pt_array[1]`, whose entry 2 is invalid with frame 0: the frame reused is 0, while the page
(0, 2) installed by the second fault of the run holds frame 1. -/
theorem two_level_fifo_victim_divergence :
    (stepAt (exConfig 2 Algo.FIFO) zeroSwap
        [rd 0x40, rd 0x80, rd 0xc0, rd 0x100, rd 0x9c0, rd 0xa00] 5).map
      (fun x => (x.2.1.pte1, x.2.1.pte2, x.2.1.replaced, x.2.1.victim))
      = some (1, 8, true, some 2) ∧
    (stepAt (exConfig 2 Algo.FIFO) zeroSwap
        [rd 0x40, rd 0x80, rd 0xc0, rd 0x100, rd 0x9c0, rd 0xa00] 5).map
      (fun x => (x.1.pt_array 0).map (fun t => ((t 2).v, (t 2).frame)))
      = some (some (true, 1)) ∧
    (stepAt (exConfig 2 Algo.FIFO) zeroSwap
        [rd 0x40, rd 0x80, rd 0xc0, rd 0x100, rd 0x9c0, rd 0xa00] 5).map
      (fun x => (x.1.pt_array 1).map (fun t => ((t 2).v, (t 2).frame)))
      = some (some (false, 0)) ∧
    (stepAt (exConfig 2 Algo.FIFO) zeroSwap
        [rd 0x40, rd 0x80, rd 0xc0, rd 0x100, rd 0x9c0, rd 0xa00] 5).map
      (fun x => x.2.1.pfn) = some 0 := by
  decide!

/-- C24. `update_lru_order(id, n)` moves `id` to the front: for every `n ≥ 1`, array and
`id`, afterwards position 0 holds `id`, the entries after it among the first `n` are a
sublist of the old first `n` entries (they keep their relative order), and the entries from
position `n` on are unchanged; if `id` occurred among the first `n` entries the first `n`
entries are `id` followed by the old ones without the first occurrence of `id`, a
permutation of the old ones; if not, they are `id` followed by the old first `n - 1`
entries. -/
theorem update_lru_order_moves_to_front (a : Nat → Nat) (id n : Nat) (hn : 1 ≤ n) :
    update_lru_order a id n 0 = id ∧
    (arrList (update_lru_order a id n) n).tail.Sublist (arrList a n) ∧
    (∀ i, n ≤ i → update_lru_order a id n i = a i) ∧
    (id ∈ arrList a n →
      arrList (update_lru_order a id n) n = id :: (arrList a n).erase id ∧
      (arrList (update_lru_order a id n) n).Perm (arrList a n)) ∧
    (id ∉ arrList a n →
      arrList (update_lru_order a id n) n = id :: (arrList a n).take (n - 1)) := by
  obtain ⟨k, rfl⟩ : ∃ k, n = k + 1 := ⟨n - 1, by omega⟩
  have key : arrList (update_lru_order a id (k + 1)) (k + 1)
      = id :: ((arrList a (k + 1)).erase id).take k := by
    rw [arrList_update_lru_order]
    unfold touch
    rw [List.take_succ_cons]
  refine ⟨by rw [update_lru_order_apply, if_pos rfl], ?_,
    fun i hi => update_lru_order_beyond a id (k + 1) i (by omega) hi, ?_, ?_⟩
  · rw [key, List.tail_cons]
    exact (List.take_sublist _ _).trans (List.erase_sublist _ _)
  · intro hm
    have hlen : ((arrList a (k + 1)).erase id).length = k := by
      rw [List.length_erase_of_mem hm, arrList_length]
      rfl
    have ht : ((arrList a (k + 1)).erase id).take k = (arrList a (k + 1)).erase id := by
      rw [List.take_of_length_le (by omega)]
    rw [key, ht]
    exact ⟨rfl, (List.perm_cons_erase hm).symm⟩
  · intro hm
    rw [key, List.erase_of_not_mem hm]
    rfl

/-- C24 on an array that holds `id` among its first four entries. -/
theorem update_lru_order_moves_to_front_witness :
    1 ≤ 4 ∧ update_lru_order (fun i => 10 + i % 3) 12 4 0 = 12 :=
  ⟨by decide, (update_lru_order_moves_to_front (fun i => 10 + i % 3) 12 4 (by decide)).1⟩

/-- C26. The CLOCK hand moves on hits: in both modes, for each policy, in every state, a
reference is a hit exactly when the entry of its page is valid; a reference to a page whose
entry is valid, read or write, is handled, is a hit, leaves the `r` bit of the entry at 1,
takes the CLOCK hand from `h` to `(h + 1) mod fcount`, and leaves the ECLOCK hand and the
CLOCK and ECLOCK order arrays unchanged. -/
theorem clock_hand_moves_on_hits (c : Config) (s : State) (ref : Ref)
    (hl : c.level = 1 ∨ c.level = 2) :
    ((entryOf c s ref.addr).v = true →
      ∃ s1 rec, handle c s ref = some (s1, rec) ∧ rec.pageFault = false ∧
        (entryOf c s1 ref.addr).r = true ∧
        s1.clock_hand = (s.clock_hand + 1) % c.fcount ∧
        s1.eclock_hand = s.eclock_hand ∧
        s1.clock_hand_order = s.clock_hand_order ∧
        s1.eclock_hand_order = s.eclock_hand_order) ∧
    (∀ s1 rec, handle c s ref = some (s1, rec) → rec.pageFault = false →
      (entryOf c s ref.addr).v = true) := by
  refine ⟨fun hv => ?_, fun s1 rec h hp => ?_⟩
  · unfold handle
    rcases hl with h1 | h2
    · simp only [entryOf, if_pos h1] at hv
      rw [if_pos h1]
      obtain ⟨tbl1, m1, rec, ht, a1, -, a3, a4, a5, a6, a7⟩ :=
        translateRef_hit c true s.pt s.toMem (vpnOf ref.addr) ref hv
      rw [ht]
      refine ⟨_, rec, rfl, a1, ?_, a4, a5, a6, a7⟩
      simp only [entryOf, if_pos h1]
      exact a3
    · have h1 : ¬ c.level = 1 := by omega
      rw [if_neg h1, if_pos h2]
      cases hx : s.pt_array (pte1Of c.level ref.addr) with
      | none =>
        simp only [entryOf, if_neg h1, hx] at hv
        simp [init_pt] at hv
      | some t =>
        simp only [entryOf, if_neg h1, hx] at hv
        simp only [hx]
        obtain ⟨tbl1, m1, rec, ht, a1, -, a3, a4, a5, a6, a7⟩ :=
          translateRef_hit c false t s.toMem (pte2Of c.level ref.addr) ref hv
        rw [ht]
        refine ⟨_, rec, rfl, a1, ?_, a4, a5, a6, a7⟩
        simp only [entryOf, if_neg h1, upd_same]
        exact a3
  · rcases handle_cases _ _ _ _ _ h with ⟨h1, tbl, m, htr, -⟩ | ⟨h2, tbl, m, htr, -⟩
    · simp only [entryOf, if_pos h1]
      exact translateRef_nofault_valid _ _ _ _ _ _ _ _ _ htr hp
    · have h1 : ¬ c.level = 1 := by omega
      have hv := translateRef_nofault_valid _ _ _ _ _ _ _ _ _ htr hp
      simp only [entryOf, if_neg h1]
      cases hx : s.pt_array (pte1Of c.level ref.addr) with
      | none => simp only [hx] at hv ⊢; exact hv
      | some t => simp only [hx] at hv ⊢; exact hv

/-- C26 on the state after one read in level 2, for a write to the same page. -/
theorem clock_hand_moves_on_hits_witness :
    ((exConfig 2 Algo.CLOCK).level = 1 ∨ (exConfig 2 Algo.CLOCK).level = 2) ∧
    ∃ s1 rec, handle (exConfig 2 Algo.CLOCK)
        (stateAfter (exConfig 2 Algo.CLOCK) zeroSwap [rd 0x840]) (wr 0x841 5) = some (s1, rec) ∧
      rec.pageFault = false :=
  ⟨by decide,
    ((clock_hand_moves_on_hits (exConfig 2 Algo.CLOCK)
      (stateAfter (exConfig 2 Algo.CLOCK) zeroSwap [rd 0x840]) (wr 0x841 5)
      (by decide)).1 (by decide)).imp (fun _ h => h.imp (fun _ h2 => ⟨h2.1, h2.2.1⟩))⟩

/-- C27. ECLOCK pass 1 priority: for every `fcount` (so for those in [4,128]), every hand
position below `fcount`, every order array and every table in which the page of some slot has `r = 0` and
`m = 0`, the selection returns as victim the page of the first such slot in circular order
from the hand, with the table unchanged (no `r` bit is touched) and the hand one slot past
the victim modulo `fcount`; the victim has `m = 0`, and the ECLOCK replacement branch of
level 1 returns that victim and that hand. -/
theorem eclock_pass1_priority (c : Config) (order : Nat → Nat) (tbl : Nat → PTE) (hand : Nat)
    (hh : hand < c.fcount)
    (hex : ∃ i, i < c.fcount ∧ (tbl (order i)).r = false ∧ (tbl (order i)).m = false) :
    ∃ j, j < c.fcount ∧
      (∀ i, i < j → ¬ ((tbl (order ((hand + i) % c.fcount))).r = false ∧
        (tbl (order ((hand + i) % c.fcount))).m = false)) ∧
      (tbl (order ((hand + j) % c.fcount))).r = false ∧
      (tbl (order ((hand + j) % c.fcount))).m = false ∧
      eclockSelect c.fcount order tbl hand
        = (tbl, ((hand + j) % c.fcount + 1) % c.fcount,
            some (order ((hand + j) % c.fcount))) ∧
      (∀ (m : Mem) (idx : Nat), c.algo = Algo.ECLOCK → m.eclock_hand_order = order →
        m.eclock_hand = hand →
        ∃ o, replacePage c true tbl m idx = some o ∧
          o.victim = some (order ((hand + j) % c.fcount)) ∧
          o.mem.eclock_hand = ((hand + j) % c.fcount + 1) % c.fcount) := by
  obtain ⟨i, hi, hr, hm⟩ := hex
  obtain ⟨k, hk, hki⟩ := slot_from_hand c.fcount hand i hh hi
  have hP : ∃ k, (tbl (order ((hand + k) % c.fcount))).r = false ∧
      (tbl (order ((hand + k) % c.fcount))).m = false := ⟨k, by rw [hki]; exact ⟨hr, hm⟩⟩
  have hj := Nat.find_spec hP
  have hjk : Nat.find hP ≤ k := Nat.find_min' hP (by rw [hki]; exact ⟨hr, hm⟩)
  have hpass := eclockPass_first c.fcount order false (Nat.find hP) c.fcount tbl hand
    (by omega) hh (fun i hi => Nat.find_min hP hi) hj
  have hsel : eclockSelect c.fcount order tbl hand
      = (tbl, ((hand + Nat.find hP) % c.fcount + 1) % c.fcount,
          some (order ((hand + Nat.find hP) % c.fcount))) := by
    rw [eclockSelect_steps]
    have h1 : (eclockStep1 c.fcount order tbl hand).2.2 ≠ none := by
      unfold eclockStep1
      rw [hpass]
      simp
    rw [if_pos h1]
    unfold eclockStep1
    rw [hpass, Nat.mod_add_mod]
  refine ⟨Nat.find hP, by omega, fun i hi => Nat.find_min hP hi, hj.1, hj.2, hsel, ?_⟩
  intro m idx hA ho hm2
  subst ho hm2
  unfold replacePage
  simp only [hA, if_true, hsel]
  exact ⟨_, rfl, rfl, rfl⟩

/-- C27 with four frames, the hand on slot 1, and a table in which only the page of slot 0
has `r = 0` and `m = 0`. -/
theorem eclock_pass1_priority_witness :
    1 < (exConfig 1 Algo.ECLOCK).fcount ∧
    (∃ i, i < (exConfig 1 Algo.ECLOCK).fcount ∧
      ((fun p => ({ frame := p % 4, r := decide (p ≠ 10), m := decide (p ≠ 10), v := true } : PTE))
        ((fun i => i + 10) i)).r = false ∧
      ((fun p => ({ frame := p % 4, r := decide (p ≠ 10), m := decide (p ≠ 10), v := true } : PTE))
        ((fun i => i + 10) i)).m = false) ∧
    ∃ j, j < (exConfig 1 Algo.ECLOCK).fcount ∧
      (eclockSelect (exConfig 1 Algo.ECLOCK).fcount (fun i => i + 10)
        (fun p => { frame := p % 4, r := decide (p ≠ 10), m := decide (p ≠ 10), v := true })
        1).2.2 = some ((fun i => i + 10) ((1 + j) % (exConfig 1 Algo.ECLOCK).fcount)) :=
  ⟨by decide, ⟨0, by decide, by decide, by decide⟩,
    (eclock_pass1_priority (exConfig 1 Algo.ECLOCK) (fun i => i + 10)
      (fun p => { frame := p % 4, r := decide (p ≠ 10), m := decide (p ≠ 10), v := true }) 1
      (by decide) ⟨0, by decide, by decide, by decide⟩).imp
      (fun _ h => ⟨h.1, by rw [h.2.2.2.2.1]⟩)⟩

/-- C28, as the code has it: in level 1 under CLOCK and under ECLOCK, for `fcount` in
[4,128], every reference of a run from the initial state is handled, and after a fault on
page `p` served by replacement the order array of the policy is the previous array moved by
one slot towards position 0, with `p` in slot `fcount - 1`: slot `i` holds what slot `i + 1`
held, whatever the slot of the victim; the entries from `fcount` on and the array of the
other policy are unchanged. -/
theorem clock_order_shift (c : Config) (swap0 : Nat → Nat) (refs : List Ref)
    (hl : c.level = 1) (hf : 4 ≤ c.fcount ∧ c.fcount ≤ 128) :
    ∃ sf log, run c 0 (init c swap0) refs = some (sf, log) ∧
      ∀ t, t < refs.length →
        ∃ ref s e s1, refs[t]? = some ref ∧ log[t]? = some e ∧
          stepAt c swap0 refs t = some (s, e, s1) ∧
          (e.replaced = true →
            (c.algo = Algo.CLOCK →
              (∀ i, i + 1 < c.fcount → s1.clock_hand_order i = s.clock_hand_order (i + 1)) ∧
              s1.clock_hand_order (c.fcount - 1) = ref.addr >>> 6 ∧
              (∀ i, c.fcount ≤ i → s1.clock_hand_order i = s.clock_hand_order i) ∧
              s1.eclock_hand_order = s.eclock_hand_order) ∧
            (c.algo = Algo.ECLOCK →
              (∀ i, i + 1 < c.fcount → s1.eclock_hand_order i = s.eclock_hand_order (i + 1)) ∧
              s1.eclock_hand_order (c.fcount - 1) = ref.addr >>> 6 ∧
              (∀ i, c.fcount ≤ i → s1.eclock_hand_order i = s.eclock_hand_order i) ∧
              s1.clock_hand_order = s.clock_hand_order)) := by
  obtain ⟨sf, log, hr⟩ := run_total c (fun _ => by omega) (by omega) (Or.inl hl) refs 0 _
    (init_WF c swap0 (by omega))
  refine ⟨sf, log, hr, ?_⟩
  intro t ht
  obtain ⟨s0, ref, e, s1, g1, g2, g3, g4, g5, -⟩ := stepAt_of_run c swap0 refs sf log hr t ht
  refine ⟨ref, _, e, s1, g1, g5, g4, ?_⟩
  intro hrep
  have key : ∀ (a : Nat → Nat) (x : Nat),
      (∀ i, i + 1 < c.fcount → shiftIn c.fcount a x i = a (i + 1)) ∧
      shiftIn c.fcount a x (c.fcount - 1) = x ∧
      (∀ i, c.fcount ≤ i → shiftIn c.fcount a x i = a i) := by
    intro a x
    refine ⟨fun i hi => ?_, ?_, fun i hi => ?_⟩
    · rw [shiftIn_apply, if_neg (by omega), if_pos (by omega)]
    · rw [shiftIn_apply, if_pos rfl]
    · rw [shiftIn_apply, if_neg (by omega), if_neg (by omega)]
  rcases handle_cases _ _ _ _ _ g3 with ⟨-, tbl, m, htr, rfl⟩ | ⟨h2, -⟩
  · obtain ⟨k1, k2⟩ := translateRef_clock_orders _ _ _ _ _ _ _ _ hrep htr
    refine ⟨fun hA => ?_, fun hA => ?_⟩
    · obtain ⟨a1, a2⟩ := k1 hA
      obtain ⟨b1, b2, b3⟩ := key (age c t s0).clock_hand_order (vpnOf ref.addr)
      exact ⟨fun i hi => by show m.clock_hand_order i = _; rw [a1]; exact b1 i hi,
        by show m.clock_hand_order _ = _; rw [a1]; exact b2,
        fun i hi => by show m.clock_hand_order i = _; rw [a1]; exact b3 i hi, a2⟩
    · obtain ⟨a1, a2⟩ := k2 hA
      obtain ⟨b1, b2, b3⟩ := key (age c t s0).eclock_hand_order (vpnOf ref.addr)
      exact ⟨fun i hi => by show m.eclock_hand_order i = _; rw [a1]; exact b1 i hi,
        by show m.eclock_hand_order _ = _; rw [a1]; exact b2,
        fun i hi => by show m.eclock_hand_order i = _; rw [a1]; exact b3 i hi, a2⟩
  · omega

/-- C28 (as amended) on an ECLOCK trace with two replacements. -/
theorem clock_order_shift_witness :
    (exConfig 1 Algo.ECLOCK).level = 1 ∧
    (4 ≤ (exConfig 1 Algo.ECLOCK).fcount ∧ (exConfig 1 Algo.ECLOCK).fcount ≤ 128) ∧
    ∃ sf log, run (exConfig 1 Algo.ECLOCK) 0 (init (exConfig 1 Algo.ECLOCK) zeroSwap)
      [rd 0x0, wr 0x40 1, rd 0x80, rd 0xc0, rd 0x100, rd 0x140] = some (sf, log) :=
  ⟨by decide, by decide,
    (clock_order_shift (exConfig 1 Algo.ECLOCK) zeroSwap
      [rd 0x0, wr 0x40 1, rd 0x80, rd 0xc0, rd 0x100, rd 0x140]
      (by decide) (by decide)).imp (fun _ h => h.imp (fun _ h2 => h2.1))⟩

/-- C28 as stated fails: under CLOCK with four frames, the fifth reference of
`r 0x0000, r 0x0040, r 0x0080, r 0x00C0, r 0x0100` faults on page 4 and is served by
replacement; the hand is 0, `clock_hand_order` is 0, 1, 2, 3 and the victim is page 0, found
at position 0.  Afterwards `clock_hand_order` is 1, 2, 3, 4, not 4, 1, 2, 3: positions 1
to 3 have changed and position 0 does not hold page 4. -/
theorem clock_slot_replacement_counterexample :
    (stepAt (exConfig 1 Algo.CLOCK) zeroSwap
        [rd 0x0, rd 0x40, rd 0x80, rd 0xc0, rd 0x100] 4).map
      (fun x => (x.1.clock_hand, x.2.1.replaced, x.2.1.victim)) = some (0, true, some 0) ∧
    (stepAt (exConfig 1 Algo.CLOCK) zeroSwap
        [rd 0x0, rd 0x40, rd 0x80, rd 0xc0, rd 0x100] 4).map
      (fun x => (x.1.clock_hand_order 0, x.1.clock_hand_order 1, x.1.clock_hand_order 2,
        x.1.clock_hand_order 3)) = some (0, 1, 2, 3) ∧
    (stepAt (exConfig 1 Algo.CLOCK) zeroSwap
        [rd 0x0, rd 0x40, rd 0x80, rd 0xc0, rd 0x100] 4).map
      (fun x => (x.2.2.clock_hand_order 0, x.2.2.clock_hand_order 1,
        x.2.2.clock_hand_order 2, x.2.2.clock_hand_order 3)) = some (1, 2, 3, 4) := by
  decide!

/-- C30. Each page faults at most once in level 1: for `fcount` in [4,128], each policy,
every `tick > 0`, every content of the swap file and every trace of 16-bit addresses, the run
from the initial state is defined, and the final fault counter, which is also the number of
records marked as faults, is the number of distinct page numbers `addr >> 6` in the trace. -/
theorem one_fault_per_page (c : Config) (swap0 : Nat → Nat) (refs : List Ref)
    (hl : c.level = 1) (hf : 4 ≤ c.fcount ∧ c.fcount ≤ 128) (_ht : 0 < c.tick)
    (_h16 : ∀ r ∈ refs, r.addr < 65536) :
    ∃ sf log, run c 0 (init c swap0) refs = some (sf, log) ∧
      sf.pfault_count = (refs.map (fun r => r.addr >>> 6)).toFinset.card ∧
      (faultsOf log).length = (refs.map (fun r => r.addr >>> 6)).toFinset.card := by
  obtain ⟨sf, log, hr⟩ := run_total c (fun _ => by omega) (by omega) (Or.inl hl) refs 0 _
    (init_WF c swap0 (by omega))
  have hi := run_induct c (fun h s => WF c s ∧ FaultInv h s ∧ CountInv c h s) (fun _ => True)
    (fun h s i hi => ⟨age_WF c i s hi.1, FaultInv_age c h s i hi.2.1,
      CountInv_age c h s i hi.2.2⟩)
    (fun h s ref s1 rec _ hi hh =>
      ⟨(handle_WF c s s1 ref rec (by omega) (by omega) hi.1 hh).1,
        FaultInv_step c h s ref s1 rec hl (by omega) hi.1 hi.2.1 hh,
        CountInv_step c h s ref s1 rec hi.2.2 hh⟩)
    refs [] 0 _ sf log (fun _ _ => trivial)
    ⟨init_WF c swap0 (by omega), FaultInv_init c swap0, CountInv_init c swap0⟩ hr
  rw [List.nil_append] at hi
  have e : logPages log = refs.map (fun r => r.addr >>> 6) := run_logPages c _ _ _ _ _ hr
  have h1 : sf.pfault_count = (refs.map (fun r => r.addr >>> 6)).toFinset.card := by
    rw [← e]; exact hi.2.1.2
  exact ⟨sf, log, hr, h1, by rw [← hi.2.2.1, h1]⟩

/-- C30 on a CLOCK trace of eight references to five distinct pages. -/
theorem one_fault_per_page_witness :
    (exConfig 1 Algo.CLOCK).level = 1 ∧
    (4 ≤ (exConfig 1 Algo.CLOCK).fcount ∧ (exConfig 1 Algo.CLOCK).fcount ≤ 128) ∧
    0 < (exConfig 1 Algo.CLOCK).tick ∧
    (∀ r ∈ [rd 0x0, rd 0x40, wr 0x41 2, rd 0x80, rd 0xc0, rd 0x100, rd 0x0, rd 0x40],
      r.addr < 65536) ∧
    ∃ sf log, run (exConfig 1 Algo.CLOCK) 0 (init (exConfig 1 Algo.CLOCK) zeroSwap)
        [rd 0x0, rd 0x40, wr 0x41 2, rd 0x80, rd 0xc0, rd 0x100, rd 0x0, rd 0x40]
          = some (sf, log) ∧ sf.pfault_count = 5 :=
  ⟨by decide, by decide, by decide, by decide,
    (one_fault_per_page (exConfig 1 Algo.CLOCK) zeroSwap
      [rd 0x0, rd 0x40, wr 0x41 2, rd 0x80, rd 0xc0, rd 0x100, rd 0x0, rd 0x40]
      (by decide) (by decide) (by decide) (by decide)).imp
      (fun _ h => h.imp (fun _ h2 => ⟨h2.1, h2.2.1.trans (by decide)⟩))⟩

/-- C23. Configuration validation: take fifteen arguments on which `read_args` has defined
behaviour and whose seven option names (the arguments 1, 3, ..., 13) are known ones.  The
loop of `read_args` leaves in `level`, `fcount` and `tick` the `atoi` value of the value
given last for `-p`, `-f` and `-t` (0 when the option is not given) and in `addrfile`,
`swapfile`, `algo` and `outfile` the value given last for `-r`, `-s`, `-a` and `-o` (the empty
string when the option is not given).  `read_args` leaves with `exit(1)` exactly when that
level is outside {1,2} or that frame count is outside [4,128] or that policy name is not
one of FIFO, LRU, CLOCK, ECLOCK; and when the level is in {1,2}, the frame count is in
[4,128] and the policy is FIFO, LRU or CLOCK it returns with these values. -/
theorem config_validation (argv : List String) (hc : argv.length = 15) (_hok : ArgvOK argv)
    (hopt : ∀ i, i < 7 → ∃ o, argv[2 * i + 1]? = some o ∧ o ∈ knownOptions) :
    ∃ a, a = { level := ((optValue "-p" argv.tail).map atoi).getD 0,
               addrfile := (optValue "-r" argv.tail).getD "",
               swapfile := (optValue "-s" argv.tail).getD "",
               fcount := ((optValue "-f" argv.tail).map atoi).getD 0,
               algo := (optValue "-a" argv.tail).getD "",
               tick := ((optValue "-t" argv.tail).map atoi).getD 0,
               outfile := (optValue "-o" argv.tail).getD "" } ∧
      argLoop argv.tail argsZero = some a ∧
      (read_args argv = Except.error 1 ↔
        (a.level < 1 ∨ 2 < a.level ∨ a.fcount < 4 ∨ 128 < a.fcount ∨
          a.algo ∉ ["FIFO", "LRU", "CLOCK", "ECLOCK"])) ∧
      ((a.level = 1 ∨ a.level = 2) → 4 ≤ a.fcount → a.fcount ≤ 128 →
        a.algo ∈ ["FIFO", "LRU", "CLOCK"] → read_args argv = Except.ok a) := by
  obtain ⟨a0, tl, rfl⟩ : ∃ a0 tl, argv = a0 :: tl := by
    cases argv with
    | nil => simp at hc
    | cons a0 tl => exact ⟨a0, tl, rfl⟩
  obtain ⟨a, ha⟩ := argLoop_isSome 7 tl argsZero (by simp at hc; omega)
    (fun i hi => by
      obtain ⟨o, g1, g2⟩ := hopt i hi
      rw [List.getElem?_cons_succ] at g1
      exact ⟨o, g1, g2⟩)
  obtain ⟨f1, f2, f3, f4, f5, f6, f7⟩ := argLoop_fields tl.length tl argsZero a
    (Nat.le_refl _) ha
  have hr : read_args (a0 :: tl) =
      if a.level < 1 ∨ a.level > 2 then Except.error 1
      else if a.fcount < 4 ∨ a.fcount > 128 then Except.error 1
      else if a.algo ≠ "FIFO" ∧ a.algo ≠ "LRU" ∧ a.algo ≠ "CLOCK" ∧ a.algo ≠ "ECLOCK" then
        Except.error 1
      else Except.ok a := by
    unfold read_args
    rw [if_neg (by simp [hc]), List.tail_cons, ha]
  refine ⟨a, ?_, ha, ?_, ?_⟩
  · rw [List.tail_cons]
    cases a
    simp only [argsZero] at f1 f2 f3 f4 f5 f6 f7
    simp only [Args.mk.injEq]
    exact ⟨f1, f2, f3, f4, f5, f6, f7⟩
  · rw [hr]
    simp only [List.mem_cons, List.mem_singleton, List.not_mem_nil, or_false, not_or]
    by_cases h1 : a.level < 1 ∨ a.level > 2
    · rw [if_pos h1]
      simp only [true_iff]
      rcases h1 with h | h
      · exact Or.inl h
      · exact Or.inr (Or.inl h)
    · rw [if_neg h1]
      by_cases h2 : a.fcount < 4 ∨ a.fcount > 128
      · rw [if_pos h2]
        simp only [true_iff]
        rcases h2 with h | h
        · exact Or.inr (Or.inr (Or.inl h))
        · exact Or.inr (Or.inr (Or.inr (Or.inl h)))
      · rw [if_neg h2]
        by_cases h3 : a.algo ≠ "FIFO" ∧ a.algo ≠ "LRU" ∧ a.algo ≠ "CLOCK" ∧ a.algo ≠ "ECLOCK"
        · rw [if_pos h3]
          simp only [true_iff]
          exact Or.inr (Or.inr (Or.inr (Or.inr h3)))
        · rw [if_neg h3]
          constructor
          · intro h; simp at h
          · intro h
            exfalso
            rcases h with h | h | h | h | h
            · exact h1 (Or.inl h)
            · exact h1 (Or.inr h)
            · exact h2 (Or.inl h)
            · exact h2 (Or.inr h)
            · exact h3 h
  · intro hlv h4 h128 hal
    rw [hr, if_neg (by omega), if_neg (by omega), if_neg]
    simp only [List.mem_cons, List.mem_singleton, List.not_mem_nil, or_false] at hal
    rcases hal with h | h | h <;> simp [h]

/-- C23 on the command line `memsim -p 1 -r in.txt -s swap.bin -f 16 -a CLOCK -t 10 -o out.txt`,
which is accepted with level 1, 16 frames, CLOCK and tick 10; the same line with `-p 3`,
with `-f 200` or with `-a RANDOM` leaves with status 1. -/
theorem config_validation_witness :
    ["memsim", "-p", "1", "-r", "in.txt", "-s", "swap.bin", "-f", "16", "-a", "CLOCK", "-t",
      "10", "-o", "out.txt"].length = 15 ∧
    (read_args ["memsim", "-p", "1", "-r", "in.txt", "-s", "swap.bin", "-f", "16", "-a",
      "CLOCK", "-t", "10", "-o", "out.txt"]).toOption.map
        (fun a => (a.level, a.fcount, a.algo, a.tick)) = some (1, 16, "CLOCK", 10) ∧
    (match read_args ["memsim", "-p", "3", "-r", "in.txt", "-s", "swap.bin", "-f", "16", "-a",
      "CLOCK", "-t", "10", "-o", "out.txt"] with
      | Except.error n => n | Except.ok _ => 0) = 1 ∧
    (match read_args ["memsim", "-p", "1", "-r", "in.txt", "-s", "swap.bin", "-f", "200", "-a",
      "CLOCK", "-t", "10", "-o", "out.txt"] with
      | Except.error n => n | Except.ok _ => 0) = 1 ∧
    (match read_args ["memsim", "-p", "1", "-r", "in.txt", "-s", "swap.bin", "-f", "16", "-a",
      "RANDOM", "-t", "10", "-o", "out.txt"] with
      | Except.error n => n | Except.ok _ => 0) = 1 ∧
    ∃ a, a = { level := 1, addrfile := "in.txt", swapfile := "swap.bin", fcount := 16,
               algo := "CLOCK", tick := 10, outfile := "out.txt" } ∧
      read_args ["memsim", "-p", "1", "-r", "in.txt", "-s", "swap.bin", "-f", "16", "-a",
        "CLOCK", "-t", "10", "-o", "out.txt"] = Except.ok a :=
  ⟨by decide, by decide, by decide, by decide, by decide,
    (config_validation ["memsim", "-p", "1", "-r", "in.txt", "-s", "swap.bin", "-f", "16",
      "-a", "CLOCK", "-t", "10", "-o", "out.txt"] (by decide)
      (by unfold ArgvOK; decide) (by decide)).imp
      (fun _ h => ⟨h.1.trans (by decide),
        h.2.2.2 (by rw [h.1]; decide) (by rw [h.1]; decide) (by rw [h.1]; decide)
          (by rw [h.1]; decide)⟩)⟩

/-- C25, as the code has it: in level 1 under CLOCK, for `fcount` in [4,128], every reference
of a run from the initial state is handled, and a fault served by replacement selects its
victim in `n ≤ fcount` advances of the hand over the table and hand of the state; the `r`
bits that the selection clears are those of the pages of the `n` slots it passes over, all
of which were 1.  If the victim had `r = 1` when the selection started, the victim itself
is the page of a slot passed over, where its bit was cleared; and if the first `fcount`
entries of `clock_hand_order` are pairwise distinct, the selection also cleared the `r` bit
of another page. -/
theorem clock_second_chance (c : Config) (swap0 : Nat → Nat) (refs : List Ref)
    (hl : c.level = 1) (hA : c.algo = Algo.CLOCK) (hf : 4 ≤ c.fcount ∧ c.fcount ≤ 128) :
    ∃ sf log, run c 0 (init c swap0) refs = some (sf, log) ∧
      ∀ t, t < refs.length →
        ∃ ref s e s1, refs[t]? = some ref ∧ log[t]? = some e ∧
          stepAt c swap0 refs t = some (s, e, s1) ∧
          (e.replaced = true →
            ∃ n tbl0 k v, n ≤ c.fcount ∧
              clockSelect c.fcount s.clock_hand_order (n + 1) s.pt s.clock_hand
                = some (tbl0, k, v) ∧
              clockSelect c.fcount s.clock_hand_order n s.pt s.clock_hand = none ∧
              e.victim = some v ∧
              (∀ q, ((s.pt q).r = true ∧ (tbl0 q).r = false) ↔
                ∃ j, j < n ∧ s.clock_hand_order ((s.clock_hand + j) % c.fcount) = q) ∧
              ((s.pt v).r = true →
                (∃ j, j < n ∧ s.clock_hand_order ((s.clock_hand + j) % c.fcount) = v) ∧
                ((∀ i j, i < c.fcount → j < c.fcount →
                    s.clock_hand_order i = s.clock_hand_order j → i = j) →
                  ∃ q, q ≠ v ∧ (s.pt q).r = true ∧ (tbl0 q).r = false))) := by
  obtain ⟨sf, log, hr⟩ := run_total c (fun _ => by omega) (by omega) (Or.inl hl) refs 0 _
    (init_WF c swap0 (by omega))
  refine ⟨sf, log, hr, ?_⟩
  intro t ht
  obtain ⟨s0, ref, e, s1, g1, g2, g3, g4, g5, -⟩ := stepAt_of_run c swap0 refs sf log hr t ht
  have hw := stepAt_WF c swap0 refs t (by omega) (by omega) _ _ _ g4
  refine ⟨ref, _, e, s1, g1, g5, g4, ?_⟩
  intro hrep
  rcases handle_cases _ _ _ _ _ g3 with ⟨-, tbl, m, htr, -⟩ | ⟨h2, -⟩
  swap
  · omega
  generalize age c t s0 = s at hw htr
  obtain ⟨tbl0, k, v, hsel, hv, -⟩ :=
    translateRef_clock_select _ _ _ _ _ _ _ _ _ hA hrep htr
  obtain ⟨n, a1, a2, a3, a4, a5, a6⟩ :=
    clockSelect_scan c.fcount s.clock_hand_order _ s.pt s.clock_hand tbl0 k v hw.1 hsel
  obtain ⟨-, -, -, b4, b5⟩ := clockSelect_spec _ _ _ _ _ _ _ _ hsel
  have hclr : ∀ q, ((s.pt q).r = true ∧ (tbl0 q).r = false) ↔
      ∃ j, j < n ∧ s.clock_hand_order ((s.clock_hand + j) % c.fcount) = q := by
    intro q
    constructor
    · rintro ⟨q1, q2⟩
      by_contra hno
      have := a6 q (fun j hj hq => hno ⟨j, hj, hq⟩)
      rw [this, q1] at q2
      simp at q2
    · rintro ⟨j, hj, rfl⟩
      exact a5 j hj
  refine ⟨n, tbl0, k, v, by omega, a2, a3, hv, hclr, fun hrv => ?_⟩
  have hpass := (hclr v).mp ⟨hrv, b5⟩
  refine ⟨hpass, fun hinj => ?_⟩
  obtain ⟨j, hj, hjv⟩ := hpass
  have hslot : (s.clock_hand + j) % c.fcount = (s.clock_hand + n) % c.fcount := by
    apply hinj _ _ (Nat.mod_lt _ (by omega)) (Nat.mod_lt _ (by omega))
    rw [hjv, b4, a4]
  obtain ⟨rfl, hn⟩ := same_slot_full_turn c.fcount s.clock_hand j n hj (by omega) hslot
  refine ⟨s.clock_hand_order ((s.clock_hand + 1) % c.fcount), ?_, a5 1 (by omega)⟩
  intro hq
  rw [← hjv] at hq
  have := hinj _ _ (Nat.mod_lt _ (by omega)) (Nat.mod_lt _ (by omega)) hq
  have h2 := same_slot_full_turn c.fcount s.clock_hand 0 1 (by omega) (by omega) this.symm
  omega

/-- C25 (as amended) on a CLOCK trace without aging whose fifth reference is served by
replacement after a full turn of the hand. -/
theorem clock_second_chance_witness :
    clockConfig.level = 1 ∧ clockConfig.algo = Algo.CLOCK ∧
    (4 ≤ clockConfig.fcount ∧ clockConfig.fcount ≤ 128) ∧
    ∃ sf log, run clockConfig 0 (init clockConfig zeroSwap)
      [rd 0x0, rd 0x40, rd 0x80, rd 0xc0, rd 0x100] = some (sf, log) :=
  ⟨by decide, by decide, by decide,
    (clock_second_chance clockConfig zeroSwap [rd 0x0, rd 0x40, rd 0x80, rd 0xc0, rd 0x100]
      (by decide) (by decide) (by decide)).imp (fun _ h => h.imp (fun _ h2 => h2.1))⟩

/-- C25 as stated fails: level 1, CLOCK, four frames, `tick = 100`, trace
`r 0x0280, r 0x02C0, r 0x0300, r 0x0340, r 0x0040, r 0x0280, r 0x0280, r 0x0280, r 0x0500`.
Pages 10 to 13 take the four frames; the fault on page 1 is served by replacement and
leaves `clock_hand_order` as 1, 2, 3, 1 with the hand on 0; three hits move the hand to 3.
The fault on page 20 is then served by a selection that starts on slot 3 with page 1 at
`r = 1`, clears that bit, moves to slot 0 and returns page 1: the victim had `r = 1` when
the selection started, and of the 1024 pages no page other than page 1 that had `r = 1` has
`r = 0` after the selection. -/
theorem clock_second_chance_counterexample :
    (stepAt clockConfig zeroSwap
        [rd 0x280, rd 0x2c0, rd 0x300, rd 0x340, rd 0x40, rd 0x280, rd 0x280, rd 0x280,
          rd 0x500] 8).map
      (fun x => (x.2.1.replaced, x.2.1.victim, (x.1.pt 1).r, x.1.clock_hand))
      = some (true, some 1, true, 3) ∧
    (stepAt clockConfig zeroSwap
        [rd 0x280, rd 0x2c0, rd 0x300, rd 0x340, rd 0x40, rd 0x280, rd 0x280, rd 0x280,
          rd 0x500] 8).map
      (fun x => (x.1.clock_hand_order 0, x.1.clock_hand_order 1, x.1.clock_hand_order 2,
        x.1.clock_hand_order 3)) = some (1, 2, 3, 1) ∧
    (stepAt clockConfig zeroSwap
        [rd 0x280, rd 0x2c0, rd 0x300, rd 0x340, rd 0x40, rd 0x280, rd 0x280, rd 0x280,
          rd 0x500] 8).map
      (fun x => (clockSelect 4 x.1.clock_hand_order 5 x.1.pt x.1.clock_hand).map
        (fun y => (y.2.1, y.2.2))) = some (some (0, 1)) ∧
    (stepAt clockConfig zeroSwap
        [rd 0x280, rd 0x2c0, rd 0x300, rd 0x340, rd 0x40, rd 0x280, rd 0x280, rd 0x280,
          rd 0x500] 8).map
      (fun x => (clockSelect 4 x.1.clock_hand_order 5 x.1.pt x.1.clock_hand).map
        (fun y => (List.range 1024).all (fun q => q == 1 || !(x.1.pt q).r || (y.1 q).r)))
      = some (some true) := by
  decide!

/-- C31. Final flush: for `fcount` in [4,128], in level 1 and in level 2 under FIFO, LRU and
CLOCK, the run from the initial state is defined, and `write_pm_to_swap` on the physical
memory and swap file it ends with puts the 64 bytes of frame `i` at the positions
`[64i, 64i + 64)` for every `i < fcount`, whatever the page tables say about frame `i`,
leaves the bytes from `64 * fcount` on unchanged, and keeps the length of 65536 bytes.  The
same holds for every physical memory and every file of that length. -/
theorem final_flush (c : Config) (swap0 : Nat → Nat) (refs : List Ref)
    (hc : c.level = 1 ∨ (c.level = 2 ∧ c.algo ≠ Algo.ECLOCK))
    (hf : 4 ≤ c.fcount ∧ c.fcount ≤ 128) :
    (∃ sf log, run c 0 (init c swap0) refs = some (sf, log) ∧
      ∃ out, write_pm_to_swap sf.pm c.fcount (some { bytes := sf.swap, size := 65536 })
          = Except.ok out ∧
        (∀ i k, i < c.fcount → k < 64 → out.bytes (64 * i + k) = sf.pm i k) ∧
        (∀ j, 64 * c.fcount ≤ j → out.bytes j = sf.swap j) ∧ out.size = 65536) ∧
    (∀ (pm : Nat → Nat → Nat) (f : SwapFile), f.size = 65536 →
      ∃ out, write_pm_to_swap pm c.fcount (some f) = Except.ok out ∧
        (∀ i k, i < c.fcount → k < 64 → out.bytes (64 * i + k) = pm i k) ∧
        (∀ j, 64 * c.fcount ≤ j → out.bytes j = f.bytes j) ∧ out.size = 65536) := by
  have key : ∀ (pm : Nat → Nat → Nat) (f : SwapFile), f.size = 65536 →
      ∃ out, write_pm_to_swap pm c.fcount (some f) = Except.ok out ∧
        (∀ i k, i < c.fcount → k < 64 → out.bytes (64 * i + k) = pm i k) ∧
        (∀ j, 64 * c.fcount ≤ j → out.bytes j = f.bytes j) ∧ out.size = 65536 := by
    intro pm f hs
    obtain ⟨-, a2, a3⟩ := flushLoop_spec pm f c.fcount
    refine ⟨_, rfl, fun i k hi hk => ?_, fun j hj => ?_, ?_⟩
    · rw [a2, if_pos (by omega)]
      have e1 : (64 * i + k) / 64 = i := by omega
      have e2 : (64 * i + k) % 64 = k := by omega
      rw [e1, e2]
    · rw [a2, if_neg (by omega)]
    · rw [a3, hs]
      omega
  obtain ⟨sf, log, hr⟩ := run_total c (fun _ => by omega) (by omega) hc refs 0 _
    (init_WF c swap0 (by omega))
  exact ⟨⟨sf, log, hr, key sf.pm { bytes := sf.swap, size := 65536 } rfl⟩, key⟩

/-- C31 on a FIFO trace with a write and a replacement. -/
theorem final_flush_witness :
    ((exConfig 1 Algo.FIFO).level = 1 ∨
      ((exConfig 1 Algo.FIFO).level = 2 ∧ (exConfig 1 Algo.FIFO).algo ≠ Algo.ECLOCK)) ∧
    (4 ≤ (exConfig 1 Algo.FIFO).fcount ∧ (exConfig 1 Algo.FIFO).fcount ≤ 128) ∧
    ∃ sf log, run (exConfig 1 Algo.FIFO) 0 (init (exConfig 1 Algo.FIFO) zeroSwap)
      [wr 0x43 7, rd 0x80, rd 0xc0, rd 0x100, rd 0x140] = some (sf, log) :=
  ⟨by decide, by decide,
    (final_flush (exConfig 1 Algo.FIFO) zeroSwap [wr 0x43 7, rd 0x80, rd 0xc0, rd 0x100, rd 0x140]
      (by decide) (by decide)).1.imp (fun _ h => h.imp (fun _ h2 => h2.1))⟩

/-- C32. Index safety in level 1: for `fcount` in [4,128], each policy, `tick > 0` and
every trace of 16-bit addresses, the run from the initial state is defined, and in the
initial state, in the state in which each reference is handled, in the state after it and
in the final state the CLOCK and ECLOCK hands are below `fcount`, the free-frame cursor is
at most `fcount`, the frame of every page-table entry is below `fcount`, and the first
`fcount` entries of the four order arrays are below 1024.  For each reference the page
number is below 1024 and the offset below 64, the reported frame is in `[0, fcount)`, a
fault served from a free frame finds the cursor below `fcount`, and a fault served by
replacement has a victim, which is below 1024 and whose entry holds a frame below
`fcount`. -/
theorem index_safety (c : Config) (swap0 : Nat → Nat) (refs : List Ref)
    (hl : c.level = 1) (hf : 4 ≤ c.fcount ∧ c.fcount ≤ 128) (_ht : 0 < c.tick)
    (h16 : ∀ r ∈ refs, r.addr < 65536) :
    InBounds c (init c swap0) ∧
    ∃ sf log, run c 0 (init c swap0) refs = some (sf, log) ∧ InBounds c sf ∧
      ∀ t, t < refs.length →
        ∃ ref s e s1, refs[t]? = some ref ∧ log[t]? = some e ∧
          stepAt c swap0 refs t = some (s, e, s1) ∧
          InBounds c s ∧ InBounds c s1 ∧
          ref.addr >>> 6 < 1024 ∧ ref.addr &&& 63 < 64 ∧
          0 ≤ e.pfn ∧ e.pfn < (c.fcount : Int) ∧
          (e.pageFault = true → e.replaced = false → s.next_empty_frame < c.fcount) ∧
          (e.replaced = true →
            ∃ v, e.victim = some v ∧ v < 1024 ∧ (s.pt v).frame < c.fcount) := by
  have hf0 : 0 < c.fcount := by omega
  have hf1 : c.fcount ≤ 8192 := by omega
  have hinit : WF c (init c swap0) ∧ OrdBound c (init c swap0) :=
    ⟨init_WF c swap0 hf0, OrdBound_init c swap0 (by omega)⟩
  have hinv : ∀ (l : List Ref) (s1 : State) (lg : List Record), (∀ r ∈ l, r.addr < 65536) →
      run c 0 (init c swap0) l = some (s1, lg) → WF c s1 ∧ OrdBound c s1 := by
    intro l s1 lg hl16 hrun
    exact run_induct c (fun _ s => WF c s ∧ OrdBound c s) (fun r => r.addr < 65536)
      (fun h s i hi => ⟨age_WF c i s hi.1, OrdBound_age c i s hi.2⟩)
      (fun h s ref s1 rec hr hi hh =>
        ⟨(handle_WF c s s1 ref rec hf0 hf1 hi.1 hh).1,
          OrdBound_step c s s1 ref rec hl hi.1 (vpnOf_lt _ hr) hi.2 hh⟩)
      l [] 0 _ s1 lg hl16 hinit hrun
  obtain ⟨sf, log, hr⟩ := run_total c (fun _ => by omega) hf1 (Or.inl hl) refs 0 _ hinit.1
  obtain ⟨wf, of⟩ := hinv refs sf log h16 hr
  refine ⟨InBounds_of c _ hinit.1 hinit.2, sf, log, hr, InBounds_of c sf wf of, ?_⟩
  intro t ht
  obtain ⟨s0, ref, e, s1, g1, g2, g3, g4, g5, g6⟩ := stepAt_of_run c swap0 refs sf log hr t ht
  have hmem : ref ∈ refs := List.getElem?_mem g1
  have hp : vpnOf ref.addr < 1024 := vpnOf_lt _ (h16 ref hmem)
  obtain ⟨w0, o0⟩ := hinv (refs.take t) s0 (log.take t)
    (fun r hr2 => h16 r (List.mem_of_mem_take hr2)) g2
  have wa := age_WF c t s0 w0
  have oa := OrdBound_age c t s0 o0
  have w1 := (handle_WF c _ s1 ref e hf0 hf1 wa g3).1
  have o1 := OrdBound_step c _ s1 ref e hl wa hp oa g3
  obtain ⟨-, -, -, -, b5, b6, -⟩ := handle_reported c _ s1 ref e hl hf0 hf1 wa g3
  refine ⟨ref, _, e, s1, g1, g5, g4, InBounds_of c _ wa oa, InBounds_of c s1 w1 o1, hp,
    offsetOf_lt ref.addr, b5, b6, ?_, ?_⟩
  · intro hpf hnr
    rcases handle_counts c _ s1 ref e g3 with ⟨a1, -⟩ | ⟨-, -, -, a4, -⟩ | ⟨-, a2, -⟩
    · rw [a1] at hpf; simp at hpf
    · exact a4
    · rw [a2] at hnr; simp at hnr
  · intro hrep
    rcases handle_cases _ _ _ _ _ g3 with ⟨-, tbl, m, htr, -⟩ | ⟨h2, -⟩
    · obtain ⟨-, e2⟩ := translateRef_entry _ _ _ _ _ _ _ _ _ hf1 wa.2.2.2.1 htr
      obtain ⟨-, -, o3⟩ := translateRef_hand_orders _ _ _ _ _ _ _ _ _ hf0 wa.1 wa.2.1 htr
      rcases e2 hrep with ⟨x1, -⟩ | ⟨v, a1, -⟩
      · simp at x1
      · obtain ⟨i, hi, hv⟩ := o3 v a1
        refine ⟨v, a1, ?_, wa.2.2.2.1.1 v⟩
        rcases hv with hv | hv | hv | hv
        · rw [hv]; exact (oa i hi).1
        · rw [hv]; exact (oa i hi).2.1
        · rw [hv]; exact (oa i hi).2.2.1
        · rw [hv]; exact (oa i hi).2.2.2
    · omega

/-- C32 on an ECLOCK trace with writes, hits and two replacements. -/
theorem index_safety_witness :
    (exConfig 1 Algo.ECLOCK).level = 1 ∧
    (4 ≤ (exConfig 1 Algo.ECLOCK).fcount ∧ (exConfig 1 Algo.ECLOCK).fcount ≤ 128) ∧
    0 < (exConfig 1 Algo.ECLOCK).tick ∧
    (∀ r ∈ [rd 0xffc0, wr 0x47 9, rd 0x80, rd 0xc0, rd 0x47, rd 0x100, wr 0x140 3],
      r.addr < 65536) ∧
    ∃ sf log, run (exConfig 1 Algo.ECLOCK) 0 (init (exConfig 1 Algo.ECLOCK) zeroSwap)
      [rd 0xffc0, wr 0x47 9, rd 0x80, rd 0xc0, rd 0x47, rd 0x100, wr 0x140 3]
        = some (sf, log) :=
  ⟨by decide, by decide, by decide, by decide,
    (index_safety (exConfig 1 Algo.ECLOCK) zeroSwap
      [rd 0xffc0, wr 0x47 9, rd 0x80, rd 0xc0, rd 0x47, rd 0x100, wr 0x140 3]
      (by decide) (by decide) (by decide) (by decide)).2.imp
      (fun _ h => h.imp (fun _ h2 => h2.1))⟩

end Memsim
